import Mathlib

/-!
# Verification of the patio-planner exact-cover solver core

A shallow embedding of `src/solver.worker.ts`.  Cells are integer pairs (the
JS code stores them as `"x,y"` string keys inside `Set`/`Map`; the string key
is an injective serialization of the integer pair, so sets of keys are
modelled as `Finset (Int × Int)` and per-key maps as association lists).
Mutable search state is passed explicitly: the JS `place`/`unplace`
(resp. `chooseRow`/`unchooseRow`) pairs implement undo of a mutable search
position, which in the functional translation is obtained for free by
passing the extended position only to the recursive call, so the `trail`
and `bannedRowsStack` undo machinery has no separate representation.
`Math.random()` is modelled by an arbitrary stream `rng : Nat → Nat`
together with a draw counter; a draw bounded by `n` is `rng k % n`
(every sequence of JS draws is realized by some stream).
JS `Infinity` (unbounded tile stock, unbounded area) is modelled by
`Option Nat` with `none` for `Infinity`.  JS exceptions are modelled with
`Except String`.  The floating-point balance scores are modelled over `ℚ`
(no claim depends on rounding).
-/

namespace Patio

abbrev Cell := Int × Int

/-- Insert into a sorted list, before the first element not `le`-below the
new one (ties keep the earlier element first, as a stable JS sort does). -/
def insertLe (le : α → α → Bool) (a : α) : List α → List α
  | [] => [a]
  | b :: bs => if le a b then a :: b :: bs else b :: insertLe le a bs

/-- Stable sort by a boolean `≤` test, modelling `Array.prototype.sort` with
a comparator (structural recursion so that proofs can evaluate it). -/
def sortBy (le : α → α → Bool) : List α → List α
  | [] => []
  | a :: as => insertLe le a (sortBy le as)

/-- JS cell sort comparator `(a,b)=>a[1]-b[1]||a[0]-b[0]`, as a boolean `≤` test. -/
def cellLe (a b : Cell) : Bool :=
  decide (a.2 < b.2 ∨ (a.2 = b.2 ∧ a.1 ≤ b.1))

/-- `normShape` from the source: translate so the minimum x and y are 0 and
sort by `(y,x)`.  The JS `Infinity`-seeded fold computes the minimum of a
nonempty coordinate list, modelled with `min?` (the default is irrelevant:
for an empty list the `map` below produces `[]`). -/
def normShape (cells : List Cell) : List Cell :=
  let minx := ((cells.map Prod.fst).min?).getD 0
  let miny := ((cells.map Prod.snd).min?).getD 0
  sortBy cellLe (cells.map (fun c => (c.1 - minx, c.2 - miny)))

/-- `rot90` from the source: `(x,y) ↦ (-y,x)`. -/
def rot90 (c : List Cell) : List Cell := c.map (fun p => (-p.2, p.1))

/-- `reflX` from the source: `(x,y) ↦ (-x,y)`. -/
def reflX (c : List Cell) : List Cell := c.map (fun p => (-p.1, p.2))

/-- The `push` closure of `orientations`: insert the normalized shape if not
yet seen.  The JS code dedups by the string key `"x0,y0;x1,y1;…"`, which is an
injective serialization of the normalized cell list, and finally parses the
keys back into cell lists; dedup by the cell list itself is the same map. -/
def pushOrient (seen : List (List Cell)) (s : List Cell) : List (List Cell) :=
  let n := normShape s
  if n ∈ seen then seen else seen ++ [n]

/-- `orientations` from the source. -/
def orientations (base : List Cell) (rot refl : Bool) : List (List Cell) :=
  let cand := base ::
    (if rot then [rot90 base, rot90 (rot90 base), rot90 (rot90 (rot90 base))] else [])
  cand.foldl (fun seen c =>
    let seen := pushOrient seen c
    if refl then pushOrient seen (reflX c) else seen) []

/-- `boardCells` from the source: free cells in row-major order (`y` outer,
`x` inner), skipping holes. -/
def boardCells (W H : Nat) (holes : Finset Cell) : List Cell :=
  (List.range H).flatMap (fun (y : Nat) =>
    (List.range W).filterMap (fun (x : Nat) =>
      let c : Cell := ((x : Int), (y : Int))
      if c ∈ holes then none else some c))

abbrev Transform := Cell → Cell

/-- `boardSymTransforms` from the source: the full D4 list for square boards,
and `[identity, horizontal flip, vertical flip]` for rectangular boards. -/
def boardSymTransforms (W H : Nat) : List Transform :=
  if W = H then
    [fun p => (p.1, p.2),
     fun p => (p.2, (W : Int) - 1 - p.1),
     fun p => ((W : Int) - 1 - p.1, (H : Int) - 1 - p.2),
     fun p => ((H : Int) - 1 - p.2, p.1),
     fun p => ((W : Int) - 1 - p.1, p.2),
     fun p => (p.1, (H : Int) - 1 - p.2),
     fun p => (p.2, p.1),
     fun p => ((W : Int) - 1 - p.2, (H : Int) - 1 - p.1)]
  else
    [fun p => (p.1, p.2),
     fun p => ((W : Int) - 1 - p.1, p.2),
     fun p => (p.1, (H : Int) - 1 - p.2)]

/-- A tile type (`tileTypes` payload entries).  `count = none` is the JS
`null`/absent count, i.e. unbounded stock. -/
structure TileType where
  name : String
  base : List Cell
  allowRot : Bool
  allowReflect : Bool
  count : Option Nat
deriving DecidableEq, Repr

/-- A placement `{ti, cells}`. -/
structure Placement where
  ti : Nat
  cells : List Cell
deriving DecidableEq, Repr

/-- The `byCell` reverse index: association list from cell to pid list
(a JS `Map` keyed by the `"x,y"` serialization of the cell). -/
abbrev ByCell := List (Cell × List Nat)

/-- `if(!byCell.has(k)) byCell.set(k,[]); byCell.get(k).push(pid)`. -/
def byCellAdd : ByCell → Cell → Nat → ByCell
  | [], k, pid => [(k, [pid])]
  | (k', v) :: rest, k, pid =>
    if k' = k then (k', v ++ [pid]) :: rest else (k', v) :: byCellAdd rest k pid

/-- `byCell.get(k) || []`. -/
def byCellGet (m : ByCell) (k : Cell) : List Nat := (m.lookup k).getD []

structure Precomp where
  placements : List Placement
  byCell : ByCell

/-- Register one kept placement: append it and index its cells. -/
def addPlacement (acc : Precomp) (ti : Nat) (abs : List Cell) : Precomp :=
  let pid := acc.placements.length
  { placements := acc.placements ++ [⟨ti, abs⟩],
    byCell := abs.foldl (fun m c => byCellAdd m c pid) acc.byCell }

/-- JS `Math.max(...o.map _)` over a (nonempty) orientation. -/
def maxCoord (f : Cell → Int) (o : List Cell) : Int := ((o.map f).max?).getD 0

/-- The offset grid `0 ≤ oy ≤ H-1-maxy`, `0 ≤ ox ≤ W-1-maxx` (oy outer). -/
def placeOffsets (W H : Nat) (o : List Cell) : List Cell :=
  let maxx := maxCoord Prod.fst o
  let maxy := maxCoord Prod.snd o
  (List.range (((H : Int) - maxy).toNat)).flatMap (fun oy =>
    (List.range (((W : Int) - maxx).toNat)).map (fun ox => ((ox : Int), (oy : Int))))

/-- `precomputePlacements` from the source. -/
def precomputePlacements (W H : Nat) (boardSet : Finset Cell)
    (tiles : List TileType) : Precomp :=
  tiles.enum.foldl (fun acc ent =>
    let ti := ent.1
    let t := ent.2
    (orientations t.base t.allowRot t.allowReflect).foldl (fun acc o =>
      (placeOffsets W H o).foldl (fun acc off =>
        let abs := o.map (fun c => (c.1 + off.1, c.2 + off.2))
        if abs.all (fun c => decide (c ∈ boardSet)) then addPlacement acc ti abs
        else acc) acc) acc)
    ⟨[], []⟩

/-- JS number-to-string for a cell, `` `${x},${y}` ``. -/
def cellStr (c : Cell) : String := toString c.1 ++ "," ++ toString c.2

/-- Three-way compare of cells by `(y,x)`. -/
def cellCmp (a b : Cell) : Ordering := (compare a.2 b.2).then (compare a.1 b.1)

/-- The placement comparator of `canonicalKey`: compare cell lists
lexicographically by `(y,x)` up to the shorter length, then by length. -/
def cellsCmp : List Cell → List Cell → Ordering
  | [], [] => .eq
  | [], _ :: _ => .lt
  | _ :: _, [] => .gt
  | a :: as, b :: bs => (cellCmp a b).then (cellsCmp as bs)

/-- Full placement comparator (`ti` as final tiebreaker), as a `≤` test. -/
def placLe (A B : Placement) : Bool :=
  ((cellsCmp A.cells B.cells).then (compare A.ti B.ti)) ≠ .gt

/-- One transform's serialization inside `canonicalKey`: map the cells,
sort them by `(y,x)` inside each placement, sort the placement list, and
join with `";"` / `"|"`. -/
def serializeLayout (f : Transform) (layout : List Placement) : String :=
  let tPlac := sortBy placLe (layout.map (fun p =>
    Placement.mk p.ti (sortBy cellLe (p.cells.map f))))
  String.intercalate "|"
    (tPlac.map (fun p => String.intercalate ";" (p.cells.map cellStr)))

/-- The free-set invariance test of `canonicalKey`: the transformed board set
has the same size and contains every original key. -/
def transformOk (f : Transform) (boardSet : Finset Cell) : Bool :=
  let TB := boardSet.image f
  decide (TB.card = boardSet.card) && decide (boardSet ⊆ TB)

/-- JS string `<`: lexicographic comparison by code unit.  (The serialized
keys are ASCII, where code units and code points agree.) -/
def charListLt : List Char → List Char → Bool
  | [], [] => false
  | [], _ :: _ => true
  | _ :: _, [] => false
  | a :: as, b :: bs =>
    if a.toNat < b.toNat then true
    else if b.toNat < a.toNat then false
    else charListLt as bs

def strLt (s t : String) : Bool := charListLt s.data t.data

/-- `if(best===null || s<best) best=s`. -/
def updateBest (best : Option String) (s : String) : Option String :=
  match best with
  | none => some s
  | some b => if strLt s b then some s else some b

/-- The loop body of `canonicalKey`: skip transforms failing the free-set
invariance test, otherwise fold the serialization into the running best. -/
def canonStep (layout : List Placement) (boardSet : Option (Finset Cell))
    (best : Option String) (f : Transform) : Option String :=
  match boardSet with
  | some bs => if transformOk f bs then updateBest best (serializeLayout f layout) else best
  | none => updateBest best (serializeLayout f layout)

/-- `canonicalKey` from the source.  The `tiles` argument of the JS function
is unused by its body, as is this one.  `boardSet = none` models the JS call
without the optional `boardSet` argument (never used by this program). -/
def canonicalKey (layout : List Placement) (W H : Nat) (_tiles : List TileType)
    (useSym : Bool) (boardSet : Option (Finset Cell)) : Option String :=
  let T := if useSym then boardSymTransforms W H else [fun p => (p.1, p.2)]
  T.foldl (canonStep layout boardSet) none

/-! ## Pre-flight -/

def noTilesReason : String := "No tiles available (all counts are 0)."

def insufficientAreaReason (N m : Nat) : String :=
  "Insufficient total tile area: need " ++ toString N ++ ", have at most " ++
    toString m ++ "."

def oddBoardReason : String :=
  "Board has an odd number of unit cells, but all tiles cover an even number of cells."

def gcdReason (N g : Nat) : String :=
  "Board free area (" ++ toString N ++ ") is not a multiple of gcd of tile areas (" ++
    toString g ++ ")."

def parityReason (d : Nat) : String :=
  "Parity mismatch: board has black/white imbalance of " ++ toString d ++
    ", but all tiles are parity-neutral (rectangles with at least one even side)."

/-- JS `gcd(a,b) = b ? gcd(b, a%b) : Math.abs(a)`, on naturals this is
`Nat.gcd` (same recursion). -/
def gcdMany (arr : List Nat) : Nat :=
  match arr with
  | [] => 0
  | a :: rest => rest.foldl Nat.gcd a

/-- Black/white cell tally: `(x+y)&1` nonzero counts black. -/
def countBW (cells : List Cell) : Nat × Nat :=
  cells.foldl (fun bw c =>
    if (c.1 + c.2) % 2 ≠ 0 then (bw.1 + 1, bw.2) else (bw.1, bw.2 + 1)) (0, 0)

structure BWCount where
  black : Nat
  white : Nat
  delta : Nat

/-- `countBoardBW` from the source. -/
def countBoardBW (cells : List Cell) : BWCount :=
  let bw := countBW cells
  ⟨bw.1, bw.2, ((bw.1 : Int) - bw.2).natAbs⟩

/-- `tileBWDelta` from the source. -/
def tileBWDelta (shape : List Cell) : Nat :=
  let bw := countBW shape
  ((bw.1 : Int) - bw.2).natAbs

/-- JS `Infinity`-absorbing addition on `Option Nat` (`none` = `Infinity`). -/
def optAdd (a : Option Nat) (b : Option Nat) : Option Nat :=
  match a, b with
  | some x, some y => some (x + y)
  | _, _ => none

structure Preflight where
  ok : Bool
  reasons : List String

/-- The reasons list assembled by `preflight`. -/
def preflightReasons (W H : Nat) (holesSet : Finset Cell) (tiles : List TileType) :
    List String :=
  let free := boardCells W H holesSet
  let N := free.length
  -- tile areas & capacity: fold computing (maxArea, allEven, anyTile)
  let stats := tiles.foldl (fun (st : Option Nat × Bool × Bool) t =>
    match t.count with
    | some 0 => st
    | some c => (optAdd st.1 (some (c * t.base.length)),
        (if t.base.length % 2 ≠ 0 then false else st.2.1), true)
    | none => (optAdd st.1 none,
        (if t.base.length % 2 ≠ 0 then false else st.2.1), true))
    (some 0, true, false)
  let maxArea := stats.1
  let allEven := stats.2.1
  let anyTile := stats.2.2
  let r1 : List String := if !anyTile then [noTilesReason] else []
  let r2 : List String := r1 ++
    (match maxArea with
     | some m => if m < N then [insufficientAreaReason N m] else []
     | none => [])
  let r3 : List String := r2 ++
    (if N % 2 = 1 ∧ allEven then [oddBoardReason] else [])
  let usableAreas := (tiles.filter (fun t =>
    match t.count with | some 0 => false | _ => true)).map (fun t => t.base.length)
  let r4 : List String := r3 ++
    (if usableAreas ≠ [] then
      (let g := gcdMany usableAreas
       if N % g ≠ 0 then [gcdReason N g] else [])
     else [])
  let bw := countBoardBW free
  let tilesBWNeutral := tiles.all (fun t => tileBWDelta t.base = 0)
  let r5 : List String := r4 ++
    (if tilesBWNeutral ∧ bw.delta ≠ 0 then [parityReason bw.delta] else [])
  r5

/-- `preflight` from the source: `ok` iff no reason fired. -/
def preflight (W H : Nat) (holesSet : Finset Cell) (tiles : List TileType) :
    Preflight :=
  ⟨(preflightReasons W H holesSet tiles).length = 0, preflightReasons W H holesSet tiles⟩

/-! ## Worker messages -/

/-- The messages the worker posts (`self.postMessage`). -/
inductive Msg where
  | infeasible (reasons : List String)
  | result (found : Nat) (layout : Option (List Placement)) (score : Option ℚ)
  | error (message : String)
  | progress (nodes found : Nat)
deriving DecidableEq, Repr

instance : Inhabited TileType := ⟨⟨"", [], false, false, none⟩⟩
instance : Inhabited Placement := ⟨⟨0, []⟩⟩

/-! ## Enumeration engine (`enumerateTilings`) -/

/-- The mutable search position of `enumerateTilings` (restored by
`unplace` in the JS code; here simply not propagated back). -/
structure EnumPos where
  covered : Finset Cell
  usedCounts : List Nat
  usedPlacements : List Nat
  coveredCount : Nat

/-- The accumulating part of the search state (never rolled back in JS). -/
structure EnumAcc where
  seen : Finset (Option String)
  solutions : List (List Placement)
  nodes : Nat
  rngK : Nat
  msgs : List Msg

/-- Everything `rec` closes over. -/
structure EnumCtx where
  W : Nat
  H : Nat
  tiles : List TileType
  pc : Precomp
  allCells : List Cell
  totalCells : Nat
  boardSet : Finset Cell
  uniqueByBoardSymmetry : Bool
  capSolutions : Nat
  progressCb : Option (Nat → Nat → List Msg)
  rng : Nat → Nat

/-- `place(pid)` from the source. -/
def place (placements : List Placement) (pos : EnumPos) (pid : Nat) : EnumPos :=
  let p := placements.getD pid default
  { covered := p.cells.foldl (fun s c => insert c s) pos.covered,
    usedCounts := pos.usedCounts.set p.ti (pos.usedCounts.getD p.ti 0 + 1),
    usedPlacements := pos.usedPlacements ++ [pid],
    coveredCount := pos.coveredCount + p.cells.length }

/-- `validPidsForCell` from the source: placements through this cell whose
tile type has remaining stock and whose cells are all uncovered. -/
def validPidsForCell (tiles : List TileType) (pc : Precomp) (pos : EnumPos)
    (k : Cell) : List Nat :=
  (byCellGet pc.byCell k).filter (fun pid =>
    let p := pc.placements.getD pid default
    (match (tiles.getD p.ti default).count with
     | some limit => decide (pos.usedCounts.getD p.ti 0 < limit)
     | none => true)
    && p.cells.all (fun c => decide (c ∉ pos.covered)))

/-- The scanning loop of `chooseCellAndPids`: MRV cell selection with an
immediate dead-end return on an empty candidate list and a break on a
forced (single-candidate) cell. -/
def chooseAux (tiles : List TileType) (pc : Precomp) (pos : EnumPos) :
    List Cell → Option Cell → List Nat → Nat → (Option Cell × List Nat)
  | [], bestCell, bestPids, _ => (bestCell, bestPids)
  | k :: rest, bestCell, bestPids, bestLen =>
    if k ∈ pos.covered then chooseAux tiles pc pos rest bestCell bestPids bestLen
    else
      let cands := validPidsForCell tiles pc pos k
      if cands.length = 0 then (some k, [])
      else if cands.length < bestLen then
        (if cands.length = 1 then (some k, cands)
         else chooseAux tiles pc pos rest (some k) cands cands.length)
      else chooseAux tiles pc pos rest bestCell bestPids bestLen

/-- `chooseCellAndPids` from the source (`bestLen` starts at `1e9`). -/
def chooseCellAndPids (tiles : List TileType) (pc : Precomp) (pos : EnumPos)
    (allCells : List Cell) : Option Cell × List Nat :=
  chooseAux tiles pc pos allCells none [] 1000000000

/-- Swap two positions of a list (the JS destructuring swap). -/
def swapAt (l : List Nat) (i j : Nat) : List Nat :=
  let xi := l.getD i 0
  let xj := l.getD j 0
  (l.set i xj).set j xi

/-- The Fisher–Yates loop `for(i=len-1;i>0;i--){ j=(Math.random()*(i+1))|0; swap }`.
The first argument is the current index `i`; `k` is the random-draw counter. -/
def shuffleAux (rng : Nat → Nat) : Nat → List Nat → Nat → (List Nat × Nat)
  | 0, l, k => (l, k)
  | i + 1, l, k =>
    let j := rng k % (i + 2)
    shuffleAux rng i (swapAt l (i + 1) j) (k + 1)

def shuffle (rng : Nat → Nat) (l : List Nat) (k : Nat) : List Nat × Nat :=
  shuffleAux rng (l.length - 1) l k

/-- `++nodes`, emitting a progress event every 5000 nodes. -/
def bumpNodes (ctx : EnumCtx) (acc : EnumAcc) : EnumAcc :=
  let nodes := acc.nodes + 1
  let msgs := if nodes % 5000 = 0 then
      (match ctx.progressCb with
       | some cb => acc.msgs ++ cb nodes acc.solutions.length
       | none => acc.msgs)
    else acc.msgs
  { acc with nodes := nodes, msgs := msgs }

/-- Completion step of `rec`: build the layout from the used placements and
keep it unless its canonical key was already seen. -/
def recordSolution (ctx : EnumCtx) (pos : EnumPos) (acc : EnumAcc) : EnumAcc :=
  let layout := pos.usedPlacements.map (fun pid => ctx.pc.placements.getD pid default)
  let key := canonicalKey layout ctx.W ctx.H ctx.tiles ctx.uniqueByBoardSymmetry
    (some ctx.boardSet)
  if key ∈ acc.seen then acc
  else { acc with seen := insert key acc.seen, solutions := acc.solutions ++ [layout] }

/-- The branching loop of `rec`: place each candidate, recurse, and stop as
soon as the solution cap is reached. -/
def branchFold (recFn : EnumPos → EnumAcc → EnumAcc) (ctx : EnumCtx) (pos : EnumPos) :
    List Nat → EnumAcc → EnumAcc
  | [], acc => acc
  | pid :: rest, acc =>
    let acc := bumpNodes ctx acc
    let acc := recFn (place ctx.pc.placements pos pid) acc
    if acc.solutions.length ≥ ctx.capSolutions then acc
    else branchFold recFn ctx pos rest acc

/-- `rec` from the source.  The JS forced-move `while` loop is the
single-candidate case below (a tail call: the JS cap re-check at `rec` entry
is a no-op there since no solution is added between forced moves); `fuel`
bounds the recursion depth (each step covers at least one new cell, so
`totalCells + 1` is enough for tiles with nonempty cells). -/
def enumRec (ctx : EnumCtx) : Nat → EnumPos → EnumAcc → EnumAcc
  | 0, _, acc => acc
  | fuel + 1, pos, acc =>
    if acc.solutions.length ≥ ctx.capSolutions then acc
    else if pos.coveredCount = ctx.totalCells then recordSolution ctx pos acc
    else
      match chooseCellAndPids ctx.tiles ctx.pc pos ctx.allCells with
      | (_, []) => acc
      | (_, [pid]) => enumRec ctx fuel (place ctx.pc.placements pos pid) (bumpNodes ctx acc)
      | (_, pids) =>
        let sh := shuffle ctx.rng pids acc.rngK
        branchFold (enumRec ctx fuel) ctx pos sh.1 { acc with rngK := sh.2 }

structure EnumResult where
  solutions : List (List Placement)
  boardSet : Finset Cell
  msgs : List Msg
  nodes : Nat

/-- `enumerateTilings` from the source.  The capacity check `throw` is the
`.error` case. -/
def enumerateTilings (W H : Nat) (holes : Finset Cell) (tiles : List TileType)
    (uniqueByBoardSymmetry : Bool) (capSolutions : Nat)
    (progressCb : Option (Nat → Nat → List Msg)) (rng : Nat → Nat) :
    Except String EnumResult :=
  let b := boardCells W H holes
  let totalCells := b.length
  let boardSet := b.toFinset
  let pc := precomputePlacements W H boardSet tiles
  let allFinite := tiles.all (fun t => t.count.isSome)
  if allFinite ∧ (tiles.foldl (fun a t => a + (t.count.getD 0) * t.base.length) 0) < b.length
  then .error "Not enough stone area to cover the patio."
  else
    let ctx : EnumCtx := ⟨W, H, tiles, pc, b, totalCells, boardSet,
      uniqueByBoardSymmetry, capSolutions, progressCb, rng⟩
    let pos0 : EnumPos := ⟨∅, List.replicate tiles.length 0, [], 0⟩
    let acc0 : EnumAcc := ⟨∅, [], 0, 0, []⟩
    let acc := enumRec ctx (totalCells + 1) pos0 acc0
    .ok ⟨acc.solutions, boardSet, acc.msgs, acc.nodes⟩

/-! ## First-only engine (`solveFirstExactCover`) -/

/-- A row of the exact-cover matrix.  The JS builds `rows[i] = {pid, cols}`
plus a parallel `rowsTi` array that `solveFirstExactCover` copies onto each
row as `_ti`; here the `ti` field carries that annotation from the start. -/
structure Row where
  pid : Nat
  cols : List Nat
  ti : Nat
deriving DecidableEq, Repr

instance : Inhabited Row := ⟨⟨0, [], 0⟩⟩

structure ECData where
  freeCells : List Cell
  colIndex : List (Cell × Nat)
  rows : List Row
  colToRows : List (List Nat)
  placements : List Placement

/-- The row-major free-cell/column-index construction of `buildExactCoverData`. -/
def buildFree (W H : Nat) (holesSet : Finset Cell) : List Cell × List (Cell × Nat) :=
  ((List.range H).flatMap (fun (y : Nat) =>
    (List.range W).map (fun (x : Nat) => (((x : Int), (y : Int)) : Cell)))).foldl
    (fun st c =>
      if c ∈ holesSet then st
      else (st.1 ++ [c], st.2 ++ [(c, st.1.length)])) ([], [])

/-- Column list of one placement (`ok` bails if a cell has no column). -/
def rowColsAux (ci : List (Cell × Nat)) : List Cell → Option (List Nat)
  | [] => some []
  | c :: rest =>
    match ci.lookup c with
    | none => none
    | some i =>
      match rowColsAux ci rest with
      | none => none
      | some l => some (i :: l)

/-- `buildExactCoverData` from the source. -/
def buildExactCoverData (W H : Nat) (holesSet : Finset Cell)
    (tiles : List TileType) : ECData :=
  let fr := buildFree W H holesSet
  let freeCells := fr.1
  let colIndex := fr.2
  let boardSet := freeCells.toFinset
  let placements := (precomputePlacements W H boardSet tiles).placements
  let rows := placements.enum.foldl (fun rs ent =>
    match rowColsAux colIndex ent.2.cells with
    | none => rs
    | some cols => rs ++ [(⟨ent.1, cols, ent.2.ti⟩ : Row)]) []
  let colToRows := rows.enum.foldl (fun ctr ent =>
    ent.2.cols.foldl (fun (ctr : List (List Nat)) c =>
      ctr.set c (ctr.getD c [] ++ [ent.1])) ctr)
    (List.replicate freeCells.length ([] : List Nat))
  ⟨freeCells, colIndex, rows, colToRows, placements⟩

/-- The search position of the exact-cover DFS. -/
structure ECPos where
  coveredCols : List Bool
  usedRow : List Bool
  usedCounts : List Nat

/-- A row is usable: not used/banned and its tile type has stock left
(the prefilter of `chooseColumn` and the first checks of the candidate
gathering loop). -/
def rowUsable (tiles : List TileType) (rows : List Row) (usedRow : List Bool)
    (usedCounts : List Nat) (r : Nat) : Bool :=
  !(usedRow.getD r false) &&
  (match (tiles.getD (rows.getD r default).ti default).count with
   | some cap => decide (usedCounts.getD (rows.getD r default).ti 0 < cap)
   | none => true)

/-- The scanning loop of `chooseColumn` (MRV with dead-end and forced-column
early exits); `none` models the JS `-1`. -/
def chooseColumnAux (tiles : List TileType) (rows : List Row)
    (usedRow : List Bool) (usedCounts : List Nat) (coveredCols : List Bool)
    (colToRows : List (List Nat)) :
    List Nat → Option Nat → Nat → Option Nat
  | [], best, _ => best
  | c :: rest, best, bestLen =>
    if coveredCols.getD c false then
      chooseColumnAux tiles rows usedRow usedCounts coveredCols colToRows rest best bestLen
    else
      let cnt := ((colToRows.getD c []).filter
        (rowUsable tiles rows usedRow usedCounts)).length
      if cnt = 0 then some c
      else if cnt < bestLen then
        (if cnt = 1 then some c
         else chooseColumnAux tiles rows usedRow usedCounts coveredCols colToRows rest
          (some c) cnt)
      else chooseColumnAux tiles rows usedRow usedCounts coveredCols colToRows rest best bestLen

def chooseColumn (tiles : List TileType) (rows : List Row) (usedRow : List Bool)
    (usedCounts : List Nat) (coveredCols : List Bool)
    (colToRows : List (List Nat)) : Option Nat :=
  chooseColumnAux tiles rows usedRow usedCounts coveredCols colToRows
    (List.range colToRows.length) none 1000000000

/-- `chooseRow` from the source: mark the row used, bump its tile count, ban
every row meeting one of its columns, and cover its columns.  (The JS
`bannedRowsStack` exists only to undo this in `unchooseRow`; the functional
translation keeps the parent position instead.) -/
def chooseRow (rows : List Row) (colToRows : List (List Nat)) (pos : ECPos)
    (r : Nat) : ECPos :=
  let row := rows.getD r default
  let usedRow1 := pos.usedRow.set r true
  let usedCounts1 := pos.usedCounts.set row.ti (pos.usedCounts.getD row.ti 0 + 1)
  let usedRow2 := row.cols.foldl (fun ur c =>
    (colToRows.getD c []).foldl (fun (ur : List Bool) r2 =>
      if !(ur.getD r2 false) then ur.set r2 true else ur) ur) usedRow1
  let coveredCols1 := row.cols.foldl (fun (cc : List Bool) c => cc.set c true)
    pos.coveredCols
  ⟨coveredCols1, usedRow2, usedCounts1⟩

/-- `allCovered` from the source. -/
def allCoveredB (coveredCols : List Bool) : Bool := coveredCols.all (fun b => b)

/-- Candidate rows for the chosen column: usable and with every column still
uncovered. -/
def dfsCandidates (tiles : List TileType) (rows : List Row) (pos : ECPos)
    (colRows : List Nat) : List Nat :=
  colRows.filter (fun r =>
    rowUsable tiles rows pos.usedRow pos.usedCounts r &&
    (rows.getD r default).cols.all (fun cc => !(pos.coveredCols.getD cc false)))

structure DfsCtx where
  tiles : List TileType
  rows : List Row
  colToRows : List (List Nat)
  rng : Nat → Nat

structure DfsAcc where
  nodes : Nat
  rngK : Nat
  msgs : List Msg

/-- The candidate loop of `dfs`: `solutionRows.push(r)` before the recursive
call and `pop` on failure become the `r :: rest` result on success. -/
def dfsTry (dfsFn : ECPos → DfsAcc → Option (List Nat) × DfsAcc) (ctx : DfsCtx)
    (pos : ECPos) : List Nat → DfsAcc → Option (List Nat) × DfsAcc
  | [], acc => (none, acc)
  | r :: rest, acc =>
    let pos' := chooseRow ctx.rows ctx.colToRows pos r
    match dfsFn pos' acc with
    | (some rowsFound, acc') => (some (r :: rowsFound), acc')
    | (none, acc') => dfsTry dfsFn ctx pos rest acc'

/-- `dfs` from the source. -/
def dfs (ctx : DfsCtx) : Nat → ECPos → DfsAcc → Option (List Nat) × DfsAcc
  | 0, _, acc => (none, acc)
  | fuel + 1, pos, acc =>
    let nodes := acc.nodes + 1
    let msgs := if nodes % 5000 = 0 then acc.msgs ++ [Msg.progress nodes 0] else acc.msgs
    let acc := { acc with nodes := nodes, msgs := msgs }
    if allCoveredB pos.coveredCols then (some [], acc)
    else
      match chooseColumn ctx.tiles ctx.rows pos.usedRow pos.usedCounts
        pos.coveredCols ctx.colToRows with
      | none => (none, acc)
      | some c =>
        if (ctx.colToRows.getD c []).length = 0 then (none, acc)
        else
          let candidates := dfsCandidates ctx.tiles ctx.rows pos (ctx.colToRows.getD c [])
          if candidates.length = 0 then (none, acc)
          else
            let sh := shuffle ctx.rng candidates acc.rngK
            dfsTry (dfs ctx fuel) ctx pos sh.1 { acc with rngK := sh.2 }

structure SolveResult where
  found : Nat
  layout : Option (List Placement)
  score : Option ℚ
deriving Repr

/-- `solveFirstExactCover` from the source (its `uniqueByBoardSymmetry`
parameter is received but, as in the source, never consulted: the guarded
block at the end of the JS function is empty). -/
def solveFirstExactCover (W H : Nat) (holesSet : Finset Cell)
    (tiles : List TileType) (uniqueByBoardSymmetry : Bool) (rng : Nat → Nat) :
    SolveResult × List Msg :=
  let d := buildExactCoverData W H holesSet tiles
  let N := d.freeCells.length
  let maxArea := tiles.foldl (fun a t =>
    optAdd a (match t.count with | none => none | some c => some (c * t.base.length)))
    (some 0)
  if (match maxArea with | some m => decide (m < N) | none => false) then
    (⟨0, none, none⟩, [])
  else
    let pos0 : ECPos := ⟨List.replicate d.colToRows.length false,
      List.replicate d.rows.length false, List.replicate tiles.length 0⟩
    let out := dfs ⟨tiles, d.rows, d.colToRows, rng⟩ (N + 1) pos0 ⟨0, 0, []⟩
    match out with
    | (none, acc) => (⟨0, none, none⟩, acc.msgs)
    | (some solutionRows, acc) =>
      let layout := solutionRows.map (fun r =>
        let p := d.placements.getD (d.rows.getD r default).pid default
        Placement.mk p.ti p.cells)
      (⟨1, some layout, none⟩, acc.msgs)

/-- `solveFirst` from the source. -/
def solveFirst (W H : Nat) (holesSet : Finset Cell) (tiles : List TileType)
    (uniqueByBoardSymmetry : Bool) (rng : Nat → Nat) : SolveResult × List Msg :=
  solveFirstExactCover W H holesSet tiles uniqueByBoardSymmetry rng

/-! ## Balance scoring and driver -/

structure BalanceWeights where
  tileCountVariance : ℚ
  orientationBalance : ℚ
  seamPenalty : ℚ
  crossJoints : ℚ
deriving Repr

/-- The `balance` payload: `{noBalance:true}` or a weights configuration. -/
structure BalanceCfg where
  noBalance : Bool
  weights : BalanceWeights
  desiredMix : Option (List (String × ℚ))
  maxSolutionsToEvaluate : Option Nat
deriving Repr

def gridSet (g : List (List Int)) (x y : Nat) (v : Int) : List (List Int) :=
  g.set y ((g.getD y []).set x v)

/-- `makeGrid` from the source. -/
def makeGrid (W H : Nat) (layout : List Placement) : List (List Int) :=
  layout.enum.foldl (fun g ent =>
    ent.2.cells.foldl (fun g c => gridSet g c.1.toNat c.2.toNat (ent.1 : Int)) g)
    (List.replicate H (List.replicate W (-1 : Int)))

/-- Increment an insertion-ordered association counter (`countsByTile[name]++`). -/
def assocInc : List (String × Nat) → String → List (String × Nat)
  | [], k => [(k, 1)]
  | (k', v) :: rest, k =>
    if k' = k then (k', v + 1) :: rest else (k', v) :: assocInc rest k

/-- `mixError` from the source (scores over `ℚ`; `1e-6` is `1/1000000`). -/
def mixError (countsByTile : List (String × Nat))
    (desiredMix : Option (List (String × ℚ))) : ℚ :=
  let names := countsByTile.map Prod.fst
  if names.length ≤ 1 then 0
  else
    let counts : List ℚ := countsByTile.map (fun nv => (nv.2 : ℚ))
    match desiredMix with
    | none =>
      let mean := counts.sum / (counts.length : ℚ)
      let variance := (counts.map (fun c => (c - mean) * (c - mean))).sum /
        (counts.length : ℚ)
      variance / (mean * mean + 1 / 1000000)
    | some dm =>
      let s := (dm.map Prod.snd).sum
      if s ≤ 0 then 0
      else
        let props := dm.map (fun kv => (kv.1, kv.2 / s))
        let total := if counts.sum = 0 then 1 else counts.sum
        (names.map (fun n =>
          let actual := (((countsByTile.lookup n).getD 0 : Nat) : ℚ) / total
          let target := (props.lookup n).getD 0
          (actual - target) * (actual - target))).sum

def runCost (run : Nat) : ℚ := if run > 1 then (run : ℚ) * (1 / 5) else 0

/-- One row/column pass of `seamPenalty` (`0.2` is `1/5`). -/
def seamLine (cells : List Int) : ℚ :=
  let st := (cells.zip cells.tail).foldl (fun (st : ℚ × Nat) pr =>
    if pr.2 ≠ -1 ∧ pr.1 ≠ -1 ∧ pr.2 ≠ pr.1 then (st.1, st.2 + 1)
    else (st.1 + runCost st.2, 0)) (0, 0)
  st.1 + runCost st.2

/-- `seamPenalty` from the source. -/
def seamPenalty (grid : List (List Int)) : ℚ :=
  let W := (grid.headD []).length
  (grid.map seamLine).sum +
    ((List.range W).map (fun x => seamLine (grid.map (fun row => row.getD x (-1))))).sum

/-- `crossJointCount` from the source (`0.1` is `1/10`). -/
def crossJointCount (grid : List (List Int)) : ℚ :=
  let H := grid.length
  let W := (grid.headD []).length
  let crosses := ((List.range (H - 1)).map (fun y1 =>
    ((List.range (W - 1)).filter (fun x1 =>
      let y := y1 + 1
      let x := x1 + 1
      let a := (grid.getD (y - 1) []).getD (x - 1) (-1)
      let b := (grid.getD (y - 1) []).getD x (-1)
      let c := (grid.getD y []).getD (x - 1) (-1)
      let d := (grid.getD y []).getD x (-1)
      decide (a ≥ 0) && decide (b ≥ 0) && decide (c ≥ 0) && decide (d ≥ 0) &&
        decide (([a, b, c, d].dedup).length ≥ 3))).length)).sum
  (crosses : ℚ) * (1 / 10)

/-- `balanceScore` from the source. -/
def balanceScore (W H : Nat) (tiles : List TileType) (layout : List Placement)
    (cfg : BalanceCfg) : ℚ :=
  let grid := makeGrid W H layout
  let st := layout.foldl (fun (st : List (String × Nat) × Nat × Nat) p =>
    let name := (tiles.getD p.ti default).name
    let counts := assocInc st.1 name
    let xs := p.cells.map Prod.fst
    let ys := p.cells.map Prod.snd
    let w := (xs.max?.getD 0) - (xs.min?.getD 0) + 1
    let h := (ys.max?.getD 0) - (ys.min?.getD 0) + 1
    if w ≠ h then
      (if w > h then (counts, st.2.1 + 1, st.2.2) else (counts, st.2.1, st.2.2 + 1))
    else (counts, st.2.1, st.2.2)) ([], 0, 0)
  let countsByTile := st.1
  let horiz := st.2.1
  let vert := st.2.2
  let mixErr := mixError countsByTile cfg.desiredMix
  let orientErr : ℚ :=
    if horiz + vert > 0 then
      ((((horiz : Int) - vert).natAbs : Nat) : ℚ) / ((horiz + vert : Nat) : ℚ)
    else 0
  let seam := seamPenalty grid
  let crosses := crossJointCount grid
  cfg.weights.tileCountVariance * mixErr + cfg.weights.orientationBalance * orientErr +
    cfg.weights.seamPenalty * seam + cfg.weights.crossJoints * crosses

/-- `selectBestBalanced` from the source (`bestScore` starts at `Infinity`,
modelled by `none`). -/
def selectBestBalanced (W H : Nat) (tiles : List TileType)
    (layouts : List (List Placement)) (cfg : BalanceCfg) :
    Option (List Placement) × Option ℚ :=
  layouts.foldl (fun st L =>
    let s := balanceScore W H tiles L cfg
    match st.2 with
    | none => (some L, some s)
    | some bs => if s < bs then (some L, some s) else st) (none, none)

/-- JS `x || y` on an optional number: `x` is falsy when absent or `0`. -/
def jsOr (a : Option Nat) (b : Option Nat) : Option Nat :=
  match a with
  | some n => if n ≠ 0 then some n else b
  | none => b

/-- The solution-cap expression `balance.maxSolutionsToEvaluate || cap || 1000`
of `solveBalanced`. -/
def balancedCapExpr (m cap : Option Nat) : Nat :=
  (jsOr (jsOr m cap) (some 1000)).getD 1000

/-- The progress callback `solveBalanced` passes to `enumerateTilings`. -/
def solveBalancedCb : Option (Nat → Nat → List Msg) :=
  some (fun nodes found => if found % 10 = 0 then [Msg.progress nodes found] else [])

/-- `solveBalanced` from the source. -/
def solveBalanced (W H : Nat) (holesSet : Finset Cell) (tiles : List TileType)
    (uniqueByBoardSymmetry : Bool) (balance : BalanceCfg) (cap : Option Nat)
    (rng : Nat → Nat) : Except String (SolveResult × List Msg) :=
  match enumerateTilings W H holesSet tiles uniqueByBoardSymmetry
      (balancedCapExpr balance.maxSolutionsToEvaluate cap) solveBalancedCb rng with
  | .error e => .error e
  | .ok r =>
    if r.solutions.length = 0 then .ok (⟨0, none, none⟩, r.msgs)
    else
      let bb := selectBestBalanced W H tiles r.solutions balance
      .ok (⟨r.solutions.length, bb.1, bb.2⟩, r.msgs)

/-- The `solve` payload (§6 of the interface; `balance` is always one of its
two documented forms, so it is present). -/
structure Payload where
  W : Nat
  H : Nat
  holes : List Cell
  tileTypes : List TileType
  uniqueByBoardSymmetry : Bool
  balance : BalanceCfg
  cap : Option Nat

/-! ## Property vocabulary (used to state the claims) -/

/-- A terminal worker message (everything except `progress`). -/
def isTerminal : Msg → Bool
  | .progress _ _ => false
  | _ => true

/-- The tile types that are available: count positive or unbounded. -/
def availableTiles (tiles : List TileType) : List TileType :=
  tiles.filter (fun t => match t.count with | some 0 => false | _ => true)

/-- Apply a board transform to every cell of every placement of a layout. -/
def applyT (f : Transform) (L : List Placement) : List Placement :=
  L.map (fun p => ⟨p.ti, p.cells.map f⟩)

/-- A placement up to cell order. -/
def normP (p : Placement) : Nat × List Cell := (p.ti, sortBy cellLe p.cells)

/-- One layout is the image of another as an unordered collection of
placements (each placement taken up to cell order). -/
def SameLayout (L L' : List Placement) : Prop :=
  (L.map normP).Perm (L'.map normP)

instance SameLayout.instDecidable (L L' : List Placement) : Decidable (SameLayout L L') :=
  List.decidablePerm _ _

/-- `layout` exactly covers `freeSet`: every free cell lies in exactly one
placement and every placement cell is free. -/
def ExactCover (freeSet : Finset Cell) (layout : List Placement) : Prop :=
  (∀ c ∈ freeSet, layout.countP (fun p => decide (c ∈ p.cells)) = 1) ∧
  (∀ p ∈ layout, ∀ c ∈ p.cells, c ∈ freeSet)

/-- Number of placements of tile type `ti` in a layout. -/
def typeCount (layout : List Placement) (ti : Nat) : Nat :=
  layout.countP (fun p => decide (p.ti = ti))

/-- The effective solution cap as the claim states it: `maxSolutionsToEvaluate`
when positive, otherwise the top-level `cap` when positive, otherwise 1000
(stated from the claim's words, to be compared with `balancedCapExpr`). -/
def specEffectiveCap (m cap : Option Nat) : Nat :=
  match m with
  | some k =>
    if 0 < k then k
    else match cap with
         | some c => if 0 < c then c else 1000
         | none => 1000
  | none =>
    match cap with
    | some c => if 0 < c then c else 1000
    | none => 1000

/-- Per-type inventory invariant of a layout: placements of each finite-count
tile type do not exceed the stock. -/
def LayoutBounded (tiles : List TileType) (L : List Placement) : Prop :=
  ∀ ti c, (tiles.getD ti default).count = some c → typeCount L ti ≤ c

/-- The structural well-formedness of a placement table: placement cells lie
in the board set and are distinct, and tile indices are in range. -/
def PlacementsOk (tiles : List TileType) (bs : Finset Cell) (ps : List Placement) : Prop :=
  ∀ p ∈ ps, (∀ c ∈ p.cells, c ∈ bs) ∧ p.ti < tiles.length ∧ p.cells.Nodup

/-- Validity of the reverse index: every indexed pid is a placement index. -/
def ByCellOk (ps : List Placement) (m : ByCell) : Prop :=
  ∀ k pid, pid ∈ byCellGet m k → pid < ps.length

/-- The search-position invariant of `rec`: `covered` is the union of the
used placements' cells, the used placements are pairwise disjoint and valid,
`coveredCount` counts `covered`, and `usedCounts` tracks per-type usage
within stock limits. -/
def EnumInv (tiles : List TileType) (pc : Precomp) (pos : EnumPos) : Prop :=
  (∀ pid ∈ pos.usedPlacements, pid < pc.placements.length) ∧
  (∀ c : Cell, c ∈ pos.covered ↔
    ∃ pid ∈ pos.usedPlacements, c ∈ (pc.placements.getD pid default).cells) ∧
  pos.usedPlacements.Pairwise (fun a b =>
    ∀ c ∈ (pc.placements.getD a default).cells,
      c ∉ (pc.placements.getD b default).cells) ∧
  pos.coveredCount = pos.covered.card ∧
  pos.usedCounts.length = tiles.length ∧
  (∀ ti, pos.usedCounts.getD ti 0 = pos.usedPlacements.countP
    (fun pid => decide ((pc.placements.getD pid default).ti = ti))) ∧
  (∀ ti c, (tiles.getD ti default).count = some c → pos.usedCounts.getD ti 0 ≤ c)

/-- The accumulator invariant of `rec`: every recorded solution is an exact
cover within stock limits, its canonical key is recorded in `seen`, and keys
of distinct recorded solutions are distinct. -/
def AccOk (W H : Nat) (tiles : List TileType) (uniq : Bool) (bs : Finset Cell)
    (acc : EnumAcc) : Prop :=
  (∀ L ∈ acc.solutions, ExactCover bs L ∧ LayoutBounded tiles L) ∧
  (∀ L ∈ acc.solutions, canonicalKey L W H tiles uniq (some bs) ∈ acc.seen) ∧
  acc.solutions.Pairwise (fun L1 L2 =>
    canonicalKey L1 W H tiles uniq (some bs) ≠ canonicalKey L2 W H tiles uniq (some bs))

def noLayoutReason : String :=
  "No exact layout found after search. Consider changing tile counts, enabling rotations, or removing/adjusting holes."

/-- The `onmessage` handler for a `solve` command: the list of posted
messages, in order.  The `catch` branch is the `.error` case of the solver
result (in this program the only throw site is the capacity check of
`enumerateTilings`, which runs before any progress is emitted). -/
def handle (p : Payload) (rng : Nat → Nat) : List Msg :=
  let holesSet := p.holes.toFinset
  let pf := preflight p.W p.H holesSet p.tileTypes
  if !pf.ok then [Msg.infeasible pf.reasons]
  else
    let r : Except String (SolveResult × List Msg) :=
      if p.balance.noBalance then
        .ok (solveFirst p.W p.H holesSet p.tileTypes p.uniqueByBoardSymmetry rng)
      else
        solveBalanced p.W p.H holesSet p.tileTypes p.uniqueByBoardSymmetry
          p.balance p.cap rng
    match r with
    | .error e => [Msg.error e]
    | .ok (res, msgs) =>
      match res.layout with
      | none => msgs ++ [Msg.infeasible [noLayoutReason]]
      | some _ => msgs ++ [Msg.result res.found res.layout res.score]

/-! # Theorems -/

/-! ## Board symmetry transforms (C4) -/

/-- On a rectangular board the transform list is exactly identity and the two
axial flips. -/
theorem boardSym_rect (W H : Nat) (h : W ≠ H) :
    boardSymTransforms W H =
      [fun p : Cell => (p.1, p.2),
       fun p : Cell => ((W : Int) - 1 - p.1, p.2),
       fun p : Cell => (p.1, (H : Int) - 1 - p.2)] := by
  unfold boardSymTransforms
  rw [if_neg h]

/-- C4 (counterexample): on the 3×2 board the produced set has three
elements, none of which is the 180-degree rotation (which sends `(0,0)` to
`(2,1)`); since the horizontal and vertical flips are produced and compose to
that rotation, the produced set is not the Klein-4 group and is not closed
under composition. -/
theorem C4_counterexample :
    (boardSymTransforms 3 2).length = 3 ∧
    (∀ g ∈ boardSymTransforms 3 2, g ((0 : Int), (0 : Int)) ≠ (((2 : Int), (1 : Int)) : Cell)) ∧
    (∀ fx ∈ boardSymTransforms 3 2, ∀ fy ∈ boardSymTransforms 3 2,
      fx ((5 : Int), (7 : Int)) = ((-3 : Int), (7 : Int)) →
      fy ((5 : Int), (7 : Int)) = ((5 : Int), (-6 : Int)) →
      fx (fy ((0 : Int), (0 : Int))) = (((2 : Int), (1 : Int)) : Cell)) := by
  refine ⟨rfl, ?_, ?_⟩
  · intro g hg
    rw [boardSym_rect 3 2 (by decide)] at hg
    fin_cases hg <;> decide
  · intro fx hfx fy hfy
    rw [boardSym_rect 3 2 (by decide)] at hfx hfy
    fin_cases hfx <;> fin_cases hfy <;> decide

/-- C4 (amended): for `W ≠ H` the transform set produced for canonicalization
is exactly `{identity, horizontal flip, vertical flip}` — three transforms,
without the 180-degree rotation, so not the (composition-closed) Klein-4
group. -/
theorem C4_rect_transforms (W H : Nat) (h : W ≠ H) :
    boardSymTransforms W H =
      [fun p : Cell => (p.1, p.2),
       fun p : Cell => ((W : Int) - 1 - p.1, p.2),
       fun p : Cell => (p.1, (H : Int) - 1 - p.2)] :=
  boardSym_rect W H h

/-- Witness for `C4_rect_transforms` at `W = 3`, `H = 2`. -/
theorem C4_witness :
    boardSymTransforms 3 2 =
      [fun p : Cell => (p.1, p.2),
       fun p : Cell => ((3 : Int) - 1 - p.1, p.2),
       fun p : Cell => (p.1, (2 : Int) - 1 - p.2)] :=
  C4_rect_transforms 3 2 (by decide)

/-! ## `canonicalKey` never returns null (C10) -/

theorem updateBest_isSome (b : Option String) (s : String) :
    (updateBest b s).isSome = true := by
  cases b with
  | none => rfl
  | some x => by_cases h : strLt s x <;> simp [updateBest, h]

theorem canonStep_isSome (layout : List Placement) (bs? : Option (Finset Cell))
    (b : Option String) (f : Transform) (hb : b.isSome = true) :
    (canonStep layout bs? b f).isSome = true := by
  cases bs? with
  | none => exact updateBest_isSome _ _
  | some bs =>
    unfold canonStep
    by_cases h : transformOk f bs
    · simp only [h, if_true]
      exact updateBest_isSome _ _
    · simp only [h, if_false]
      exact hb

theorem canonFold_isSome (layout : List Placement) (bs? : Option (Finset Cell))
    (l : List Transform) (b : Option String) (hb : b.isSome = true) :
    (l.foldl (canonStep layout bs?) b).isSome = true := by
  induction l generalizing b with
  | nil => exact hb
  | cons f rest ih =>
    simp only [List.foldl_cons]
    exact ih _ (canonStep_isSome layout bs? b f hb)

theorem transformOk_id (bs : Finset Cell) :
    transformOk (fun p : Cell => (p.1, p.2)) bs = true := by
  have himg : bs.image (fun p : Cell => (p.1, p.2)) = bs := by
    have h : (fun p : Cell => (p.1, p.2)) = id := rfl
    rw [h, Finset.image_id]
  simp [transformOk, himg]

theorem canonStep_id_isSome (layout : List Placement) (bs? : Option (Finset Cell))
    (b : Option String) :
    (canonStep layout bs? b (fun p : Cell => (p.1, p.2))).isSome = true := by
  cases bs? with
  | none =>
    simp only [canonStep]
    exact updateBest_isSome _ _
  | some bs =>
    simp only [canonStep, transformOk_id, if_true]
    exact updateBest_isSome _ _

/-- C10: `canonicalKey` always returns a string: the identity transform (the
head of the transform list in every branch) passes the free-set invariance
test, so `best` is set at least once and the result is never null. -/
theorem C10_canonicalKey_isSome (layout : List Placement) (W H : Nat)
    (tiles : List TileType) (useSym : Bool) (boardSet : Option (Finset Cell)) :
    (canonicalKey layout W H tiles useSym boardSet).isSome = true := by
  obtain ⟨rest, hT⟩ :
      ∃ rest, (if useSym then boardSymTransforms W H else [fun p : Cell => (p.1, p.2)]) =
        (fun p : Cell => (p.1, p.2)) :: rest := by
    cases useSym with
    | false => exact ⟨[], rfl⟩
    | true =>
      unfold boardSymTransforms
      by_cases h : W = H
      · rw [if_pos h]; exact ⟨_, rfl⟩
      · rw [if_neg h]; exact ⟨_, rfl⟩
  unfold canonicalKey
  rw [hT]
  simp only [List.foldl_cons]
  exact canonFold_isSome _ _ _ _ (canonStep_id_isSome _ _ _)

/-! ## Engine totality and the capacity throw (C5) -/

/-- C5 (counterexample): called on a 1×1 board with a single zero-stock tile,
`enumerateTilings` throws the capacity error instead of returning an empty
solution set. -/
theorem C5_counterexample :
    enumerateTilings 1 1 ∅ [⟨"stone", [((0 : Int), (0 : Int))], false, false, some 0⟩]
      true 1 none (fun _ => 0) =
      .error "Not enough stone area to cover the patio." := by rfl

/-- The preflight maximum-area accumulator agrees with the engine's capacity
sum when every count is finite. -/
theorem preflight_stats_area (tiles : List TileType) (A : Nat) (e a : Bool)
    (hfin : tiles.all (fun t => t.count.isSome) = true) :
    (tiles.foldl (fun (st : Option Nat × Bool × Bool) t =>
      match t.count with
      | some 0 => st
      | some c => (optAdd st.1 (some (c * t.base.length)),
          (if t.base.length % 2 ≠ 0 then false else st.2.1), true)
      | none => (optAdd st.1 none,
          (if t.base.length % 2 ≠ 0 then false else st.2.1), true))
      (some A, e, a)).1 =
    some (tiles.foldl (fun acc t => acc + (t.count.getD 0) * t.base.length) A) := by
  induction tiles generalizing A e a with
  | nil => rfl
  | cons t rest ih =>
    simp only [List.all_cons, Bool.and_eq_true] at hfin
    obtain ⟨ht, hrest⟩ := hfin
    simp only [List.foldl_cons]
    cases hc : t.count with
    | none => rw [hc] at ht; simp at ht
    | some c =>
      cases c with
      | zero => simpa [hc, optAdd] using ih A e a hrest
      | succ c' => simpa [hc, optAdd] using ih _ _ _ hrest

/-- If every count is finite, `preflight` would also have fired its area
reason on any input on which the engine's capacity check throws. -/
theorem area_reason_mem (W H : Nat) (holes : Finset Cell) (tiles : List TileType)
    (hfin : tiles.all (fun t => t.count.isSome) = true)
    (hlt : tiles.foldl (fun a t => a + (t.count.getD 0) * t.base.length) 0 <
      (boardCells W H holes).length) :
    insufficientAreaReason (boardCells W H holes).length
      (tiles.foldl (fun a t => a + (t.count.getD 0) * t.base.length) 0) ∈
      preflightReasons W H holes tiles := by
  simp only [preflightReasons]
  rw [preflight_stats_area tiles 0 true false hfin]
  simp only [hlt, if_true, List.mem_append]
  tauto

theorem preflight_ok_reasons_nil (W H : Nat) (holes : Finset Cell)
    (tiles : List TileType) (hok : (preflight W H holes tiles).ok = true) :
    preflightReasons W H holes tiles = [] := by
  have h : decide ((preflightReasons W H holes tiles).length = 0) = true := hok
  exact List.eq_nil_of_length_eq_zero (of_decide_eq_true h)

theorem engine_ok_characterization (W H : Nat) (holes : Finset Cell)
    (tiles : List TileType) (uniq : Bool) (cap : Nat)
    (cb : Option (Nat → Nat → List Msg)) (rng : Nat → Nat) :
    ((enumerateTilings W H holes tiles uniq cap cb rng).isOk = true ↔
      ¬ (tiles.all (fun t => t.count.isSome) = true ∧
         tiles.foldl (fun a t => a + (t.count.getD 0) * t.base.length) 0 <
           (boardCells W H holes).length)) ∧
    ((preflight W H holes tiles).ok = true →
      (enumerateTilings W H holes tiles uniq cap cb rng).isOk = true) := by
  have hmain : (enumerateTilings W H holes tiles uniq cap cb rng).isOk = true ↔
      ¬ (tiles.all (fun t => t.count.isSome) = true ∧
         tiles.foldl (fun a t => a + (t.count.getD 0) * t.base.length) 0 <
           (boardCells W H holes).length) := by
    unfold enumerateTilings
    by_cases hC : tiles.all (fun t => t.count.isSome) = true ∧
        tiles.foldl (fun a t => a + (t.count.getD 0) * t.base.length) 0 <
          (boardCells W H holes).length
    · simp only [hC, if_true, if_pos, Except.isOk, Except.toBool]
      simp [hC]
    · simp only [if_neg hC, Except.isOk, Except.toBool]
      exact iff_of_true trivial hC
  refine ⟨hmain, fun hok => hmain.mpr ?_⟩
  rintro ⟨hfin, hlt⟩
  have hmem := area_reason_mem W H holes tiles hfin hlt
  rw [preflight_ok_reasons_nil W H holes tiles hok] at hmem
  exact absurd hmem (List.not_mem_nil _)

/-- C5 (amended): `enumerateTilings` returns a (possibly empty) solutions
list for every input except exactly when every tile count is finite and the
total coverable area falls short of the free-cell count, in which case it
throws the capacity error; in particular it never throws on an input that
passed `preflight`. -/
theorem C5_engine_total (W H : Nat) (holes : Finset Cell) (tiles : List TileType)
    (uniq : Bool) (cap : Nat) (cb : Option (Nat → Nat → List Msg)) (rng : Nat → Nat) :
    ((enumerateTilings W H holes tiles uniq cap cb rng).isOk = true ↔
      ¬ (tiles.all (fun t => t.count.isSome) = true ∧
         tiles.foldl (fun a t => a + (t.count.getD 0) * t.base.length) 0 <
           (boardCells W H holes).length)) ∧
    ((preflight W H holes tiles).ok = true →
      (enumerateTilings W H holes tiles uniq cap cb rng).isOk = true) :=
  engine_ok_characterization W H holes tiles uniq cap cb rng

/-- Witness for `C5_engine_total` on a 2×1 board with one unbounded domino:
the engine returns `.ok`. -/
theorem C5_witness :
    (enumerateTilings 2 1 ∅
      [⟨"d", [((0 : Int), (0 : Int)), ((1 : Int), (0 : Int))], true, false, none⟩]
      true 1 none (fun _ => 0)).isOk = true :=
  (C5_engine_total 2 1 ∅
    [⟨"d", [((0 : Int), (0 : Int)), ((1 : Int), (0 : Int))], true, false, none⟩]
    true 1 none (fun _ => 0)).2 (by decide)

/-! ## First-only engine ignores the symmetry flag (C8) -/

/-- C8: with the same random stream, `solveFirst` returns the same result
whether `uniqueByBoardSymmetry` is true or false: the first-only engine never
consults the flag. -/
theorem C8_solveFirst_flag_independent (W H : Nat) (holesSet : Finset Cell)
    (tiles : List TileType) (rng : Nat → Nat) :
    solveFirst W H holesSet tiles true rng = solveFirst W H holesSet tiles false rng := rfl

/-! ## Balanced-mode effective cap (C9) -/

/-- C9: the cap expression `balance.maxSolutionsToEvaluate || cap || 1000`
equals the claimed chain: `maxSolutionsToEvaluate` when positive, else `cap`
when positive, else 1000 (in particular a zero `maxSolutionsToEvaluate`
falls through). -/
theorem C9_effective_cap (m cap : Option Nat) :
    balancedCapExpr m cap = specEffectiveCap m cap := by
  rcases m with _ | k
  · rcases cap with _ | c
    · rfl
    · by_cases hc : c = 0
      · subst hc; rfl
      · simp [balancedCapExpr, specEffectiveCap, jsOr, hc, Nat.pos_of_ne_zero hc]
  · by_cases hk : k = 0
    · subst hk
      rcases cap with _ | c
      · rfl
      · by_cases hc : c = 0
        · subst hc; rfl
        · simp [balancedCapExpr, specEffectiveCap, jsOr, hc, Nat.pos_of_ne_zero hc]
    · rcases cap with _ | c <;>
        simp [balancedCapExpr, specEffectiveCap, jsOr, hk, Nat.pos_of_ne_zero hk]

/-! ## Checkerboard parity (C3) -/

theorem insertLe_perm (le : α → α → Bool) (a : α) (l : List α) :
    (insertLe le a l).Perm (a :: l) := by
  induction l with
  | nil => exact List.Perm.refl _
  | cons b bs ih =>
    unfold insertLe
    split
    · exact List.Perm.refl _
    · exact ((ih.cons b).trans (List.Perm.swap a b bs))

theorem sortBy_perm (le : α → α → Bool) (l : List α) : (sortBy le l).Perm l := by
  induction l with
  | nil => exact List.Perm.refl _
  | cons a as ih => exact (insertLe_perm le a (sortBy le as)).trans (ih.cons a)

theorem countBW_go (cells : List Cell) (b w : Nat) :
    (cells.foldl (fun bw c =>
      if (c.1 + c.2) % 2 ≠ 0 then (bw.1 + 1, bw.2) else (bw.1, bw.2 + 1)) (b, w)) =
    (b + cells.countP (fun c => decide ((c.1 + c.2) % 2 ≠ 0)),
     w + cells.countP (fun c => !decide ((c.1 + c.2) % 2 ≠ 0))) := by
  induction cells generalizing b w with
  | nil => simp
  | cons c rest ih =>
    by_cases h : (c.1 + c.2) % 2 ≠ 0
    · rw [List.foldl_cons, if_pos h, ih (b + 1) w]
      have hd : decide ((c.1 + c.2) % 2 ≠ 0) = true := decide_eq_true h
      simp only [List.countP_cons, hd, Bool.not_true, eq_self_iff_true,
        Bool.false_eq_true, if_true, if_false, Prod.mk.injEq]
      omega
    · rw [List.foldl_cons, if_neg h, ih b (w + 1)]
      have hd : decide ((c.1 + c.2) % 2 ≠ 0) = false := decide_eq_false h
      simp only [List.countP_cons, hd, Bool.not_false, eq_self_iff_true,
        Bool.false_eq_true, if_true, if_false, Prod.mk.injEq]
      omega

theorem countBW_eq (cells : List Cell) :
    countBW cells =
      (cells.countP (fun c => decide ((c.1 + c.2) % 2 ≠ 0)),
       cells.countP (fun c => !decide ((c.1 + c.2) % 2 ≠ 0))) := by
  have h := countBW_go cells 0 0
  simpa [countBW] using h

theorem tileBWDelta_eq (cells : List Cell) :
    tileBWDelta cells =
      (((cells.countP (fun c => decide ((c.1 + c.2) % 2 ≠ 0)) : Int)) -
        (cells.countP (fun c => !decide ((c.1 + c.2) % 2 ≠ 0)) : Int)).natAbs := by
  unfold tileBWDelta
  rw [countBW_eq]

theorem tileBWDelta_perm {l₁ l₂ : List Cell} (h : l₁.Perm l₂) :
    tileBWDelta l₁ = tileBWDelta l₂ := by
  rw [tileBWDelta_eq, tileBWDelta_eq, h.countP_eq, h.countP_eq]

theorem tileBWDelta_rot90 (l : List Cell) : tileBWDelta (rot90 l) = tileBWDelta l := by
  rw [tileBWDelta_eq, tileBWDelta_eq]
  unfold rot90
  rw [List.countP_map, List.countP_map]
  have h1 : ((fun c : Cell => decide ((c.1 + c.2) % 2 ≠ 0)) ∘ fun p : Cell => (-p.2, p.1)) =
      (fun c : Cell => decide ((c.1 + c.2) % 2 ≠ 0)) := by
    funext c
    simp only [Function.comp_apply]
    rw [decide_eq_decide]
    omega
  have h2 : ((fun c : Cell => !decide ((c.1 + c.2) % 2 ≠ 0)) ∘ fun p : Cell => (-p.2, p.1)) =
      (fun c : Cell => !decide ((c.1 + c.2) % 2 ≠ 0)) := by
    funext c
    simp only [Function.comp_apply]
    congr 1
    rw [decide_eq_decide]
    omega
  rw [h1, h2]

theorem tileBWDelta_reflX (l : List Cell) : tileBWDelta (reflX l) = tileBWDelta l := by
  rw [tileBWDelta_eq, tileBWDelta_eq]
  unfold reflX
  rw [List.countP_map, List.countP_map]
  have h1 : ((fun c : Cell => decide ((c.1 + c.2) % 2 ≠ 0)) ∘ fun p : Cell => (-p.1, p.2)) =
      (fun c : Cell => decide ((c.1 + c.2) % 2 ≠ 0)) := by
    funext c
    simp only [Function.comp_apply]
    rw [decide_eq_decide]
    omega
  have h2 : ((fun c : Cell => !decide ((c.1 + c.2) % 2 ≠ 0)) ∘ fun p : Cell => (-p.1, p.2)) =
      (fun c : Cell => !decide ((c.1 + c.2) % 2 ≠ 0)) := by
    funext c
    simp only [Function.comp_apply]
    congr 1
    rw [decide_eq_decide]
    omega
  rw [h1, h2]

theorem tileBWDelta_translate (l : List Cell) (dx dy : Int) :
    tileBWDelta (l.map (fun c => (c.1 - dx, c.2 - dy))) = tileBWDelta l := by
  rw [tileBWDelta_eq, tileBWDelta_eq]
  rw [List.countP_map, List.countP_map]
  by_cases hpar : (dx + dy) % 2 = 0
  · have h1 : ((fun c : Cell => decide ((c.1 + c.2) % 2 ≠ 0)) ∘
        fun c : Cell => (c.1 - dx, c.2 - dy)) =
        (fun c : Cell => decide ((c.1 + c.2) % 2 ≠ 0)) := by
      funext c
      simp only [Function.comp_apply]
      rw [decide_eq_decide]
      omega
    have h2 : ((fun c : Cell => !decide ((c.1 + c.2) % 2 ≠ 0)) ∘
        fun c : Cell => (c.1 - dx, c.2 - dy)) =
        (fun c : Cell => !decide ((c.1 + c.2) % 2 ≠ 0)) := by
      funext c
      simp only [Function.comp_apply]
      congr 1
      rw [decide_eq_decide]
      omega
    rw [h1, h2]
  · have h1 : ((fun c : Cell => decide ((c.1 + c.2) % 2 ≠ 0)) ∘
        fun c : Cell => (c.1 - dx, c.2 - dy)) =
        (fun c : Cell => !decide ((c.1 + c.2) % 2 ≠ 0)) := by
      funext c
      simp only [Function.comp_apply]
      rcases hc : decide ((c.1 + c.2) % 2 ≠ 0) with _ | _
      · simp only [Bool.not_false]
        rw [decide_eq_true_eq]
        simp only [decide_eq_false_iff_not, not_not] at hc
        omega
      · simp only [Bool.not_true]
        rw [decide_eq_false_iff_not, not_not]
        rw [decide_eq_true_eq] at hc
        omega
    have h2 : ((fun c : Cell => !decide ((c.1 + c.2) % 2 ≠ 0)) ∘
        fun c : Cell => (c.1 - dx, c.2 - dy)) =
        (fun c : Cell => decide ((c.1 + c.2) % 2 ≠ 0)) := by
      funext c
      simp only [Function.comp_apply]
      rcases hc : decide ((c.1 + c.2) % 2 ≠ 0) with _ | _
      · rw [Bool.not_eq_false']
        rw [decide_eq_true_eq]
        simp only [decide_eq_false_iff_not, not_not] at hc
        omega
      · rw [Bool.not_eq_true']
        rw [decide_eq_false_iff_not, not_not]
        rw [decide_eq_true_eq] at hc
        omega
    rw [h1, h2]
    omega

theorem tileBWDelta_normShape (l : List Cell) :
    tileBWDelta (normShape l) = tileBWDelta l := by
  unfold normShape
  rw [tileBWDelta_perm (sortBy_perm _ _)]
  exact tileBWDelta_translate l _ _

theorem mem_pushOrient {seen : List (List Cell)} {s o : List Cell}
    (h : o ∈ pushOrient seen s) : o ∈ seen ∨ o = normShape s := by
  by_cases hn : normShape s ∈ seen
  · rw [show pushOrient seen s = seen from by simp [pushOrient, hn]] at h
    exact Or.inl h
  · rw [show pushOrient seen s = seen ++ [normShape s] from by simp [pushOrient, hn]] at h
    rcases List.mem_append.mp h with h' | h'
    · exact Or.inl h'
    · exact Or.inr (List.mem_singleton.mp h')

theorem self_subset_pushOrient (seen : List (List Cell)) (s : List Cell) :
    seen ⊆ pushOrient seen s := by
  intro x hx
  by_cases hn : normShape s ∈ seen
  · rw [show pushOrient seen s = seen from by simp [pushOrient, hn]]
    exact hx
  · rw [show pushOrient seen s = seen ++ [normShape s] from by simp [pushOrient, hn]]
    exact List.mem_append_left _ hx

theorem orientFold_mem (refl : Bool) (cand : List (List Cell)) (seen : List (List Cell))
    {o : List Cell}
    (h : o ∈ cand.foldl (fun seen c =>
      let seen := pushOrient seen c
      if refl then pushOrient seen (reflX c) else seen) seen) :
    o ∈ seen ∨ ∃ c ∈ cand, o = normShape c ∨ o = normShape (reflX c) := by
  induction cand generalizing seen with
  | nil => exact Or.inl h
  | cons c rest ih =>
    simp only [List.foldl_cons] at h
    rcases ih _ h with h' | h'
    · rcases (show o ∈ pushOrient seen c ∨ o = normShape (reflX c) by
        cases refl with
        | false => exact Or.inl h'
        | true => simpa using mem_pushOrient h') with h'' | h''
      · rcases mem_pushOrient h'' with h3 | h3
        · exact Or.inl h3
        · exact Or.inr ⟨c, List.mem_cons_self _ _, Or.inl h3⟩
      · exact Or.inr ⟨c, List.mem_cons_self _ _, Or.inr h''⟩
    · obtain ⟨c', hc', ho⟩ := h'
      exact Or.inr ⟨c', List.mem_cons_of_mem _ hc', ho⟩

/-- Every orientation of a tile has the same black/white imbalance as the
tile's base shape: the imbalance is invariant under rotation, reflection,
translation, and cell reordering. -/
theorem tileBWDelta_orientations {base o : List Cell} {rot refl : Bool}
    (h : o ∈ orientations base rot refl) : tileBWDelta o = tileBWDelta base := by
  unfold orientations at h
  rcases orientFold_mem refl _ [] h with h' | h'
  · exact absurd h' (List.not_mem_nil _)
  · obtain ⟨c, hc, ho⟩ := h'
    have hcd : tileBWDelta c = tileBWDelta base := by
      rcases List.mem_cons.mp hc with rfl | hc'
      · rfl
      · split at hc'
        · simp only [List.mem_cons, List.not_mem_nil, or_false] at hc'
          rcases hc' with rfl | rfl | rfl
          · rw [tileBWDelta_rot90]
          · rw [tileBWDelta_rot90, tileBWDelta_rot90]
          · rw [tileBWDelta_rot90, tileBWDelta_rot90, tileBWDelta_rot90]
        · exact absurd hc' (List.not_mem_nil _)
    rcases ho with rfl | rfl
    · rw [tileBWDelta_normShape, hcd]
    · rw [tileBWDelta_normShape, tileBWDelta_reflX, hcd]

theorem normShape_mem_orientations (base : List Cell) (rot refl : Bool) :
    normShape base ∈ orientations base rot refl := by
  unfold orientations
  simp only [List.foldl_cons]
  have hbase : normShape base ∈
      (if refl then pushOrient (pushOrient [] base) (reflX base)
       else pushOrient [] base) := by
    have h0 : normShape base ∈ pushOrient [] base := by
      unfold pushOrient
      simp
    cases refl with
    | false => simpa using h0
    | true => simpa using self_subset_pushOrient _ _ h0
  have hkeep : ∀ (cand : List (List Cell)) (seen : List (List Cell)),
      normShape base ∈ seen →
      normShape base ∈ cand.foldl (fun seen c =>
        let seen := pushOrient seen c
        if refl then pushOrient seen (reflX c) else seen) seen := by
    intro cand
    induction cand with
    | nil => exact fun _ h => h
    | cons c rest ih =>
      intro seen hseen
      simp only [List.foldl_cons]
      apply ih
      have h1 := self_subset_pushOrient seen c hseen
      cases refl with
      | false => simpa using h1
      | true => simpa using self_subset_pushOrient _ _ h1
  exact hkeep _ _ hbase

/-- C3 (counterexample): an 8-free-cell-imbalanced board (4×4 with holes at
`(0,0)` and `(2,0)`, both white) with an unbounded parity-neutral domino and
a zero-stock monomino: every available tile is parity-neutral in every
orientation and the free board has imbalance 2, yet `preflight` returns
`ok = true` — the code's parity test ranges over the zero-stock monomino as
well and therefore does not fire. -/
theorem C3_counterexample :
    (preflight 4 4 ({((0 : Int), (0 : Int)), ((2 : Int), (0 : Int))} : Finset Cell)
      [⟨"domino", [(0, 0), (1, 0)], true, false, none⟩,
       ⟨"mono", [(0, 0)], true, false, some 0⟩]).ok = true ∧
    (∀ t ∈ availableTiles
      [⟨"domino", [(0, 0), (1, 0)], true, false, none⟩,
       ⟨"mono", [(0, 0)], true, false, some 0⟩],
      ∀ o ∈ orientations t.base true true, tileBWDelta o = 0) ∧
    (countBoardBW (boardCells 4 4
      ({((0 : Int), (0 : Int)), ((2 : Int), (0 : Int))} : Finset Cell))).delta ≠ 0 := by
  refine ⟨by decide, by decide, by decide⟩

/-- C3 (amended): if every tile type in the catalog — including those with
`count = 0` — is parity-neutral (equal black/white in every orientation,
equivalently in its base shape) and the free board has a nonzero
black/white imbalance, then `preflight` returns `ok = false` and the reasons
include the parity-mismatch reason. -/
theorem C3_parity_preflight (W H : Nat) (holesSet : Finset Cell)
    (tiles : List TileType)
    (hall : ∀ t ∈ tiles, ∀ o ∈ orientations t.base true true, tileBWDelta o = 0)
    (himb : (countBoardBW (boardCells W H holesSet)).delta ≠ 0) :
    (preflight W H holesSet tiles).ok = false ∧
    parityReason (countBoardBW (boardCells W H holesSet)).delta ∈
      (preflight W H holesSet tiles).reasons := by
  have hbase : ∀ t ∈ tiles, tileBWDelta t.base = 0 := by
    intro t ht
    have := hall t ht (normShape t.base) (normShape_mem_orientations t.base true true)
    rwa [tileBWDelta_normShape] at this
  have hneutral : tiles.all (fun t => tileBWDelta t.base = 0) = true := by
    rw [List.all_eq_true]
    intro t ht
    exact decide_eq_true (hbase t ht)
  have hmem : parityReason (countBoardBW (boardCells W H holesSet)).delta ∈
      preflightReasons W H holesSet tiles := by
    simp only [preflightReasons]
    refine List.mem_append_right _ ?_
    rw [if_pos ⟨hneutral, himb⟩]
    exact List.mem_singleton.mpr rfl
  refine ⟨?_, hmem⟩
  have hne : preflightReasons W H holesSet tiles ≠ [] := List.ne_nil_of_mem hmem
  have hlen : (preflightReasons W H holesSet tiles).length ≠ 0 := by
    simpa [List.length_eq_zero] using hne
  simp only [preflight]
  exact decide_eq_false hlen

/-- Witness for `C3_parity_preflight`: 8×8 with two same-colour holes and
only unbounded dominoes is rejected with the parity reason. -/
theorem C3_witness :
    (preflight 8 8 ({((0 : Int), (0 : Int)), ((7 : Int), (7 : Int))} : Finset Cell)
      [⟨"domino", [(0, 0), (1, 0)], true, false, none⟩]).ok = false ∧
    parityReason (countBoardBW (boardCells 8 8
      ({((0 : Int), (0 : Int)), ((7 : Int), (7 : Int))} : Finset Cell))).delta ∈
      (preflight 8 8 ({((0 : Int), (0 : Int)), ((7 : Int), (7 : Int))} : Finset Cell)
        [⟨"domino", [(0, 0), (1, 0)], true, false, none⟩]).reasons :=
  C3_parity_preflight 8 8 _ _ (by decide) (by decide)

/-! ## List and Finset helpers for the search invariants -/

theorem getD_mem {l : List Nat} {i : Nat} (h : i < l.length) : l.getD i 0 ∈ l := by
  rw [List.getD_eq_getElem?_getD, List.getElem?_eq_getElem h]
  exact List.getElem_mem _

theorem getD_set_self {l : List Nat} {i : Nat} (h : i < l.length) (v : Nat) :
    (l.set i v).getD i 0 = v := by
  rw [List.getD_eq_getElem?_getD, List.getElem?_set]
  simp [h]

theorem getD_set_other (l : List Nat) {i j : Nat} (h : i ≠ j) (v : Nat) :
    (l.set i v).getD j 0 = l.getD j 0 := by
  rw [List.getD_eq_getElem?_getD, List.getElem?_set, if_neg h,
    List.getD_eq_getElem?_getD]

theorem mem_foldl_insert (cells : List Cell) (s : Finset Cell) (x : Cell) :
    x ∈ cells.foldl (fun s c => insert c s) s ↔ x ∈ s ∨ x ∈ cells := by
  induction cells generalizing s with
  | nil => simp
  | cons c rest ih =>
    simp only [List.foldl_cons, ih, Finset.mem_insert, List.mem_cons]
    tauto

theorem foldl_insert_eq (cells : List Cell) (s : Finset Cell) :
    cells.foldl (fun s c => insert c s) s = s ∪ cells.toFinset := by
  ext x
  rw [mem_foldl_insert]
  simp

theorem countP_le_one_of_pairwise {p : α → Bool} {l : List α}
    (h : l.Pairwise (fun a b => ¬(p a = true ∧ p b = true))) : l.countP p ≤ 1 := by
  induction l with
  | nil => simp
  | cons a rest ih =>
    rw [List.countP_cons]
    rcases List.pairwise_cons.mp h with ⟨ha, hrest⟩
    by_cases hpa : p a = true
    · have hz : rest.countP p = 0 := by
        rw [List.countP_eq_zero]
        exact fun b hb hpb => (ha b hb) ⟨hpa, hpb⟩
      simp [hz, hpa]
    · simp only [hpa, if_false]
      simpa using ih hrest

theorem mem_swapAt {l : List Nat} {i j : Nat} {a : Nat}
    (hi : i < l.length) (hj : j < l.length) (h : a ∈ swapAt l i j) : a ∈ l := by
  unfold swapAt at h
  rcases List.mem_or_eq_of_mem_set h with h' | rfl
  · rcases List.mem_or_eq_of_mem_set h' with h'' | rfl
    · exact h''
    · exact getD_mem hj
  · exact getD_mem hi

theorem shuffleAux_mem (rng : Nat → Nat) :
    ∀ (i : Nat) (l : List Nat) (k : Nat), i < l.length →
      ∀ a ∈ (shuffleAux rng i l k).1, a ∈ l := by
  intro i
  induction i with
  | zero => intro l k _ a ha; exact ha
  | succ i ih =>
    intro l k hi a ha
    simp only [shuffleAux] at ha
    have hlen : (swapAt l (i + 1) (rng k % (i + 2))).length = l.length := by
      unfold swapAt
      simp [List.length_set]
    have hj : rng k % (i + 2) < l.length :=
      lt_of_lt_of_le (Nat.mod_lt _ (Nat.succ_pos _)) hi
    have hmem := ih (swapAt l (i + 1) (rng k % (i + 2))) (k + 1)
      (by rw [hlen]; exact Nat.lt_of_succ_lt hi) a ha
    exact mem_swapAt hi hj hmem

theorem shuffle_mem (rng : Nat → Nat) (l : List Nat) (k : Nat) :
    ∀ a ∈ (shuffle rng l k).1, a ∈ l := by
  cases l with
  | nil =>
    intro a ha
    simpa [shuffle, shuffleAux] using ha
  | cons x xs =>
    intro a ha
    exact shuffleAux_mem rng _ _ _ (by simp [shuffle]) a ha

theorem mem_boardRow {W : Nat} {holes : Finset Cell} {y : Nat} {b : Cell}
    (hb : b ∈ (List.range W).filterMap (fun (x : Nat) =>
      let c : Cell := ((x : Int), (y : Int))
      if c ∈ holes then none else some c)) :
    b.2 = (y : Int) := by
  rcases List.mem_filterMap.mp hb with ⟨x, _, hfx⟩
  by_cases h : (((x : Int), (y : Int)) : Cell) ∈ holes
  · simp [h] at hfx
  · simp only [h, if_neg, not_false_iff] at hfx
    cases hfx
    rfl

theorem boardCells_nodup (W H : Nat) (holes : Finset Cell) :
    (boardCells W H holes).Nodup := by
  unfold boardCells
  rw [List.nodup_flatMap]
  refine ⟨?_, ?_⟩
  · intro y _
    refine @List.Nodup.filterMap Nat Cell (List.range W)
      (fun x =>
        let c : Cell := ((x : Int), (y : Int))
        if c ∈ holes then none else some c) ?_ (List.nodup_range W)
    intro a a' b hb hb'
    simp only [Option.mem_def] at hb hb'
    by_cases h1 : (((a : Int), (y : Int)) : Cell) ∈ holes
    · simp [h1] at hb
    · by_cases h2 : (((a' : Int), (y : Int)) : Cell) ∈ holes
      · simp [h2] at hb'
      · simp only [h1, h2, if_neg, not_false_iff] at hb hb'
        have e1 : (((a : Int), (y : Int)) : Cell) = b := Option.some.inj hb
        have e2 : (((a' : Int), (y : Int)) : Cell) = b := Option.some.inj hb'
        have h3 : (a : Int) = (a' : Int) := by
          have := congrArg Prod.fst (e1.trans e2.symm)
          simpa using this
        exact_mod_cast h3
  · have hlt : (List.range H).Pairwise (· < ·) := List.pairwise_lt_range H
    refine hlt.imp ?_
    intro y y' hyy'
    intro a ha ha'
    have h1 := mem_boardRow ha
    have h2 := mem_boardRow ha'
    rw [h1] at h2
    have : y = y' := by exact_mod_cast h2
    omega

/-! ## Well-formedness of the placement table -/

theorem foldl_preserve {β : Type _} {α : Type _} (P : β → Prop) (f : β → α → β)
    (l : List α) (b : β) (hb : P b) (hf : ∀ b' a, a ∈ l → P b' → P (f b' a)) :
    P (l.foldl f b) := by
  induction l generalizing b with
  | nil => exact hb
  | cons a rest ih =>
    exact ih (f b a) (hf b a (List.mem_cons_self _ _) hb)
      (fun b' a' ha' => hf b' a' (List.mem_cons_of_mem _ ha'))

theorem rot90_nodup {l : List Cell} (h : l.Nodup) : (rot90 l).Nodup := by
  refine h.map ?_
  intro a b hab
  have h1 := congrArg Prod.fst hab
  have h2 := congrArg Prod.snd hab
  simp only at h1 h2
  ext
  · omega
  · omega

theorem reflX_nodup {l : List Cell} (h : l.Nodup) : (reflX l).Nodup := by
  refine h.map ?_
  intro a b hab
  have h1 := congrArg Prod.fst hab
  have h2 := congrArg Prod.snd hab
  simp only at h1 h2
  ext
  · omega
  · omega

theorem normShape_nodup {l : List Cell} (h : l.Nodup) : (normShape l).Nodup := by
  unfold normShape
  refine ((sortBy_perm _ _).nodup_iff).mpr ?_
  refine h.map ?_
  intro a b hab
  have h1 := congrArg Prod.fst hab
  have h2 := congrArg Prod.snd hab
  simp only at h1 h2
  ext
  · omega
  · omega

theorem orientations_nodup {base : List Cell} {r f : Bool} (hb : base.Nodup) :
    ∀ o ∈ orientations base r f, o.Nodup := by
  intro o ho
  unfold orientations at ho
  rcases orientFold_mem f _ [] ho with h' | h'
  · exact absurd h' (List.not_mem_nil _)
  · obtain ⟨c, hc, hco⟩ := h'
    have hcnd : c.Nodup := by
      rcases List.mem_cons.mp hc with rfl | hc'
      · exact hb
      · split at hc'
        · simp only [List.mem_cons, List.not_mem_nil, or_false] at hc'
          rcases hc' with rfl | rfl | rfl
          · exact rot90_nodup hb
          · exact rot90_nodup (rot90_nodup hb)
          · exact rot90_nodup (rot90_nodup (rot90_nodup hb))
        · exact absurd hc' (List.not_mem_nil _)
    rcases hco with rfl | rfl
    · exact normShape_nodup hcnd
    · exact normShape_nodup (reflX_nodup hcnd)

theorem byCellGet_byCellAdd (m : ByCell) (k0 : Cell) (pid : Nat) (k : Cell) :
    byCellGet (byCellAdd m k0 pid) k =
      if k = k0 then byCellGet m k ++ [pid] else byCellGet m k := by
  induction m with
  | nil =>
    by_cases h : k = k0
    · subst h
      simp [byCellAdd, byCellGet, List.lookup]
    · have hb : (k == k0) = false := beq_eq_false_iff_ne.mpr h
      simp [byCellAdd, byCellGet, List.lookup, hb, h]
  | cons hd rest ih =>
    obtain ⟨k', v⟩ := hd
    by_cases h1 : k' = k0
    · subst h1
      simp only [byCellAdd, if_pos rfl]
      by_cases h2 : k = k'
      · subst h2
        simp [byCellGet, List.lookup]
      · have hb : (k == k') = false := beq_eq_false_iff_ne.mpr h2
        simp [byCellGet, List.lookup, hb, h2]
    · simp only [byCellAdd, if_neg h1]
      by_cases h2 : k = k'
      · subst h2
        simp [byCellGet, List.lookup, h1]
      · have hb : (k == k') = false := beq_eq_false_iff_ne.mpr h2
        have := ih
        simp only [byCellGet, List.lookup, hb] at this ⊢
        exact this

theorem precomp_ok (W H : Nat) (bs : Finset Cell) (tiles : List TileType)
    (hnodup : ∀ t ∈ tiles, t.base.Nodup) :
    PlacementsOk tiles bs (precomputePlacements W H bs tiles).placements ∧
    ByCellOk (precomputePlacements W H bs tiles).placements
      (precomputePlacements W H bs tiles).byCell := by
  unfold precomputePlacements
  refine foldl_preserve
    (fun acc : Precomp => PlacementsOk tiles bs acc.placements ∧
      ByCellOk acc.placements acc.byCell) _ _ _ ⟨?_, ?_⟩ ?_
  · intro p hp
    exact absurd hp (List.not_mem_nil _)
  · intro k pid hpid
    simp [byCellGet, List.lookup] at hpid
  · intro acc ent hent hacc
    obtain ⟨hti, hteq⟩ := List.mem_enum hent
    have htmem : ent.2 ∈ tiles := by
      rw [hteq]
      exact List.getElem_mem _
    dsimp only
    refine foldl_preserve
      (fun acc : Precomp => PlacementsOk tiles bs acc.placements ∧
        ByCellOk acc.placements acc.byCell) _ _ _ hacc ?_
    intro acc' o ho hacc'
    refine foldl_preserve
      (fun acc : Precomp => PlacementsOk tiles bs acc.placements ∧
        ByCellOk acc.placements acc.byCell) _ _ _ hacc' ?_
    intro acc'' off hoff hacc''
    dsimp only
    by_cases hall : (o.map (fun c => (c.1 + off.1, c.2 + off.2))).all
        (fun c => decide (c ∈ bs)) = true
    · rw [if_pos hall]
      have habs : ∀ c ∈ o.map (fun c : Cell => (c.1 + off.1, c.2 + off.2)), c ∈ bs := by
        intro c hc
        have := List.all_eq_true.mp hall c hc
        exact of_decide_eq_true this
      have hnd : (o.map (fun c : Cell => (c.1 + off.1, c.2 + off.2))).Nodup := by
        refine (orientations_nodup (hnodup _ htmem) o ho).map ?_
        intro a b hab
        have h1 := congrArg Prod.fst hab
        have h2 := congrArg Prod.snd hab
        simp only at h1 h2
        ext
        · omega
        · omega
      obtain ⟨hplac, hbyc⟩ := hacc''
      constructor
      · intro p hp
        rcases List.mem_append.mp hp with hp' | hp'
        · exact hplac p hp'
        · rcases List.mem_singleton.mp hp' with rfl
          exact ⟨habs, hti, hnd⟩
      · simp only [addPlacement, ByCellOk, List.length_append, List.length_singleton]
        refine foldl_preserve
          (fun m : ByCell => ∀ k pid,
            pid ∈ byCellGet m k → pid < acc''.placements.length + 1) _ _ _ ?_ ?_
        · intro k pid hpid
          exact Nat.lt_succ_of_lt (hbyc k pid hpid)
        · intro m c _ hm k pid hpid
          rw [byCellGet_byCellAdd] at hpid
          split at hpid
          · rcases List.mem_append.mp hpid with h' | h'
            · exact hm k pid h'
            · rcases List.mem_singleton.mp h' with rfl
              simp
          · exact hm k pid hpid
    · rw [if_neg hall]
      exact hacc''

/-! ## Search-position invariants of `rec` -/

theorem getD_mem' {α : Type _} {l : List α} {i : Nat} (d : α) (h : i < l.length) :
    l.getD i d ∈ l := by
  rw [List.getD_eq_getElem?_getD, List.getElem?_eq_getElem h]
  exact List.getElem_mem _

theorem validPids_spec {tiles : List TileType} {pc : Precomp} {pos : EnumPos}
    {k : Cell} {pid : Nat} (h : pid ∈ validPidsForCell tiles pc pos k) :
    pid ∈ byCellGet pc.byCell k ∧
    (∀ limit, (tiles.getD (pc.placements.getD pid default).ti default).count = some limit →
      pos.usedCounts.getD (pc.placements.getD pid default).ti 0 < limit) ∧
    (∀ c ∈ (pc.placements.getD pid default).cells, c ∉ pos.covered) := by
  unfold validPidsForCell at h
  rcases List.mem_filter.mp h with ⟨hmem, hcond⟩
  dsimp only at hcond
  rcases Bool.and_eq_true_iff.mp hcond with ⟨hstock, hcells⟩
  refine ⟨hmem, ?_, ?_⟩
  · intro limit hlim
    rw [hlim] at hstock
    exact of_decide_eq_true hstock
  · intro c hc
    exact of_decide_eq_true (List.all_eq_true.mp hcells c hc)

theorem EnumInv_place {tiles : List TileType} {bs : Finset Cell} {pc : Precomp}
    {pos : EnumPos} {k : Cell} {pid : Nat}
    (hplac : PlacementsOk tiles bs pc.placements)
    (hbyc : ByCellOk pc.placements pc.byCell)
    (hinv : EnumInv tiles pc pos)
    (hpid : pid ∈ validPidsForCell tiles pc pos k) :
    EnumInv tiles pc (place pc.placements pos pid) := by
  obtain ⟨hspec1, hspec2, hspec3⟩ := validPids_spec hpid
  obtain ⟨hvalid, hcov, hpw, hcard, hlen, hcnt, hbnd⟩ := hinv
  have hpv : pid < pc.placements.length := hbyc k pid hspec1
  set P := pc.placements.getD pid default with hP
  have hPmem : P ∈ pc.placements := getD_mem' default hpv
  obtain ⟨hPbs, hPti, hPnd⟩ := hplac P hPmem
  have hcov' : ∀ c : Cell,
      (c ∈ P.cells.foldl (fun s c => insert c s) pos.covered) ↔
      (∃ pid' ∈ pos.usedPlacements ++ [pid],
        c ∈ (pc.placements.getD pid' default).cells) := by
    intro c
    rw [mem_foldl_insert]
    constructor
    · rintro (hc | hc)
      · obtain ⟨pid', hpid', hc'⟩ := (hcov c).mp hc
        exact ⟨pid', List.mem_append_left _ hpid', hc'⟩
      · exact ⟨pid, List.mem_append_right _ (List.mem_singleton.mpr rfl), hc⟩
    · rintro ⟨pid', hpid', hc'⟩
      rcases List.mem_append.mp hpid' with h' | h'
      · exact Or.inl ((hcov c).mpr ⟨pid', h', hc'⟩)
      · rcases List.mem_singleton.mp h' with rfl
        exact Or.inr hc'
  refine ⟨?_, hcov', ?_, ?_, ?_, ?_, ?_⟩
  · intro pid' hpid'
    rcases List.mem_append.mp hpid' with h' | h'
    · exact hvalid pid' h'
    · rcases List.mem_singleton.mp h' with rfl
      exact hpv
  · show (pos.usedPlacements ++ [pid]).Pairwise (fun a b =>
      ∀ c ∈ (pc.placements.getD a default).cells, c ∉ (pc.placements.getD b default).cells)
    rw [List.pairwise_append]
    refine ⟨hpw, List.pairwise_singleton _ _, ?_⟩
    intro a ha b hb c hca hcb
    rcases List.mem_singleton.mp hb with rfl
    have hccov : c ∈ pos.covered := (hcov c).mpr ⟨a, ha, hca⟩
    exact hspec3 c hcb hccov
  · show pos.coveredCount + P.cells.length =
      (P.cells.foldl (fun s c => insert c s) pos.covered).card
    rw [foldl_insert_eq]
    have hdisj : Disjoint pos.covered P.cells.toFinset := by
      rw [Finset.disjoint_right]
      intro c hc
      exact hspec3 c (List.mem_toFinset.mp hc)
    rw [Finset.card_union_of_disjoint hdisj, List.toFinset_card_of_nodup hPnd, hcard]
  · show (pos.usedCounts.set P.ti _).length = tiles.length
    rw [List.length_set]
    exact hlen
  · intro ti
    show (pos.usedCounts.set P.ti (pos.usedCounts.getD P.ti 0 + 1)).getD ti 0 =
      (pos.usedPlacements ++ [pid]).countP
        (fun pid' => decide ((pc.placements.getD pid' default).ti = ti))
    rw [List.countP_append]
    have hsing : ([pid].countP
        (fun pid' => decide ((pc.placements.getD pid' default).ti = ti))) =
        (if P.ti = ti then 1 else 0) := by
      rw [List.countP_cons, List.countP_nil]
      by_cases hq : P.ti = ti
      · show 0 + (if decide ((pc.placements.getD pid default).ti = ti) = true
            then 1 else 0) = if P.ti = ti then 1 else 0
        have hd : decide ((pc.placements.getD pid default).ti = ti) = true :=
          decide_eq_true (by rw [← hP]; exact hq)
        rw [hd, if_pos rfl, if_pos hq]
      · show 0 + (if decide ((pc.placements.getD pid default).ti = ti) = true
            then 1 else 0) = if P.ti = ti then 1 else 0
        have hd : decide ((pc.placements.getD pid default).ti = ti) = false :=
          decide_eq_false (by rw [← hP]; exact hq)
        rw [hd, if_neg (fun h => Bool.noConfusion h), if_neg hq]
    rw [hsing, ← hcnt ti]
    by_cases hti : ti = P.ti
    · subst hti
      rw [getD_set_self (by rw [hlen]; exact hPti), if_pos rfl]
    · have hne : P.ti ≠ ti := fun h => hti h.symm
      rw [getD_set_other _ hne, if_neg hne]
      exact (Nat.add_zero _).symm
  · intro ti c hc
    by_cases hti : ti = P.ti
    · subst hti
      show (pos.usedCounts.set P.ti (pos.usedCounts.getD P.ti 0 + 1)).getD P.ti 0 ≤ c
      rw [getD_set_self (by rw [hlen]; exact hPti)]
      exact hspec2 c hc
    · have hne : P.ti ≠ ti := fun h => hti h.symm
      show (pos.usedCounts.set P.ti (pos.usedCounts.getD P.ti 0 + 1)).getD ti 0 ≤ c
      rw [getD_set_other _ hne]
      exact hbnd ti c hc

theorem chooseAux_valid (tiles : List TileType) (pc : Precomp) (pos : EnumPos) :
    ∀ (cells : List Cell) (bc : Option Cell) (bp : List Nat) (bl : Nat),
      (bp = [] ∨ ∃ k, bp = validPidsForCell tiles pc pos k) →
      ((chooseAux tiles pc pos cells bc bp bl).2 = [] ∨
        ∃ k, (chooseAux tiles pc pos cells bc bp bl).2 = validPidsForCell tiles pc pos k) := by
  intro cells
  induction cells with
  | nil => intro bc bp bl hbp; exact hbp
  | cons k rest ih =>
    intro bc bp bl hbp
    unfold chooseAux
    by_cases hk : k ∈ pos.covered
    · rw [if_pos hk]
      exact ih bc bp bl hbp
    · rw [if_neg hk]
      by_cases h0 : (validPidsForCell tiles pc pos k).length = 0
      · rw [if_pos h0]
        exact Or.inl rfl
      · rw [if_neg h0]
        by_cases hlt : (validPidsForCell tiles pc pos k).length < bl
        · rw [if_pos hlt]
          by_cases h1 : (validPidsForCell tiles pc pos k).length = 1
          · rw [if_pos h1]
            exact Or.inr ⟨k, rfl⟩
          · rw [if_neg h1]
            exact ih (some k) _ _ (Or.inr ⟨k, rfl⟩)
        · rw [if_neg hlt]
          exact ih bc bp bl hbp

theorem chooseCellAndPids_valid (tiles : List TileType) (pc : Precomp) (pos : EnumPos)
    (allCells : List Cell) :
    (chooseCellAndPids tiles pc pos allCells).2 = [] ∨
      ∃ k, (chooseCellAndPids tiles pc pos allCells).2 = validPidsForCell tiles pc pos k :=
  chooseAux_valid tiles pc pos allCells none [] 1000000000 (Or.inl rfl)

theorem recordSolution_ok {ctx : EnumCtx} {pos : EnumPos} {acc : EnumAcc}
    (hplac : PlacementsOk ctx.tiles ctx.boardSet ctx.pc.placements)
    (hinv : EnumInv ctx.tiles ctx.pc pos)
    (hcard : ctx.totalCells = ctx.boardSet.card)
    (hcomplete : pos.coveredCount = ctx.totalCells)
    (hacc : AccOk ctx.W ctx.H ctx.tiles ctx.uniqueByBoardSymmetry ctx.boardSet acc) :
    AccOk ctx.W ctx.H ctx.tiles ctx.uniqueByBoardSymmetry ctx.boardSet
      (recordSolution ctx pos acc) := by
  obtain ⟨hvalid, hcov, hpw, hcardc, _, hcnt, hbnd⟩ := hinv
  obtain ⟨hsols, hseen, hpwk⟩ := hacc
  have hcovbs : pos.covered = ctx.boardSet := by
    have hsub : pos.covered ⊆ ctx.boardSet := by
      intro c hc
      obtain ⟨pid, hpid, hcell⟩ := (hcov c).mp hc
      exact ((hplac _ (getD_mem' default (hvalid pid hpid))).1) c hcell
    refine Finset.eq_of_subset_of_card_le hsub ?_
    rw [← hcardc, hcomplete, hcard]
  have hlayout : ExactCover ctx.boardSet
      (pos.usedPlacements.map (fun pid => ctx.pc.placements.getD pid default)) ∧
      LayoutBounded ctx.tiles
        (pos.usedPlacements.map (fun pid => ctx.pc.placements.getD pid default)) := by
    constructor
    · constructor
      · intro c hc
        rw [List.countP_map]
        have hex : ∃ pid ∈ pos.usedPlacements,
            c ∈ (ctx.pc.placements.getD pid default).cells := by
          apply (hcov c).mp
          rw [hcovbs]
          exact hc
        have hge : 0 < pos.usedPlacements.countP
            ((fun p => decide (c ∈ p.cells)) ∘
              (fun pid => ctx.pc.placements.getD pid default)) := by
          rw [List.countP_pos_iff]
          obtain ⟨pid, hpid, hcell⟩ := hex
          exact ⟨pid, hpid, decide_eq_true hcell⟩
        have hle : pos.usedPlacements.countP
            ((fun p => decide (c ∈ p.cells)) ∘
              (fun pid => ctx.pc.placements.getD pid default)) ≤ 1 := by
          apply countP_le_one_of_pairwise
          refine hpw.imp ?_
          intro a b hab hcon
          rcases hcon with ⟨ha, hb⟩
          exact hab c (of_decide_eq_true ha) (of_decide_eq_true hb)
        omega
      · intro p hp c hc
        obtain ⟨pid, hpid, rfl⟩ := List.mem_map.mp hp
        exact ((hplac _ (getD_mem' default (hvalid pid hpid))).1) c hc
    · intro ti cnt hcnt'
      unfold typeCount
      rw [List.countP_map]
      have := hbnd ti cnt hcnt'
      rw [hcnt ti] at this
      exact this
  unfold recordSolution
  by_cases hk : canonicalKey
      (pos.usedPlacements.map (fun pid => ctx.pc.placements.getD pid default))
      ctx.W ctx.H ctx.tiles ctx.uniqueByBoardSymmetry (some ctx.boardSet) ∈ acc.seen
  · rw [if_pos hk]
    exact ⟨hsols, hseen, hpwk⟩
  · rw [if_neg hk]
    refine ⟨?_, ?_, ?_⟩
    · intro L hL
      rcases List.mem_append.mp hL with h' | h'
      · exact hsols L h'
      · rcases List.mem_singleton.mp h' with rfl
        exact hlayout
    · intro L hL
      rcases List.mem_append.mp hL with h' | h'
      · exact Finset.mem_insert_of_mem (hseen L h')
      · rcases List.mem_singleton.mp h' with rfl
        exact Finset.mem_insert_self _ _
    · rw [List.pairwise_append]
      refine ⟨hpwk, List.pairwise_singleton _ _, ?_⟩
      intro L1 h1 L2 h2
      rcases List.mem_singleton.mp h2 with rfl
      intro heq
      exact hk (heq ▸ hseen L1 h1)

theorem branchFold_accOk {ctx : EnumCtx} {bs : Finset Cell} {pos : EnumPos} {k : Cell}
    {fuel : Nat}
    (hbs : bs = ctx.boardSet)
    (hplac : PlacementsOk ctx.tiles bs ctx.pc.placements)
    (hbyc : ByCellOk ctx.pc.placements ctx.pc.byCell)
    (hinv : EnumInv ctx.tiles ctx.pc pos)
    (ihfuel : ∀ (pos' : EnumPos) (acc' : EnumAcc), EnumInv ctx.tiles ctx.pc pos' →
      AccOk ctx.W ctx.H ctx.tiles ctx.uniqueByBoardSymmetry ctx.boardSet acc' →
      AccOk ctx.W ctx.H ctx.tiles ctx.uniqueByBoardSymmetry ctx.boardSet
        (enumRec ctx fuel pos' acc')) :
    ∀ (pl : List Nat) (acc : EnumAcc),
      (∀ pid ∈ pl, pid ∈ validPidsForCell ctx.tiles ctx.pc pos k) →
      AccOk ctx.W ctx.H ctx.tiles ctx.uniqueByBoardSymmetry ctx.boardSet acc →
      AccOk ctx.W ctx.H ctx.tiles ctx.uniqueByBoardSymmetry ctx.boardSet
        (branchFold (enumRec ctx fuel) ctx pos pl acc) := by
  intro pl
  induction pl with
  | nil => intro acc _ hacc; exact hacc
  | cons pid rest ih =>
    intro acc hpl hacc
    unfold branchFold
    have hinv' : EnumInv ctx.tiles ctx.pc (place ctx.pc.placements pos pid) := by
      subst hbs
      exact EnumInv_place hplac hbyc hinv (hpl pid (List.mem_cons_self _ _))
    have hacc1 : AccOk ctx.W ctx.H ctx.tiles ctx.uniqueByBoardSymmetry ctx.boardSet
        (bumpNodes ctx acc) := hacc
    have hacc2 := ihfuel _ _ hinv' hacc1
    by_cases hcap : (enumRec ctx fuel (place ctx.pc.placements pos pid)
        (bumpNodes ctx acc)).solutions.length ≥ ctx.capSolutions
    · rw [if_pos hcap]
      exact hacc2
    · rw [if_neg hcap]
      exact ih _ (fun p hp => hpl p (List.mem_cons_of_mem _ hp)) hacc2

theorem enumRec_accOk {ctx : EnumCtx}
    (hplac : PlacementsOk ctx.tiles ctx.boardSet ctx.pc.placements)
    (hbyc : ByCellOk ctx.pc.placements ctx.pc.byCell)
    (hcard : ctx.totalCells = ctx.boardSet.card) :
    ∀ (fuel : Nat) (pos : EnumPos) (acc : EnumAcc),
      EnumInv ctx.tiles ctx.pc pos →
      AccOk ctx.W ctx.H ctx.tiles ctx.uniqueByBoardSymmetry ctx.boardSet acc →
      AccOk ctx.W ctx.H ctx.tiles ctx.uniqueByBoardSymmetry ctx.boardSet
        (enumRec ctx fuel pos acc) := by
  intro fuel
  induction fuel with
  | zero => intro pos acc _ hacc; exact hacc
  | succ fuel ih =>
    intro pos acc hinv hacc
    unfold enumRec
    by_cases hcap : acc.solutions.length ≥ ctx.capSolutions
    · rw [if_pos hcap]
      exact hacc
    · rw [if_neg hcap]
      by_cases hdone : pos.coveredCount = ctx.totalCells
      · rw [if_pos hdone]
        exact recordSolution_ok hplac hinv hcard hdone hacc
      · rw [if_neg hdone]
        rcases hvp : chooseCellAndPids ctx.tiles ctx.pc pos ctx.allCells with ⟨oc, pids⟩
        have hval := chooseCellAndPids_valid ctx.tiles ctx.pc pos ctx.allCells
        rw [hvp] at hval
        rcases pids with _ | ⟨pid, rest⟩
        · exact hacc
        · rcases rest with _ | ⟨pid2, rest2⟩
          · -- forced move
            have hone : pid ∈ validPidsForCell ctx.tiles ctx.pc pos
                (Classical.choose (hval.resolve_left (by simp))) := by
              have hch := Classical.choose_spec (hval.resolve_left (by simp))
              rw [← hch]
              exact List.mem_singleton.mpr rfl
            exact ih _ _ (EnumInv_place hplac hbyc hinv hone) hacc
          · -- branching
            obtain ⟨k, hk⟩ : ∃ k, pid :: pid2 :: rest2 =
                validPidsForCell ctx.tiles ctx.pc pos k := by
              rcases hval with h' | h'
              · exact absurd h' (by simp)
              · exact h'
            refine @branchFold_accOk ctx ctx.boardSet pos k fuel rfl hplac hbyc hinv
              (fun pos' acc' => ih pos' acc') _ _ ?_ ?_
            · intro p hp
              rw [← hk]
              exact shuffle_mem ctx.rng _ _ p hp
            · exact hacc

theorem EnumInv_init (tiles : List TileType) (pc : Precomp) :
    EnumInv tiles pc ⟨∅, List.replicate tiles.length 0, [], 0⟩ := by
  have hget : ∀ i, (List.replicate tiles.length (0 : Nat)).getD i 0 = 0 := by
    intro i
    rw [List.getD_eq_getElem?_getD, List.getElem?_replicate]
    split <;> rfl
  refine ⟨?_, ?_, ?_, ?_, ?_, ?_, ?_⟩
  · intro pid hpid
    exact absurd hpid (List.not_mem_nil _)
  · intro c
    simp
  · exact List.Pairwise.nil
  · simp
  · exact List.length_replicate _ _
  · intro ti
    rw [hget ti]
    rfl
  · intro ti c _
    rw [hget ti]
    exact Nat.zero_le _

theorem AccOk_init (W H : Nat) (tiles : List TileType) (uniq : Bool)
    (bs : Finset Cell) : AccOk W H tiles uniq bs ⟨∅, [], 0, 0, []⟩ := by
  refine ⟨?_, ?_, ?_⟩
  · intro L hL
    exact absurd hL (List.not_mem_nil _)
  · intro L hL
    exact absurd hL (List.not_mem_nil _)
  · exact List.Pairwise.nil

/-- Every solution list returned by `enumerateTilings` consists of exact
covers of the free set that respect the per-type stock, and distinct returned
solutions have distinct canonical keys. -/
theorem enumerateTilings_ok (W H : Nat) (holes : Finset Cell) (tiles : List TileType)
    (uniq : Bool) (cap : Nat) (cb : Option (Nat → Nat → List Msg)) (rng : Nat → Nat)
    (hnodup : ∀ t ∈ tiles, t.base.Nodup) :
    ∀ r, enumerateTilings W H holes tiles uniq cap cb rng = .ok r →
      (∀ L ∈ r.solutions,
        ExactCover (boardCells W H holes).toFinset L ∧ LayoutBounded tiles L) ∧
      r.solutions.Pairwise (fun L1 L2 =>
        canonicalKey L1 W H tiles uniq (some (boardCells W H holes).toFinset) ≠
        canonicalKey L2 W H tiles uniq (some (boardCells W H holes).toFinset)) := by
  intro r hr
  unfold enumerateTilings at hr
  dsimp only at hr
  split at hr
  · exact absurd hr (by simp)
  · have hpok := precomp_ok W H (boardCells W H holes).toFinset tiles hnodup
    have hcard : (boardCells W H holes).length = (boardCells W H holes).toFinset.card :=
      (List.toFinset_card_of_nodup (boardCells_nodup W H holes)).symm
    have hmain := @enumRec_accOk
      ⟨W, H, tiles, precomputePlacements W H (boardCells W H holes).toFinset tiles,
        boardCells W H holes, (boardCells W H holes).length,
        (boardCells W H holes).toFinset, uniq, cap, cb, rng⟩
      hpok.1 hpok.2 hcard ((boardCells W H holes).length + 1)
      ⟨∅, List.replicate tiles.length 0, [], 0⟩ ⟨∅, [], 0, 0, []⟩
      (EnumInv_init tiles _) (AccOk_init W H tiles uniq _)
    obtain ⟨hsols, _, hpwk⟩ := hmain
    cases hr
    exact ⟨hsols, hpwk⟩

/-! ## The exact-cover data of the first-only engine -/

theorem getD_set_self' {α : Type _} (d : α) {l : List α} {i : Nat}
    (h : i < l.length) (v : α) : (l.set i v).getD i d = v := by
  rw [List.getD_eq_getElem?_getD, List.getElem?_set]
  simp [h]

theorem getD_set_other' {α : Type _} (d : α) (l : List α) {i j : Nat} (h : i ≠ j)
    (v : α) : (l.set i v).getD j d = l.getD j d := by
  rw [List.getD_eq_getElem?_getD, List.getElem?_set, if_neg h,
    List.getD_eq_getElem?_getD]

theorem buildFree_fold_fst (hs : Finset Cell) (l : List Cell) :
    ∀ (a1 : List Cell) (a2 : List (Cell × Nat)),
      (l.foldl (fun st c => if c ∈ hs then st
        else (st.1 ++ [c], st.2 ++ [(c, st.1.length)])) (a1, a2)).1 =
      a1 ++ l.filter (fun c => decide (c ∉ hs)) := by
  induction l with
  | nil => intro a1 a2; simp
  | cons c rest ih =>
    intro a1 a2
    rw [List.foldl_cons]
    by_cases hc : c ∈ hs
    · rw [if_pos hc, ih]
      have : (List.filter (fun c => decide (c ∉ hs)) (c :: rest)) =
          List.filter (fun c => decide (c ∉ hs)) rest := by
        rw [List.filter_cons]
        simp [hc]
      rw [this]
    · rw [if_neg hc, ih]
      have : (List.filter (fun c => decide (c ∉ hs)) (c :: rest)) =
          c :: List.filter (fun c => decide (c ∉ hs)) rest := by
        rw [List.filter_cons]
        simp [hc]
      rw [this]
      simp

theorem filterMap_if_eq_filter_map (hs : Finset Cell) (f : Nat → Cell) (l : List Nat) :
    l.filterMap (fun x => if f x ∈ hs then none else some (f x)) =
      (l.map f).filter (fun c => decide (c ∉ hs)) := by
  induction l with
  | nil => rfl
  | cons x rest ih =>
    rw [List.filterMap_cons, List.map_cons, List.filter_cons]
    by_cases hx : f x ∈ hs
    · simp only [hx, if_pos, decide_not]
      simp only [ih]
      simp [hx]
    · simp only [hx, if_neg, not_false_iff]
      simp only [ih]
      simp [hx]

theorem flatMap_filter (p : Cell → Bool) (g : Nat → List Cell) (l : List Nat) :
    (l.flatMap (fun y => (g y).filter p)) = (l.flatMap g).filter p := by
  induction l with
  | nil => rfl
  | cons y rest ih =>
    rw [List.flatMap_cons, List.flatMap_cons, List.filter_append, ih]

theorem buildFree_fst (W H : Nat) (hs : Finset Cell) :
    (buildFree W H hs).1 = boardCells W H hs := by
  unfold buildFree boardCells
  rw [buildFree_fold_fst hs _ [] []]
  rw [List.nil_append]
  rw [← flatMap_filter]
  congr 1
  funext y
  rw [← filterMap_if_eq_filter_map hs (fun x : Nat => (((x : Int), (y : Int)) : Cell))]

theorem buildFree_colIndex (W H : Nat) (hs : Finset Cell) :
    (∀ (c : Cell) (i : Nat), (buildFree W H hs).2.lookup c = some i →
      i < (buildFree W H hs).1.length ∧ (buildFree W H hs).1.getD i (0, 0) = c) ∧
    (∀ c ∈ (buildFree W H hs).1, ∃ i, (buildFree W H hs).2.lookup c = some i) := by
  unfold buildFree
  refine foldl_preserve
    (fun st : List Cell × List (Cell × Nat) =>
      (∀ (c : Cell) (i : Nat), st.2.lookup c = some i →
        i < st.1.length ∧ st.1.getD i (0, 0) = c) ∧
      (∀ c ∈ st.1, ∃ i, st.2.lookup c = some i)) _ _ _ ⟨?_, ?_⟩ ?_
  · intro c i hci
    simp [List.lookup] at hci
  · intro c hc
    exact absurd hc (List.not_mem_nil _)
  · intro st c _ hst
    by_cases hc : c ∈ hs
    · rw [if_pos hc]
      exact hst
    · rw [if_neg hc]
      obtain ⟨h1, h2⟩ := hst
      constructor
      · intro c' i hci
        rcases hlk : st.2.lookup c' with _ | j
        · have hl2 : (st.2 ++ [(c, st.1.length)]).lookup c' =
              if c' = c then some st.1.length else none := by
            rw [List.lookup_append, hlk]
            by_cases hq : c' = c
            · simp [List.lookup, hq]
            · have hb : (c' == c) = false := beq_eq_false_iff_ne.mpr hq
              simp [List.lookup, hb, hq]
          rw [hl2] at hci
          by_cases hq : c' = c
          · rw [if_pos hq] at hci
            cases hci
            refine ⟨by simp, ?_⟩
            rw [List.getD_eq_getElem?_getD, List.getElem?_append,
              if_neg (lt_irrefl _)]
            simp [hq]
          · rw [if_neg hq] at hci
            exact absurd hci (by simp)
        · have : (st.2 ++ [(c, st.1.length)]).lookup c' = some j := by
            rw [List.lookup_append, hlk]
            rfl
          rw [this] at hci
          cases hci
          obtain ⟨hj1, hj2⟩ := h1 c' i hlk
          refine ⟨by simp; omega, ?_⟩
          rw [List.getD_eq_getElem?_getD, List.getElem?_append, if_pos hj1,
            ← List.getD_eq_getElem?_getD]
          exact hj2
      · intro c' hc'
        rcases List.mem_append.mp hc' with h' | h'
        · obtain ⟨i, hi⟩ := h2 c' h'
          refine ⟨i, ?_⟩
          rw [List.lookup_append, hi]
          rfl
        · rcases List.mem_singleton.mp h' with rfl
          rcases hlk : st.2.lookup c' with _ | j
          · refine ⟨st.1.length, ?_⟩
            rw [List.lookup_append, hlk]
            simp [List.lookup]
          · exact ⟨j, by rw [List.lookup_append, hlk]; rfl⟩

theorem rowColsAux_forall2 (ci : List (Cell × Nat)) :
    ∀ {cells : List Cell} {cols : List Nat}, rowColsAux ci cells = some cols →
      List.Forall₂ (fun c i => ci.lookup c = some i) cells cols := by
  intro cells
  induction cells with
  | nil =>
    intro cols h
    cases h
    exact List.Forall₂.nil
  | cons c rest ih =>
    intro cols h
    unfold rowColsAux at h
    rcases hlk : ci.lookup c with _ | i
    · rw [hlk] at h
      exact absurd h (by simp)
    · rw [hlk] at h
      rcases hrest : rowColsAux ci rest with _ | l
      · rw [hrest] at h
        exact absurd h (by simp)
      · rw [hrest] at h
        cases h
        exact List.Forall₂.cons hlk (ih hrest)

/-- Every row of `buildExactCoverData` points at a real placement, carries
that placement's tile index, and its `cols` are the column indices of its
cells. -/
theorem buildECD_rows_ok (W H : Nat) (hs : Finset Cell) (tiles : List TileType) :
    ∀ row ∈ (buildExactCoverData W H hs tiles).rows,
      row.pid < (buildExactCoverData W H hs tiles).placements.length ∧
      row.ti = ((buildExactCoverData W H hs tiles).placements.getD row.pid default).ti ∧
      rowColsAux (buildExactCoverData W H hs tiles).colIndex
        ((buildExactCoverData W H hs tiles).placements.getD row.pid default).cells =
        some row.cols := by
  unfold buildExactCoverData
  dsimp only
  refine foldl_preserve
    (fun rs : List Row => ∀ row ∈ rs,
      row.pid < (precomputePlacements W H (buildFree W H hs).1.toFinset
        tiles).placements.length ∧
      row.ti = ((precomputePlacements W H (buildFree W H hs).1.toFinset
        tiles).placements.getD row.pid default).ti ∧
      rowColsAux (buildFree W H hs).2
        ((precomputePlacements W H (buildFree W H hs).1.toFinset
          tiles).placements.getD row.pid default).cells = some row.cols)
    _ _ _ ?_ ?_
  · intro row hrow
    exact absurd hrow (List.not_mem_nil _)
  · intro rs ent hent hrs
    obtain ⟨hent1, hent2⟩ := List.mem_enum hent
    rcases hrc : rowColsAux (buildFree W H hs).2 ent.2.cells with _ | cols
    · exact hrs
    · intro row hrow
      rcases List.mem_append.mp hrow with h' | h'
      · exact hrs row h'
      · rcases List.mem_singleton.mp h' with rfl
        have hget : (precomputePlacements W H (buildFree W H hs).1.toFinset
            tiles).placements.getD ent.1 default = ent.2 := by
          rw [List.getD_eq_getElem?_getD, List.getElem?_eq_getElem hent1]
          exact hent2.symm
        refine ⟨hent1, ?_, ?_⟩
        · rw [hget]
        · rw [hget]
          exact hrc

theorem buildECD_colToRows_ok (W H : Nat) (hs : Finset Cell) (tiles : List TileType) :
    ∀ (c r : Nat), r ∈ (buildExactCoverData W H hs tiles).colToRows.getD c [] →
      r < (buildExactCoverData W H hs tiles).rows.length := by
  unfold buildExactCoverData
  dsimp only
  intro c r
  revert c
  refine foldl_preserve
    (fun ctr : List (List Nat) => ∀ c, r ∈ ctr.getD c [] → r < _) _ _ _ ?_ ?_
  · intro c hc
    have : (List.replicate (buildFree W H hs).1.length ([] : List Nat)).getD c [] = [] := by
      rw [List.getD_eq_getElem?_getD, List.getElem?_replicate]
      split <;> rfl
    rw [this] at hc
    exact absurd hc (List.not_mem_nil _)
  · intro ctr ent hent hctr
    obtain ⟨hent1, _⟩ := List.mem_enum hent
    refine foldl_preserve (fun ctr : List (List Nat) => ∀ c, r ∈ ctr.getD c [] → r < _)
      _ _ _ hctr ?_
    intro ctr' cc _ hctr' c hc
    by_cases hcl : cc < ctr'.length
    · by_cases hceq : cc = c
      · subst hceq
        rw [getD_set_self' [] hcl] at hc
        rcases List.mem_append.mp hc with h' | h'
        · exact hctr' cc h'
        · rcases List.mem_singleton.mp h' with rfl
          exact hent1
      · rw [getD_set_other' [] _ hceq] at hc
        exact hctr' c hc
    · rw [List.set_eq_of_length_le (Nat.le_of_not_lt hcl)] at hc
      exact hctr' c hc


/-! ### DFS search invariants -/

theorem getD_set_true_of_true {l : List Bool} {j : Nat} (i : Nat)
    (h : l.getD j false = true) : (l.set i true).getD j false = true := by
  by_cases hij : i = j
  · subst hij
    by_cases hl : i < l.length
    · exact getD_set_self' false hl true
    · rwa [List.set_eq_of_length_le (Nat.le_of_not_lt hl)]
  · rwa [getD_set_other' false l hij]

theorem foldlSet_length (cols : List Nat) : ∀ (l0 : List Bool),
    (cols.foldl (fun (cc : List Bool) c => cc.set c true) l0).length = l0.length := by
  induction cols with
  | nil => intro l0; rfl
  | cons c rest ih =>
    intro l0
    rw [List.foldl_cons, ih, List.length_set]

theorem foldlSet_getD_true (cols : List Nat) : ∀ {l0 : List Bool} {j : Nat},
    l0.getD j false = true →
    (cols.foldl (fun (cc : List Bool) c => cc.set c true) l0).getD j false = true := by
  induction cols with
  | nil => intro _ _ h; exact h
  | cons c rest ih =>
    intro l0 j h
    rw [List.foldl_cons]
    exact ih (getD_set_true_of_true c h)

theorem foldlSet_getD_mem (cols : List Nat) : ∀ {l0 : List Bool} {j : Nat},
    j ∈ cols → j < l0.length →
    (cols.foldl (fun (cc : List Bool) c => cc.set c true) l0).getD j false = true := by
  induction cols with
  | nil =>
    intro _ _ h _
    exact absurd h (List.not_mem_nil _)
  | cons c rest ih =>
    intro l0 j hmem hlt
    rw [List.foldl_cons]
    rcases List.mem_cons.mp hmem with rfl | hmem'
    · exact foldlSet_getD_true rest (getD_set_self' false hlt true)
    · exact ih hmem' (by rw [List.length_set]; exact hlt)

theorem foldlSet_getD_not_mem (cols : List Nat) : ∀ (l0 : List Bool) {j : Nat},
    j ∉ cols →
    (cols.foldl (fun (cc : List Bool) c => cc.set c true) l0).getD j false =
      l0.getD j false := by
  induction cols with
  | nil => intro _ _ _; rfl
  | cons c rest ih =>
    intro l0 j hnm
    rw [List.foldl_cons, ih _ (fun h => hnm (List.mem_cons_of_mem _ h)),
      getD_set_other' false l0 (fun (h : c = j) => hnm (h ▸ List.mem_cons_self _ _))]

theorem chooseRow_coveredCols (rows : List Row) (ctr : List (List Nat))
    (pos : ECPos) (r : Nat) :
    (chooseRow rows ctr pos r).coveredCols =
      (rows.getD r default).cols.foldl (fun (cc : List Bool) c => cc.set c true)
        pos.coveredCols := rfl

theorem chooseRow_usedCounts (rows : List Row) (ctr : List (List Nat))
    (pos : ECPos) (r : Nat) :
    (chooseRow rows ctr pos r).usedCounts =
      pos.usedCounts.set (rows.getD r default).ti
        (pos.usedCounts.getD (rows.getD r default).ti 0 + 1) := rfl

theorem forall2_mem_left {α β : Type _} {R : α → β → Prop} :
    ∀ {l1 : List α} {l2 : List β}, List.Forall₂ R l1 l2 →
      ∀ {a}, a ∈ l1 → ∃ b ∈ l2, R a b := by
  intro l1
  induction l1 with
  | nil =>
    intro l2 _ a ha
    exact absurd ha (List.not_mem_nil _)
  | cons x rest ih =>
    intro l2 h a ha
    cases h with
    | cons hxy hrest =>
      rcases List.mem_cons.mp ha with rfl | ha'
      · exact ⟨_, List.mem_cons_self _ _, hxy⟩
      · obtain ⟨b, hb1, hb2⟩ := ih hrest ha'
        exact ⟨b, List.mem_cons_of_mem _ hb1, hb2⟩

theorem forall2_mem_right {α β : Type _} {R : α → β → Prop} :
    ∀ {l1 : List α} {l2 : List β}, List.Forall₂ R l1 l2 →
      ∀ {b}, b ∈ l2 → ∃ a ∈ l1, R a b := by
  intro l1
  induction l1 with
  | nil =>
    intro l2 h b hb
    cases h
    exact absurd hb (List.not_mem_nil _)
  | cons x rest ih =>
    intro l2 h b hb
    cases h with
    | cons hxy hrest =>
      rcases List.mem_cons.mp hb with rfl | hb'
      · exact ⟨_, List.mem_cons_self _ _, hxy⟩
      · obtain ⟨a, ha1, ha2⟩ := ih hrest hb'
        exact ⟨a, List.mem_cons_of_mem _ ha1, ha2⟩

theorem allCovered_getD {l : List Bool} (h : allCoveredB l = true) {j : Nat}
    (hj : j < l.length) : l.getD j false = true := by
  rw [List.getD_eq_getElem?_getD, List.getElem?_eq_getElem hj]
  exact List.all_eq_true.mp h _ (List.getElem_mem hj)

theorem replicate_getD_default {α : Type _} (n i : Nat) (a : α) :
    (List.replicate n a).getD i a = a := by
  rw [List.getD_eq_getElem?_getD]
  rcases lt_or_le i n with h | h
  · rw [List.getElem?_eq_getElem (by simpa using h)]
    simp
  · rw [List.getElem?_eq_none (by simpa using h)]
    rfl

theorem buildECD_colToRows_length (W H : Nat) (hs : Finset Cell)
    (tiles : List TileType) :
    (buildExactCoverData W H hs tiles).colToRows.length =
      (buildExactCoverData W H hs tiles).freeCells.length := by
  unfold buildExactCoverData
  dsimp only
  refine foldl_preserve
    (fun ctr : List (List Nat) => ctr.length = (buildFree W H hs).1.length)
    _ _ _ (by simp) ?_
  intro ctr ent _ hctr
  refine foldl_preserve (fun ctr2 : List (List Nat) =>
    ctr2.length = (buildFree W H hs).1.length) _ _ _ hctr ?_
  intro ctr2 c _ h2
  rw [List.length_set]
  exact h2

/-- Soundness invariant of `dfs`: a successful search from position `pos`
returns row indices that cover every still-uncovered column exactly once,
touch no already-covered column, and respect the remaining tile stock. -/
theorem dfs_spec (ctx : DfsCtx) (N : Nat)
    (Hct : ∀ (c r : Nat), r ∈ ctx.colToRows.getD c [] → r < ctx.rows.length)
    (Hcols : ∀ row ∈ ctx.rows, ∀ cc ∈ Row.cols row, cc < N)
    (Hti : ∀ row ∈ ctx.rows, Row.ti row < ctx.tiles.length) :
    ∀ (fuel : Nat) (pos : ECPos) (acc : DfsAcc) (found : List Nat) (acc' : DfsAcc),
    pos.coveredCols.length = N →
    pos.usedCounts.length = ctx.tiles.length →
    (∀ (ti cap : Nat), (ctx.tiles.getD ti default).count = some cap →
      pos.usedCounts.getD ti 0 ≤ cap) →
    dfs ctx fuel pos acc = (some found, acc') →
    (∀ r ∈ found, r < ctx.rows.length) ∧
    (∀ cc : Nat, cc < N →
      (pos.coveredCols.getD cc false = false →
        found.countP (fun r => decide (cc ∈ (ctx.rows.getD r default).cols)) = 1) ∧
      (pos.coveredCols.getD cc false = true →
        found.countP (fun r => decide (cc ∈ (ctx.rows.getD r default).cols)) = 0)) ∧
    (∀ (ti cap : Nat), (ctx.tiles.getD ti default).count = some cap →
      pos.usedCounts.getD ti 0 +
        found.countP (fun r => decide ((ctx.rows.getD r default).ti = ti)) ≤ cap) := by
  intro fuel
  induction fuel with
  | zero =>
    intro pos acc found acc' _ _ _ hdfs
    exact absurd hdfs (by simp [dfs])
  | succ fuel ih =>
    intro pos acc found acc' hlen hclen hcnt hdfs
    simp only [dfs] at hdfs
    by_cases hac : allCoveredB pos.coveredCols = true
    · rw [if_pos hac] at hdfs
      have hf : ([] : List Nat) = found := by
        simpa using congrArg Prod.fst hdfs
      subst hf
      refine ⟨?_, ?_, ?_⟩
      · intro r hr
        exact absurd hr (List.not_mem_nil _)
      · intro cc hccN
        constructor
        · intro hunc
          have htr := allCovered_getD hac
            (show cc < pos.coveredCols.length by rw [hlen]; exact hccN)
          rw [hunc] at htr
          exact absurd htr (by simp)
        · intro _
          simp
      · intro ti cap hcap
        simpa using hcnt ti cap hcap
    · rw [if_neg hac] at hdfs
      rcases hcc : chooseColumn ctx.tiles ctx.rows pos.usedRow pos.usedCounts
          pos.coveredCols ctx.colToRows with _ | c
      · rw [hcc] at hdfs
        exact absurd hdfs (by simp)
      · simp only [hcc] at hdfs
        by_cases hlen0 : (ctx.colToRows.getD c []).length = 0
        · rw [if_pos hlen0] at hdfs
          exact absurd hdfs (by simp)
        · rw [if_neg hlen0] at hdfs
          by_cases hcand0 :
              (dfsCandidates ctx.tiles ctx.rows pos (ctx.colToRows.getD c [])).length = 0
          · rw [if_pos hcand0] at hdfs
            exact absurd hdfs (by simp)
          · rw [if_neg hcand0] at hdfs
            have htry : ∀ (l : List Nat),
                (∀ r ∈ l, r < ctx.rows.length ∧
                  rowUsable ctx.tiles ctx.rows pos.usedRow pos.usedCounts r = true ∧
                  ∀ cc ∈ (ctx.rows.getD r default).cols,
                    pos.coveredCols.getD cc false = false) →
                ∀ (acc0 : DfsAcc) (fnd : List Nat) (acc1 : DfsAcc),
                dfsTry (dfs ctx fuel) ctx pos l acc0 = (some fnd, acc1) →
                (∀ r ∈ fnd, r < ctx.rows.length) ∧
                (∀ cc : Nat, cc < N →
                  (pos.coveredCols.getD cc false = false →
                    fnd.countP (fun r =>
                      decide (cc ∈ (ctx.rows.getD r default).cols)) = 1) ∧
                  (pos.coveredCols.getD cc false = true →
                    fnd.countP (fun r =>
                      decide (cc ∈ (ctx.rows.getD r default).cols)) = 0)) ∧
                (∀ (ti cap : Nat), (ctx.tiles.getD ti default).count = some cap →
                  pos.usedCounts.getD ti 0 +
                    fnd.countP (fun r =>
                      decide ((ctx.rows.getD r default).ti = ti)) ≤ cap) := by
              intro l
              induction l with
              | nil =>
                intro _ acc0 fnd acc1 h
                exact absurd h (by simp [dfsTry])
              | cons r rest ihl =>
                intro hcand acc0 fnd acc1 h
                obtain ⟨hrlt, husable, hunc⟩ := hcand r (List.mem_cons_self _ _)
                simp only [dfsTry] at h
                rcases hget : dfs ctx fuel (chooseRow ctx.rows ctx.colToRows pos r) acc0
                  with ⟨ores, accr⟩
                rcases ores with _ | rowsFound
                · simp only [hget] at h
                  exact ihl (fun r' hr' => hcand r' (List.mem_cons_of_mem _ hr'))
                    accr fnd acc1 h
                · simp only [hget] at h
                  have hf : r :: rowsFound = fnd := by
                    simpa using congrArg Prod.fst h
                  subst hf
                  have hrowmem : ctx.rows.getD r default ∈ ctx.rows :=
                    getD_mem' default hrlt
                  have htiN : Row.ti (ctx.rows.getD r default) < ctx.tiles.length :=
                    Hti _ hrowmem
                  have hlen' :
                      (chooseRow ctx.rows ctx.colToRows pos r).coveredCols.length = N := by
                    rw [chooseRow_coveredCols, foldlSet_length]
                    exact hlen
                  have hclen' :
                      (chooseRow ctx.rows ctx.colToRows pos r).usedCounts.length =
                        ctx.tiles.length := by
                    rw [chooseRow_usedCounts, List.length_set]
                    exact hclen
                  have hcnt' : ∀ (ti cap : Nat),
                      (ctx.tiles.getD ti default).count = some cap →
                      (chooseRow ctx.rows ctx.colToRows pos r).usedCounts.getD ti 0 ≤
                        cap := by
                    intro ti cap hcap
                    rw [chooseRow_usedCounts]
                    by_cases hti : (ctx.rows.getD r default).ti = ti
                    · subst hti
                      rw [getD_set_self' 0 (by rw [hclen]; exact htiN)]
                      unfold rowUsable at husable
                      obtain ⟨-, h2⟩ := Bool.and_eq_true_iff.mp husable
                      rw [hcap] at h2
                      exact of_decide_eq_true h2
                    · rw [getD_set_other' 0 _ hti]
                      exact hcnt ti cap hcap
                  obtain ⟨va', cov', cnt'⟩ := ih (chooseRow ctx.rows ctx.colToRows pos r)
                    acc0 rowsFound accr hlen' hclen' hcnt' hget
                  refine ⟨?_, ?_, ?_⟩
                  · intro r' hr'
                    rcases List.mem_cons.mp hr' with rfl | h'
                    · exact hrlt
                    · exact va' r' h'
                  · intro cc hccN
                    constructor
                    · intro huncov
                      rw [List.countP_cons]
                      by_cases hmem : cc ∈ (ctx.rows.getD r default).cols
                      · have hcv : (chooseRow ctx.rows ctx.colToRows pos
                            r).coveredCols.getD cc false = true := by
                          rw [chooseRow_coveredCols]
                          exact foldlSet_getD_mem _ hmem (by rw [hlen]; exact hccN)
                        rw [(cov' cc hccN).2 hcv, decide_eq_true hmem, if_pos rfl]
                      · have hcv : (chooseRow ctx.rows ctx.colToRows pos
                            r).coveredCols.getD cc false = false := by
                          rw [chooseRow_coveredCols, foldlSet_getD_not_mem _ _ hmem]
                          exact huncov
                        rw [(cov' cc hccN).1 hcv, decide_eq_false hmem,
                          if_neg Bool.false_ne_true]
                    · intro hcov
                      rw [List.countP_cons]
                      have hnmem : cc ∉ (ctx.rows.getD r default).cols := by
                        intro hm
                        have := hunc cc hm
                        rw [hcov] at this
                        exact absurd this (by simp)
                      have hcv : (chooseRow ctx.rows ctx.colToRows pos
                          r).coveredCols.getD cc false = true := by
                        rw [chooseRow_coveredCols, foldlSet_getD_not_mem _ _ hnmem]
                        exact hcov
                      rw [(cov' cc hccN).2 hcv, decide_eq_false hnmem,
                        if_neg Bool.false_ne_true]
                  · intro ti cap hcap
                    rw [List.countP_cons]
                    by_cases hti : (ctx.rows.getD r default).ti = ti
                    · subst hti
                      have hc := cnt' _ cap hcap
                      rw [chooseRow_usedCounts,
                        getD_set_self' 0 (by rw [hclen]; exact htiN)] at hc
                      rw [decide_eq_true rfl, if_pos rfl]
                      omega
                    · have hc := cnt' ti cap hcap
                      rw [chooseRow_usedCounts, getD_set_other' 0 _ hti] at hc
                      rw [decide_eq_false hti, if_neg Bool.false_ne_true]
                      omega
            refine htry _ ?_ _ _ _ hdfs
            intro r hr
            have hsh := shuffle_mem ctx.rng _ _ r hr
            have hfc := List.mem_filter.mp hsh
            obtain ⟨hu, hall⟩ := Bool.and_eq_true_iff.mp hfc.2
            refine ⟨Hct c r hfc.1, hu, ?_⟩
            intro cc hccm
            have hcc2 := List.all_eq_true.mp hall cc hccm
            simpa using hcc2

theorem countP_congr_mem {α : Type _} {p q : α → Bool} :
    ∀ {l : List α}, (∀ a ∈ l, p a = q a) → l.countP p = l.countP q := by
  intro l
  induction l with
  | nil => intro _; rfl
  | cons a rest ih =>
    intro h
    rw [List.countP_cons, List.countP_cons, h a (List.mem_cons_self _ _),
      ih (fun a2 ha2 => h a2 (List.mem_cons_of_mem _ ha2))]

theorem buildECD_colIndex (W H : Nat) (hs : Finset Cell) (tiles : List TileType) :
    (buildExactCoverData W H hs tiles).colIndex = (buildFree W H hs).2 := rfl

theorem buildECD_freeCells (W H : Nat) (hs : Finset Cell) (tiles : List TileType) :
    (buildExactCoverData W H hs tiles).freeCells = (buildFree W H hs).1 := rfl

theorem buildECD_placements (W H : Nat) (hs : Finset Cell) (tiles : List TileType) :
    (buildExactCoverData W H hs tiles).placements =
      (precomputePlacements W H (buildFree W H hs).1.toFinset tiles).placements := rfl

/-- Soundness of the first-only engine: a returned layout is an exact cover of
the free cells and respects every finite tile count. -/
theorem solveFirstExactCover_layout_ok (W H : Nat) (hs : Finset Cell)
    (tiles : List TileType) (uniq : Bool) (rng : Nat → Nat)
    (hnodup : ∀ t ∈ tiles, t.base.Nodup) :
    ∀ L, (solveFirstExactCover W H hs tiles uniq rng).1.layout = some L →
      ExactCover (boardCells W H hs).toFinset L ∧ LayoutBounded tiles L := by
  intro L hL
  simp only [solveFirstExactCover] at hL
  split at hL
  · exact absurd hL (by simp)
  · split at hL
    · exact absurd hL (by simp)
    · rename_i solutionRows acc heq
      dsimp only at hL
      rw [Option.some_inj] at hL
      subst hL
      have hpok := precomp_ok W H (buildFree W H hs).1.toFinset tiles hnodup
      have hcolIdx := buildFree_colIndex W H hs
      have hrowsok := buildECD_rows_ok W H hs tiles
      have Hcols : ∀ row ∈ (buildExactCoverData W H hs tiles).rows,
          ∀ cc ∈ Row.cols row,
            cc < (buildExactCoverData W H hs tiles).freeCells.length := by
        intro row hrow cc hcc
        obtain ⟨hpid, hti, hrc⟩ := hrowsok row hrow
        have F2 := rowColsAux_forall2 _ hrc
        obtain ⟨cell, _, hlk⟩ := forall2_mem_right F2 hcc
        rw [buildECD_colIndex] at hlk
        exact (hcolIdx.1 cell cc hlk).1
      have Hti : ∀ row ∈ (buildExactCoverData W H hs tiles).rows,
          Row.ti row < tiles.length := by
        intro row hrow
        obtain ⟨hpid, hti, -⟩ := hrowsok row hrow
        rw [hti, buildECD_placements]
        exact (hpok.1 _ (getD_mem' default
          (by rw [← buildECD_placements]; exact hpid))).2.1
      have hspec := dfs_spec
        ⟨tiles, (buildExactCoverData W H hs tiles).rows,
          (buildExactCoverData W H hs tiles).colToRows, rng⟩
        (buildExactCoverData W H hs tiles).freeCells.length
        (buildECD_colToRows_ok W H hs tiles) Hcols Hti
        ((buildExactCoverData W H hs tiles).freeCells.length + 1)
        ⟨List.replicate (buildExactCoverData W H hs tiles).colToRows.length false,
          List.replicate (buildExactCoverData W H hs tiles).rows.length false,
          List.replicate tiles.length 0⟩
        ⟨0, 0, []⟩ solutionRows acc
        (by rw [List.length_replicate, buildECD_colToRows_length])
        (by rw [List.length_replicate])
        (by
          intro ti cap hcap
          rw [replicate_getD_default]
          exact Nat.zero_le _)
        heq
      obtain ⟨hva, hcov, hcnt2⟩ := hspec
      have hmemiff : ∀ r ∈ solutionRows, ∀ (c : Cell) (i : Nat),
          (buildFree W H hs).2.lookup c = some i →
          (decide (c ∈ ((buildExactCoverData W H hs tiles).placements.getD
              ((buildExactCoverData W H hs tiles).rows.getD r default).pid
              default).cells) =
            decide (i ∈ ((buildExactCoverData W H hs tiles).rows.getD r
              default).cols)) := by
        intro r hr c i hlk
        have hrlt := hva r hr
        have hrowmem : (buildExactCoverData W H hs tiles).rows.getD r default ∈
            (buildExactCoverData W H hs tiles).rows := getD_mem' default hrlt
        obtain ⟨hpid, hti, hrc⟩ := hrowsok _ hrowmem
        have F2 := rowColsAux_forall2 _ hrc
        rw [decide_eq_decide]
        constructor
        · intro hc
          obtain ⟨j, hj, hlkj⟩ := forall2_mem_left F2 hc
          rw [buildECD_colIndex] at hlkj
          rw [hlk] at hlkj
          cases hlkj
          exact hj
        · intro hi
          obtain ⟨cell, hcell, hlkc⟩ := forall2_mem_right F2 hi
          rw [buildECD_colIndex] at hlkc
          have h1 := (hcolIdx.1 cell i hlkc).2
          have h2 := (hcolIdx.1 c i hlk).2
          rw [h1] at h2
          rw [← h2]
          exact hcell
      constructor
      · constructor
        · intro c hc
          rw [List.mem_toFinset, ← buildFree_fst] at hc
          obtain ⟨i, hlk⟩ := hcolIdx.2 c hc
          have hiN := (hcolIdx.1 c i hlk).1
          have h1 := (hcov i (by rw [← buildECD_freeCells] at hiN; exact hiN)).1
            (by rw [replicate_getD_default])
          rw [List.countP_map]
          rw [← h1]
          refine countP_congr_mem ?_
          intro r hr
          exact hmemiff r hr c i hlk
        · intro p hp c hc
          obtain ⟨r, hr, hpe⟩ := List.mem_map.mp hp
          have hrlt := hva r hr
          have hrowmem : (buildExactCoverData W H hs tiles).rows.getD r default ∈
              (buildExactCoverData W H hs tiles).rows := getD_mem' default hrlt
          obtain ⟨hpid, -, -⟩ := hrowsok _ hrowmem
          have hpmem : (buildExactCoverData W H hs tiles).placements.getD
              ((buildExactCoverData W H hs tiles).rows.getD r default).pid default ∈
              (precomputePlacements W H (buildFree W H hs).1.toFinset
                tiles).placements := by
            rw [← buildECD_placements]
            exact getD_mem' default hpid
          have hcellsub := (hpok.1 _ hpmem).1
          rw [← hpe] at hc
          have := hcellsub c hc
          rw [List.mem_toFinset, buildFree_fst] at this
          rw [List.mem_toFinset]
          exact this
      · intro ti cap hcap
        have hb := hcnt2 ti cap hcap
        rw [replicate_getD_default, Nat.zero_add] at hb
        unfold typeCount
        rw [List.countP_map]
        refine le_trans (Nat.le_of_eq (countP_congr_mem ?_)) hb
        intro r hr
        have hrlt := hva r hr
        have hrowmem : (buildExactCoverData W H hs tiles).rows.getD r default ∈
            (buildExactCoverData W H hs tiles).rows := getD_mem' default hrlt
        obtain ⟨-, hti, -⟩ := hrowsok _ hrowmem
        show decide (((buildExactCoverData W H hs tiles).placements.getD
            ((buildExactCoverData W H hs tiles).rows.getD r default).pid
            default).ti = ti) =
          decide (((buildExactCoverData W H hs tiles).rows.getD r default).ti = ti)
        rw [decide_eq_decide, hti]

/-- C1: whenever a solve returns a result, the returned layout is an exact
cover of the free set — every free cell of the board is covered by exactly one
placement, and no placement cell lies outside the free set.  This holds for
both search engines: `enumerateTilings` (balanced mode) and
`solveFirstExactCover` (first-only mode). -/
theorem C1_exact_cover (W H : Nat) (holes : Finset Cell) (tiles : List TileType)
    (uniq : Bool) (cap : Nat) (cb : Option (Nat → Nat → List Msg))
    (rng : Nat → Nat) (hnodup : ∀ t ∈ tiles, t.base.Nodup) :
    (∀ r, enumerateTilings W H holes tiles uniq cap cb rng = .ok r →
      ∀ L ∈ r.solutions, ExactCover (boardCells W H holes).toFinset L) ∧
    (∀ L, (solveFirstExactCover W H holes tiles uniq rng).1.layout = some L →
      ExactCover (boardCells W H holes).toFinset L) := by
  constructor
  · intro r hr L hL
    exact ((enumerateTilings_ok W H holes tiles uniq cap cb rng hnodup r hr).1
      L hL).1
  · intro L hL
    exact (solveFirstExactCover_layout_ok W H holes tiles uniq rng hnodup L hL).1

/-- Witness for `C1_exact_cover` on a 2×1 board with one unbounded domino. -/
theorem C1_witness :
    (∀ t ∈ [(⟨"d", [((0 : Int), (0 : Int)), ((1 : Int), (0 : Int))], true, false,
        none⟩ : TileType)], t.base.Nodup) ∧
    ((∀ r, enumerateTilings 2 1 ∅
        [⟨"d", [((0 : Int), (0 : Int)), ((1 : Int), (0 : Int))], true, false, none⟩]
        true 1 none (fun _ => 0) = .ok r →
      ∀ L ∈ r.solutions, ExactCover (boardCells 2 1 ∅).toFinset L) ∧
    (∀ L, (solveFirstExactCover 2 1 ∅
        [⟨"d", [((0 : Int), (0 : Int)), ((1 : Int), (0 : Int))], true, false, none⟩]
        true (fun _ => 0)).1.layout = some L →
      ExactCover (boardCells 2 1 ∅).toFinset L)) :=
  ⟨by decide, C1_exact_cover 2 1 ∅
    [⟨"d", [((0 : Int), (0 : Int)), ((1 : Int), (0 : Int))], true, false, none⟩]
    true 1 none (fun _ => 0) (by decide)⟩

/-- C6: whenever a solve returns a result, each tile type with a finite count
appears in the returned layout at most that many times; both engines skip
candidate placements whose tile type is out of stock. -/
theorem C6_stock_respected (W H : Nat) (holes : Finset Cell)
    (tiles : List TileType) (uniq : Bool) (cap : Nat)
    (cb : Option (Nat → Nat → List Msg)) (rng : Nat → Nat)
    (hnodup : ∀ t ∈ tiles, t.base.Nodup) :
    (∀ r, enumerateTilings W H holes tiles uniq cap cb rng = .ok r →
      ∀ L ∈ r.solutions, LayoutBounded tiles L) ∧
    (∀ L, (solveFirstExactCover W H holes tiles uniq rng).1.layout = some L →
      LayoutBounded tiles L) := by
  constructor
  · intro r hr L hL
    exact ((enumerateTilings_ok W H holes tiles uniq cap cb rng hnodup r hr).1
      L hL).2
  · intro L hL
    exact (solveFirstExactCover_layout_ok W H holes tiles uniq rng hnodup L hL).2

/-- Witness for `C6_stock_respected` on a 2×1 board with a count-1 domino. -/
theorem C6_witness :
    (∀ t ∈ [(⟨"d", [((0 : Int), (0 : Int)), ((1 : Int), (0 : Int))], true, false,
        some 1⟩ : TileType)], t.base.Nodup) ∧
    ((∀ r, enumerateTilings 2 1 ∅
        [⟨"d", [((0 : Int), (0 : Int)), ((1 : Int), (0 : Int))], true, false,
          some 1⟩]
        true 1 none (fun _ => 0) = .ok r →
      ∀ L ∈ r.solutions, LayoutBounded
        [⟨"d", [((0 : Int), (0 : Int)), ((1 : Int), (0 : Int))], true, false,
          some 1⟩] L) ∧
    (∀ L, (solveFirstExactCover 2 1 ∅
        [⟨"d", [((0 : Int), (0 : Int)), ((1 : Int), (0 : Int))], true, false,
          some 1⟩]
        true (fun _ => 0)).1.layout = some L →
      LayoutBounded
        [⟨"d", [((0 : Int), (0 : Int)), ((1 : Int), (0 : Int))], true, false,
          some 1⟩] L)) :=
  ⟨by decide, C6_stock_respected 2 1 ∅
    [⟨"d", [((0 : Int), (0 : Int)), ((1 : Int), (0 : Int))], true, false, some 1⟩]
    true 1 none (fun _ => 0) (by decide)⟩

/-! ## Worker message protocol (C7) -/

theorem bumpNodes_msgs (ctx : EnumCtx)
    (hcb : ∀ cb2, ctx.progressCb = some cb2 →
      ∀ (n f : Nat), ∀ m ∈ cb2 n f, isTerminal m = false)
    (acc : EnumAcc) (hacc : ∀ m ∈ acc.msgs, isTerminal m = false) :
    ∀ m ∈ (bumpNodes ctx acc).msgs, isTerminal m = false := by
  intro m hm
  have hm2 : m ∈ (if (acc.nodes + 1) % 5000 = 0 then
      (match ctx.progressCb with
       | some cb => acc.msgs ++ cb (acc.nodes + 1) acc.solutions.length
       | none => acc.msgs)
    else acc.msgs) := hm
  split at hm2
  · rcases hccb : ctx.progressCb with _ | cb2
    · rw [hccb] at hm2
      exact hacc m hm2
    · rw [hccb] at hm2
      have hm3 : m ∈ acc.msgs ++ cb2 (acc.nodes + 1) acc.solutions.length := hm2
      rcases List.mem_append.mp hm3 with h | h
      · exact hacc m h
      · exact hcb cb2 hccb _ _ m h
  · exact hacc m hm2

theorem recordSolution_msgs (ctx : EnumCtx) (pos : EnumPos) (acc : EnumAcc) :
    (recordSolution ctx pos acc).msgs = acc.msgs := by
  simp only [recordSolution]
  split <;> rfl

theorem branchFold_msgs (recFn : EnumPos → EnumAcc → EnumAcc) (ctx : EnumCtx)
    (pos : EnumPos)
    (hcb : ∀ cb2, ctx.progressCb = some cb2 →
      ∀ (n f : Nat), ∀ m ∈ cb2 n f, isTerminal m = false)
    (hrec : ∀ (pos2 : EnumPos) (acc : EnumAcc),
      (∀ m ∈ acc.msgs, isTerminal m = false) →
      ∀ m ∈ (recFn pos2 acc).msgs, isTerminal m = false) :
    ∀ (l : List Nat) (acc : EnumAcc),
      (∀ m ∈ acc.msgs, isTerminal m = false) →
      ∀ m ∈ (branchFold recFn ctx pos l acc).msgs, isTerminal m = false := by
  intro l
  induction l with
  | nil =>
    intro acc hacc
    exact hacc
  | cons pid rest ih =>
    intro acc hacc
    simp only [branchFold]
    split
    · exact hrec _ _ (bumpNodes_msgs ctx hcb acc hacc)
    · exact ih _ (hrec _ _ (bumpNodes_msgs ctx hcb acc hacc))

theorem enumRec_msgs (ctx : EnumCtx)
    (hcb : ∀ cb2, ctx.progressCb = some cb2 →
      ∀ (n f : Nat), ∀ m ∈ cb2 n f, isTerminal m = false) :
    ∀ (fuel : Nat) (pos : EnumPos) (acc : EnumAcc),
      (∀ m ∈ acc.msgs, isTerminal m = false) →
      ∀ m ∈ (enumRec ctx fuel pos acc).msgs, isTerminal m = false := by
  intro fuel
  induction fuel with
  | zero =>
    intro pos acc hacc
    exact hacc
  | succ fuel ih =>
    intro pos acc hacc
    simp only [enumRec]
    split
    · exact hacc
    · split
      · intro m hm
        rw [recordSolution_msgs] at hm
        exact hacc m hm
      · split
        · exact hacc
        · exact ih _ _ (bumpNodes_msgs ctx hcb acc hacc)
        · exact branchFold_msgs _ ctx _ hcb (fun pos2 acc2 hacc2 => ih pos2 acc2 hacc2)
            _ _ hacc

theorem enumerateTilings_msgs (W H : Nat) (holes : Finset Cell)
    (tiles : List TileType) (uniq : Bool) (cap : Nat)
    (cb : Option (Nat → Nat → List Msg)) (rng : Nat → Nat)
    (hcb : ∀ cb2, cb = some cb2 → ∀ (n f : Nat), ∀ m ∈ cb2 n f,
      isTerminal m = false) :
    ∀ r, enumerateTilings W H holes tiles uniq cap cb rng = .ok r →
      ∀ m ∈ r.msgs, isTerminal m = false := by
  intro r hr
  unfold enumerateTilings at hr
  dsimp only at hr
  split at hr
  · exact absurd hr (by simp)
  · cases hr
    exact enumRec_msgs
      ⟨W, H, tiles, precomputePlacements W H (boardCells W H holes).toFinset tiles,
        boardCells W H holes, (boardCells W H holes).length,
        (boardCells W H holes).toFinset, uniq, cap, cb, rng⟩
      hcb ((boardCells W H holes).length + 1)
      ⟨∅, List.replicate tiles.length 0, [], 0⟩ ⟨∅, [], 0, 0, []⟩
      (fun m hm => absurd hm (List.not_mem_nil _))

theorem dfsTry_msgs (dfsFn : ECPos → DfsAcc → Option (List Nat) × DfsAcc)
    (ctx : DfsCtx) (pos : ECPos)
    (hfn : ∀ (pos2 : ECPos) (acc : DfsAcc),
      (∀ m ∈ acc.msgs, isTerminal m = false) →
      ∀ m ∈ (dfsFn pos2 acc).2.msgs, isTerminal m = false) :
    ∀ (l : List Nat) (acc : DfsAcc),
      (∀ m ∈ acc.msgs, isTerminal m = false) →
      ∀ m ∈ (dfsTry dfsFn ctx pos l acc).2.msgs, isTerminal m = false := by
  intro l
  induction l with
  | nil =>
    intro acc hacc
    exact hacc
  | cons r rest ih =>
    intro acc hacc
    simp only [dfsTry]
    rcases hget : dfsFn (chooseRow ctx.rows ctx.colToRows pos r) acc with ⟨ores, accr⟩
    have haccr := hfn (chooseRow ctx.rows ctx.colToRows pos r) acc hacc
    rw [hget] at haccr
    rcases ores with _ | rows2
    · exact ih accr haccr
    · exact haccr

theorem dfs_msgs (ctx : DfsCtx) :
    ∀ (fuel : Nat) (pos : ECPos) (acc : DfsAcc),
      (∀ m ∈ acc.msgs, isTerminal m = false) →
      ∀ m ∈ (dfs ctx fuel pos acc).2.msgs, isTerminal m = false := by
  intro fuel
  induction fuel with
  | zero =>
    intro pos acc hacc
    exact hacc
  | succ fuel ih =>
    intro pos acc hacc
    have hacc1 : ∀ m ∈ (if (acc.nodes + 1) % 5000 = 0 then
        acc.msgs ++ [Msg.progress (acc.nodes + 1) 0] else acc.msgs),
        isTerminal m = false := by
      split
      · intro m hm
        rcases List.mem_append.mp hm with h | h
        · exact hacc m h
        · rcases List.mem_singleton.mp h with rfl
          rfl
      · exact hacc
    simp only [dfs]
    split
    · exact hacc1
    · split
      · exact hacc1
      · split
        · exact hacc1
        · split
          · exact hacc1
          · exact dfsTry_msgs _ ctx pos (fun pos2 acc2 hacc2 => ih pos2 acc2 hacc2)
              _ _ hacc1

theorem solveFirstEC_msgs (W H : Nat) (hs : Finset Cell) (tiles : List TileType)
    (uniq : Bool) (rng : Nat → Nat) :
    ∀ m ∈ (solveFirstExactCover W H hs tiles uniq rng).2, isTerminal m = false := by
  simp only [solveFirstExactCover]
  split
  · intro m hm
    exact absurd hm (List.not_mem_nil _)
  · split
    · rename_i acc heq
      have h := dfs_msgs
        ⟨tiles, (buildExactCoverData W H hs tiles).rows,
          (buildExactCoverData W H hs tiles).colToRows, rng⟩
        ((buildExactCoverData W H hs tiles).freeCells.length + 1)
        ⟨List.replicate (buildExactCoverData W H hs tiles).colToRows.length false,
          List.replicate (buildExactCoverData W H hs tiles).rows.length false,
          List.replicate tiles.length 0⟩
        ⟨0, 0, []⟩ (fun m hm => absurd hm (List.not_mem_nil _))
      rw [heq] at h
      exact h
    · rename_i rows2 acc heq
      have h := dfs_msgs
        ⟨tiles, (buildExactCoverData W H hs tiles).rows,
          (buildExactCoverData W H hs tiles).colToRows, rng⟩
        ((buildExactCoverData W H hs tiles).freeCells.length + 1)
        ⟨List.replicate (buildExactCoverData W H hs tiles).colToRows.length false,
          List.replicate (buildExactCoverData W H hs tiles).rows.length false,
          List.replicate tiles.length 0⟩
        ⟨0, 0, []⟩ (fun m hm => absurd hm (List.not_mem_nil _))
      rw [heq] at h
      exact h

theorem solveBalancedCb_progress :
    ∀ cb2, solveBalancedCb = some cb2 → ∀ (n f : Nat), ∀ m ∈ cb2 n f,
      isTerminal m = false := by
  intro cb2 hcb2
  cases hcb2
  intro n f m hm
  have hm2 : m ∈ (if f % 10 = 0 then [Msg.progress n f] else []) := hm
  by_cases hf : f % 10 = 0
  · rw [if_pos hf] at hm2
    rcases List.mem_singleton.mp hm2 with rfl
    rfl
  · rw [if_neg hf] at hm2
    exact absurd hm2 (List.not_mem_nil _)

theorem solveBalanced_msgs (W H : Nat) (hs : Finset Cell) (tiles : List TileType)
    (uniq : Bool) (bal : BalanceCfg) (cap : Option Nat) (rng : Nat → Nat) :
    ∀ res msgs, solveBalanced W H hs tiles uniq bal cap rng = .ok (res, msgs) →
      ∀ m ∈ msgs, isTerminal m = false := by
  intro res msgs h
  unfold solveBalanced at h
  rcases he : enumerateTilings W H hs tiles uniq
      (balancedCapExpr bal.maxSolutionsToEvaluate cap) solveBalancedCb rng
    with e | r
  · rw [he] at h
    exact absurd h (by simp)
  · rw [he] at h
    have hr := enumerateTilings_msgs W H hs tiles uniq
      (balancedCapExpr bal.maxSolutionsToEvaluate cap) solveBalancedCb rng
      solveBalancedCb_progress r he
    dsimp only at h
    split at h <;> (cases h; exact hr)

theorem countP_terminal_append (msgs : List Msg) (t : Msg)
    (hmsgs : ∀ m ∈ msgs, isTerminal m = false) (ht : isTerminal t = true) :
    (msgs ++ [t]).countP isTerminal = 1 := by
  rw [List.countP_append]
  have h0 : msgs.countP isTerminal = 0 :=
    List.countP_eq_zero.mpr (fun m hm => by
      intro h
      rw [hmsgs m hm] at h
      exact Bool.false_ne_true h)
  rw [h0, List.countP_cons, List.countP_nil, ht, if_pos rfl]

theorem error_not_mem_append (msgs : List Msg) (t : Msg)
    (hmsgs : ∀ m ∈ msgs, isTerminal m = false) (ht : ∀ e, t ≠ Msg.error e) :
    ∀ e, Msg.error e ∉ msgs ++ [t] := by
  intro e he
  rcases List.mem_append.mp he with h | h
  · have h2 := hmsgs _ h
    exact absurd h2 (by simp [isTerminal])
  · rcases List.mem_singleton.mp h with h2
    exact ht e h2.symm

/-- C7: for every solve request the worker posts exactly one terminal message
(`infeasible`, `result`, or `error`), and ordinary infeasibility — pre-flight
failure, or search exhaustion with no layout — is reported via `infeasible`,
never via `error`: a failed pre-flight yields exactly the `infeasible` message
with its reasons, and once pre-flight passes no `error` message can occur. -/
theorem C7_terminal_protocol (p : Payload) (rng : Nat → Nat) :
    (handle p rng).countP isTerminal = 1 ∧
    ((preflight p.W p.H p.holes.toFinset p.tileTypes).ok = false →
      handle p rng =
        [Msg.infeasible (preflight p.W p.H p.holes.toFinset p.tileTypes).reasons]) ∧
    ((preflight p.W p.H p.holes.toFinset p.tileTypes).ok = true →
      ∀ e, Msg.error e ∉ handle p rng) := by
  by_cases hok : (preflight p.W p.H p.holes.toFinset p.tileTypes).ok = true
  · have hh : handle p rng =
        (match (if p.balance.noBalance then
            Except.ok (solveFirst p.W p.H p.holes.toFinset p.tileTypes
              p.uniqueByBoardSymmetry rng)
          else solveBalanced p.W p.H p.holes.toFinset p.tileTypes
            p.uniqueByBoardSymmetry p.balance p.cap rng :
            Except String (SolveResult × List Msg)) with
        | .error e => [Msg.error e]
        | .ok (res, msgs) =>
          match res.layout with
          | none => msgs ++ [Msg.infeasible [noLayoutReason]]
          | some _ => msgs ++ [Msg.result res.found res.layout res.score]) := by
      simp only [handle]
      rw [hok, Bool.not_true]
      exact if_neg Bool.false_ne_true
    have hfin : ∀ (res : SolveResult) (msgs : List Msg),
        (∀ m ∈ msgs, isTerminal m = false) →
        handle p rng = (match res.layout with
          | none => msgs ++ [Msg.infeasible [noLayoutReason]]
          | some _ => msgs ++ [Msg.result res.found res.layout res.score]) →
        (handle p rng).countP isTerminal = 1 ∧
        (∀ e, Msg.error e ∉ handle p rng) := by
      intro res msgs hmsgs heq
      rcases hlay : res.layout with _ | L
      · rw [hlay] at heq
        rw [heq]
        exact ⟨countP_terminal_append msgs _ hmsgs rfl,
          error_not_mem_append msgs _ hmsgs (fun e h => Msg.noConfusion h)⟩
      · rw [hlay] at heq
        rw [heq]
        exact ⟨countP_terminal_append msgs _ hmsgs rfl,
          error_not_mem_append msgs _ hmsgs (fun e h => Msg.noConfusion h)⟩
    by_cases hnb : p.balance.noBalance = true
    · rw [if_pos hnb] at hh
      rcases hsf : solveFirst p.W p.H p.holes.toFinset p.tileTypes
          p.uniqueByBoardSymmetry rng with ⟨res, msgs⟩
      rw [hsf] at hh
      have hmsgs : ∀ m ∈ msgs, isTerminal m = false := by
        have h2 := solveFirstEC_msgs p.W p.H p.holes.toFinset p.tileTypes
          p.uniqueByBoardSymmetry rng
        rw [show solveFirstExactCover p.W p.H p.holes.toFinset p.tileTypes
          p.uniqueByBoardSymmetry rng = (res, msgs) from hsf] at h2
        exact h2
      obtain ⟨h1, h3⟩ := hfin res msgs hmsgs hh
      exact ⟨h1, fun hfalse => absurd hok (by rw [hfalse]; exact Bool.false_ne_true),
        fun _ => h3⟩
    · rw [if_neg hnb] at hh
      rcases hsb : solveBalanced p.W p.H p.holes.toFinset p.tileTypes
          p.uniqueByBoardSymmetry p.balance p.cap rng with e | rp
      · exfalso
        unfold solveBalanced at hsb
        rcases he : enumerateTilings p.W p.H p.holes.toFinset p.tileTypes
            p.uniqueByBoardSymmetry
            (balancedCapExpr p.balance.maxSolutionsToEvaluate p.cap)
            solveBalancedCb rng with e2 | r2
        · have hisok := (engine_ok_characterization p.W p.H p.holes.toFinset
            p.tileTypes p.uniqueByBoardSymmetry
            (balancedCapExpr p.balance.maxSolutionsToEvaluate p.cap)
            solveBalancedCb rng).2 hok
          rw [he] at hisok
          exact absurd hisok (by simp [Except.isOk, Except.toBool])
        · rw [he] at hsb
          dsimp only at hsb
          split at hsb <;> exact Except.noConfusion hsb
      · rcases rp with ⟨res, msgs⟩
        rw [hsb] at hh
        have hmsgs : ∀ m ∈ msgs, isTerminal m = false :=
          solveBalanced_msgs p.W p.H p.holes.toFinset p.tileTypes
            p.uniqueByBoardSymmetry p.balance p.cap rng res msgs hsb
        obtain ⟨h1, h3⟩ := hfin res msgs hmsgs hh
        exact ⟨h1, fun hfalse => absurd hok (by rw [hfalse]; exact Bool.false_ne_true),
          fun _ => h3⟩
  · have hfalse : (preflight p.W p.H p.holes.toFinset p.tileTypes).ok = false := by
      revert hok
      cases (preflight p.W p.H p.holes.toFinset p.tileTypes).ok <;> simp
    have hh : handle p rng =
        [Msg.infeasible (preflight p.W p.H p.holes.toFinset p.tileTypes).reasons] := by
      simp only [handle]
      rw [hfalse, Bool.not_false]
      exact if_pos rfl
    refine ⟨?_, fun _ => hh, fun h => absurd h hok⟩
    rw [hh]
    rfl

/-! ## Order-theoretic facts for the canonical-key machinery (C2) -/

theorem then_eq_iff (x y : Ordering) : x.then y = .eq ↔ x = .eq ∧ y = .eq := by
  cases x <;> simp [Ordering.then]

theorem then_gt_iff (x y : Ordering) :
    x.then y = .gt ↔ x = .gt ∨ (x = .eq ∧ y = .gt) := by
  cases x <;> simp [Ordering.then]

theorem then_swap (x y : Ordering) : (x.then y).swap = x.swap.then y.swap := by
  cases x <;> cases y <;> rfl

theorem cmp_swap_lin {α : Type _} [LinearOrder α] (x y : α) :
    compare x y = (compare y x).swap := by
  rcases lt_trichotomy x y with h | h | h
  · rw [compare_lt_iff_lt.mpr h, compare_gt_iff_gt.mpr h]
    rfl
  · rw [compare_eq_iff_eq.mpr h, compare_eq_iff_eq.mpr h.symm]
    rfl
  · rw [compare_gt_iff_gt.mpr h, compare_lt_iff_lt.mpr h]
    rfl

theorem cmp_ngt_iff {α : Type _} [LinearOrder α] (x y : α) :
    compare x y ≠ .gt ↔ x ≤ y := by
  rw [ne_eq, compare_gt_iff_gt]
  exact not_lt

theorem cellCmp_swap (a b : Cell) : cellCmp a b = (cellCmp b a).swap := by
  unfold cellCmp
  rw [then_swap, ← cmp_swap_lin, ← cmp_swap_lin]

theorem cellCmp_eq_iff (a b : Cell) : cellCmp a b = .eq ↔ a = b := by
  unfold cellCmp
  rw [then_eq_iff, compare_eq_iff_eq, compare_eq_iff_eq, Prod.ext_iff]
  tauto

theorem cellCmp_ngt_iff (a b : Cell) :
    cellCmp a b ≠ .gt ↔ (a.2 < b.2 ∨ (a.2 = b.2 ∧ a.1 ≤ b.1)) := by
  unfold cellCmp
  rw [ne_eq, then_gt_iff, compare_gt_iff_gt, compare_eq_iff_eq, compare_gt_iff_gt]
  omega

theorem cellCmp_trans_ngt {a b c : Cell} (h1 : cellCmp a b ≠ .gt)
    (h2 : cellCmp b c ≠ .gt) : cellCmp a c ≠ .gt := by
  rw [cellCmp_ngt_iff] at h1 h2 ⊢
  omega

theorem cellCmp_antisym {a b : Cell} (h1 : cellCmp a b ≠ .gt)
    (h2 : cellCmp b a ≠ .gt) : a = b := by
  rw [cellCmp_ngt_iff] at h1 h2
  obtain ⟨ax, ay⟩ := a
  obtain ⟨bx, b2⟩ := b
  simp only [Prod.mk.injEq]
  simp only at h1 h2
  omega

theorem cellsCmp_swap : ∀ (u v : List Cell), cellsCmp u v = (cellsCmp v u).swap
  | [], [] => rfl
  | [], _ :: _ => rfl
  | _ :: _, [] => rfl
  | a :: as, b :: bs => by
    show (cellCmp a b).then (cellsCmp as bs) = ((cellCmp b a).then (cellsCmp bs as)).swap
    rw [then_swap, ← cellCmp_swap, ← cellsCmp_swap as bs]

theorem cellsCmp_eq_iff : ∀ (u v : List Cell), cellsCmp u v = .eq ↔ u = v
  | [], [] => by simp [cellsCmp]
  | [], _ :: _ => by simp [cellsCmp]
  | _ :: _, [] => by simp [cellsCmp]
  | a :: as, b :: bs => by
    show (cellCmp a b).then (cellsCmp as bs) = .eq ↔ _
    rw [then_eq_iff, cellCmp_eq_iff, cellsCmp_eq_iff as bs]
    simp

theorem cellsCmp_antisym {u v : List Cell} (h1 : cellsCmp u v ≠ .gt)
    (h2 : cellsCmp v u ≠ .gt) : u = v := by
  have hs := cellsCmp_swap u v
  rcases h : cellsCmp u v with _ | _ | _
  · exfalso
    rw [h] at hs
    rcases hvu : cellsCmp v u with _ | _ | _ <;> rw [hvu] at hs
    · exact Ordering.noConfusion hs
    · exact Ordering.noConfusion hs
    · exact h2 hvu
  · exact (cellsCmp_eq_iff u v).mp h
  · exact absurd h h1

theorem cellsCmp_trans_ngt : ∀ (u v w : List Cell),
    cellsCmp u v ≠ .gt → cellsCmp v w ≠ .gt → cellsCmp u w ≠ .gt
  | [], _, w => fun _ _ => by cases w <;> simp [cellsCmp]
  | _ :: _, [], _ => fun h1 _ => absurd rfl h1
  | _ :: _, _ :: _, [] => fun _ h2 => absurd rfl h2
  | a :: as, b :: bs, c :: cs => fun h1 h2 => by
    have h1x : (cellCmp a b).then (cellsCmp as bs) ≠ .gt := h1
    have h2x : (cellCmp b c).then (cellsCmp bs cs) ≠ .gt := h2
    have hab : cellCmp a b ≠ .gt := fun h => h1x ((then_gt_iff _ _).mpr (Or.inl h))
    have hbc : cellCmp b c ≠ .gt := fun h => h2x ((then_gt_iff _ _).mpr (Or.inl h))
    show (cellCmp a c).then (cellsCmp as cs) ≠ .gt
    intro hgt
    rcases (then_gt_iff _ _).mp hgt with hac | ⟨hac, hrest⟩
    · exact cellCmp_trans_ngt hab hbc hac
    · have haceq : a = c := (cellCmp_eq_iff a c).mp hac
      have hba : cellCmp b a ≠ .gt := by
        rw [haceq]
        exact hbc
      have habeq : a = b := cellCmp_antisym hab hba
      have h1s : cellsCmp as bs ≠ .gt := fun h =>
        h1x ((then_gt_iff _ _).mpr (Or.inr ⟨(cellCmp_eq_iff a b).mpr habeq, h⟩))
      have h2s : cellsCmp bs cs ≠ .gt := fun h =>
        h2x ((then_gt_iff _ _).mpr (Or.inr ⟨(cellCmp_eq_iff b c).mpr
          (habeq ▸ haceq), h⟩))
      exact cellsCmp_trans_ngt as bs cs h1s h2s hrest

theorem placLe_iff (A B : Placement) :
    placLe A B = true ↔ (cellsCmp A.cells B.cells).then (compare A.ti B.ti) ≠ .gt := by
  unfold placLe
  exact ⟨of_decide_eq_true, decide_eq_true⟩

theorem placLe_total (A B : Placement) : placLe A B = true ∨ placLe B A = true := by
  rw [placLe_iff, placLe_iff]
  have hs : (cellsCmp A.cells B.cells).then (compare A.ti B.ti) =
      ((cellsCmp B.cells A.cells).then (compare B.ti A.ti)).swap := by
    rw [then_swap, ← cellsCmp_swap, ← cmp_swap_lin]
  rcases h : (cellsCmp B.cells A.cells).then (compare B.ti A.ti) with _ | _ | _
  · right
    exact Ordering.noConfusion
  · right
    exact Ordering.noConfusion
  · left
    rw [hs, h]
    exact Ordering.noConfusion

theorem placLe_antisym (A B : Placement) (h1 : placLe A B = true)
    (h2 : placLe B A = true) : A = B := by
  rw [placLe_iff] at h1 h2
  have hcAB : cellsCmp A.cells B.cells ≠ .gt := fun h =>
    h1 ((then_gt_iff _ _).mpr (Or.inl h))
  have hcBA : cellsCmp B.cells A.cells ≠ .gt := fun h =>
    h2 ((then_gt_iff _ _).mpr (Or.inl h))
  have hcells : A.cells = B.cells := cellsCmp_antisym hcAB hcBA
  have htAB : compare A.ti B.ti ≠ .gt := fun h =>
    h1 ((then_gt_iff _ _).mpr (Or.inr ⟨(cellsCmp_eq_iff _ _).mpr hcells, h⟩))
  have htBA : compare B.ti A.ti ≠ .gt := fun h =>
    h2 ((then_gt_iff _ _).mpr (Or.inr ⟨(cellsCmp_eq_iff _ _).mpr hcells.symm, h⟩))
  rw [cmp_ngt_iff] at htAB htBA
  have hti : A.ti = B.ti := le_antisymm htAB htBA
  cases A
  cases B
  simp only [Placement.mk.injEq]
  exact ⟨hti, hcells⟩

theorem placLe_trans (A B C : Placement) (h1 : placLe A B = true)
    (h2 : placLe B C = true) : placLe A C = true := by
  rw [placLe_iff] at h1 h2 ⊢
  have hab : cellsCmp A.cells B.cells ≠ .gt := fun h =>
    h1 ((then_gt_iff _ _).mpr (Or.inl h))
  have hbc : cellsCmp B.cells C.cells ≠ .gt := fun h =>
    h2 ((then_gt_iff _ _).mpr (Or.inl h))
  intro hgt
  rcases (then_gt_iff _ _).mp hgt with hac | ⟨hac, hrest⟩
  · exact cellsCmp_trans_ngt _ _ _ hab hbc hac
  · have haceq : A.cells = C.cells := (cellsCmp_eq_iff _ _).mp hac
    have hba : cellsCmp B.cells A.cells ≠ .gt := by
      rw [haceq]
      exact hbc
    have habeq : A.cells = B.cells := cellsCmp_antisym hab hba
    have h1t : compare A.ti B.ti ≠ .gt := fun h =>
      h1 ((then_gt_iff _ _).mpr (Or.inr ⟨(cellsCmp_eq_iff _ _).mpr habeq, h⟩))
    have h2t : compare B.ti C.ti ≠ .gt := fun h =>
      h2 ((then_gt_iff _ _).mpr (Or.inr ⟨(cellsCmp_eq_iff _ _).mpr
        (habeq ▸ haceq), h⟩))
    rw [cmp_ngt_iff] at h1t h2t
    rw [compare_gt_iff_gt] at hrest
    exact absurd (le_trans h1t h2t) (not_le.mpr hrest)

theorem cellLe_total (a b : Cell) : cellLe a b = true ∨ cellLe b a = true := by
  simp only [cellLe, decide_eq_true_eq]
  omega

theorem cellLe_trans (a b c : Cell) (h1 : cellLe a b = true)
    (h2 : cellLe b c = true) : cellLe a c = true := by
  simp only [cellLe, decide_eq_true_eq] at h1 h2 ⊢
  omega

theorem cellLe_antisym (a b : Cell) (h1 : cellLe a b = true)
    (h2 : cellLe b a = true) : a = b := by
  simp only [cellLe, decide_eq_true_eq] at h1 h2
  obtain ⟨ax, ay⟩ := a
  obtain ⟨bx, b2⟩ := b
  simp only [Prod.mk.injEq]
  simp only at h1 h2
  omega

theorem insertLe_pairwise (le : α → α → Bool)
    (htot : ∀ a b, le a b = true ∨ le b a = true)
    (htrans : ∀ a b c, le a b = true → le b c = true → le a c = true)
    (a : α) : ∀ {l : List α}, l.Pairwise (fun x y => le x y = true) →
      (insertLe le a l).Pairwise (fun x y => le x y = true) := by
  intro l
  induction l with
  | nil =>
    intro _
    exact List.pairwise_singleton _ _
  | cons b bs ih =>
    intro hp
    obtain ⟨hb, hbs⟩ := List.pairwise_cons.mp hp
    unfold insertLe
    split
    · rename_i hab
      refine List.pairwise_cons.mpr ⟨?_, hp⟩
      intro x hx
      rcases List.mem_cons.mp hx with rfl | hx2
      · exact hab
      · exact htrans a b x hab (hb x hx2)
    · rename_i hab
      have hba : le b a = true := by
        rcases htot a b with h | h
        · exact absurd h hab
        · exact h
      refine List.pairwise_cons.mpr ⟨?_, ih hbs⟩
      intro x hx
      have hx2 := (insertLe_perm le a bs).mem_iff.mp hx
      rcases List.mem_cons.mp hx2 with rfl | hx3
      · exact hba
      · exact hb x hx3

theorem sortBy_pairwise (le : α → α → Bool)
    (htot : ∀ a b, le a b = true ∨ le b a = true)
    (htrans : ∀ a b c, le a b = true → le b c = true → le a c = true) :
    ∀ (l : List α), (sortBy le l).Pairwise (fun x y => le x y = true) := by
  intro l
  induction l with
  | nil => exact List.Pairwise.nil
  | cons a as ih => exact insertLe_pairwise le htot htrans a ih

theorem sortBy_eq_of_perm (le : α → α → Bool)
    (htot : ∀ a b, le a b = true ∨ le b a = true)
    (htrans : ∀ a b c, le a b = true → le b c = true → le a c = true)
    (hanti : ∀ a b, le a b = true → le b a = true → a = b)
    {l l2 : List α} (hp : l.Perm l2) : sortBy le l = sortBy le l2 := by
  haveI : IsAntisymm α (fun x y => le x y = true) := ⟨hanti⟩
  exact List.eq_of_perm_of_sorted
    (((sortBy_perm le l).trans hp).trans (sortBy_perm le l2).symm)
    (sortBy_pairwise le htot htrans l) (sortBy_pairwise le htot htrans l2)

/-! ## The JS string order and the running-minimum fold (C2) -/

theorem charListLt_irrefl : ∀ (l : List Char), charListLt l l = false
  | [] => rfl
  | _ :: as => by
    unfold charListLt
    rw [if_neg (lt_irrefl _), if_neg (lt_irrefl _)]
    exact charListLt_irrefl as

theorem charListLt_false_antisym : ∀ {u v : List Char},
    charListLt u v = false → charListLt v u = false → u = v
  | [], [], _, _ => rfl
  | [], _ :: _, h1, _ => by simp [charListLt] at h1
  | _ :: _, [], _, h2 => by simp [charListLt] at h2
  | a :: as, b :: bs, h1, h2 => by
    unfold charListLt at h1 h2
    by_cases hab : a.toNat < b.toNat
    · rw [if_pos hab] at h1
      exact Bool.noConfusion h1
    · by_cases hba : b.toNat < a.toNat
      · rw [if_pos hba] at h2
        exact Bool.noConfusion h2
      · rw [if_neg hab, if_neg hba] at h1
        rw [if_neg hba, if_neg hab] at h2
        have hn : a.toNat = b.toNat := by omega
        have hc : a = b := by
          have h3 := congrArg Char.ofNat hn
          rwa [Char.ofNat_toNat, Char.ofNat_toNat] at h3
        rw [hc, charListLt_false_antisym h1 h2]

theorem charListLt_asymm : ∀ {u v : List Char},
    charListLt u v = true → charListLt v u = false
  | [], [], h => by simp [charListLt] at h
  | [], _ :: _, _ => rfl
  | _ :: _, [], h => by simp [charListLt] at h
  | a :: as, b :: bs, h => by
    unfold charListLt at h ⊢
    by_cases hab : a.toNat < b.toNat
    · rw [if_neg (by omega : ¬ b.toNat < a.toNat), if_pos hab]
    · by_cases hba : b.toNat < a.toNat
      · rw [if_neg hab, if_pos hba] at h
        exact Bool.noConfusion h
      · rw [if_neg hab, if_neg hba] at h
        rw [if_neg hba, if_neg hab]
        exact charListLt_asymm h

theorem charListLt_trans_false : ∀ (u v w : List Char),
    charListLt u v = false → charListLt v w = false → charListLt u w = false
  | u, _, [] => fun _ _ => by cases u <;> rfl
  | _, [], _ :: _ => fun _ h2 => by simp [charListLt] at h2
  | [], _ :: _, _ :: _ => fun h1 _ => by simp [charListLt] at h1
  | a :: as, b :: bs, c :: cs => fun h1 h2 => by
    unfold charListLt at h1 h2 ⊢
    by_cases hab : a.toNat < b.toNat
    · rw [if_pos hab] at h1
      exact Bool.noConfusion h1
    · by_cases hbc : b.toNat < c.toNat
      · rw [if_pos hbc] at h2
        exact Bool.noConfusion h2
      · by_cases hac : a.toNat < c.toNat
        · omega
        · rw [if_neg hac]
          by_cases hca : c.toNat < a.toNat
          · rw [if_pos hca]
          · rw [if_neg hca]
            rw [if_neg hab, if_neg (by omega : ¬ b.toNat < a.toNat)] at h1
            rw [if_neg hbc, if_neg (by omega : ¬ c.toNat < b.toNat)] at h2
            exact charListLt_trans_false as bs cs h1 h2

theorem strLt_irrefl (s : String) : strLt s s = false := charListLt_irrefl s.data

theorem strLt_false_antisym {s t : String} (h1 : strLt s t = false)
    (h2 : strLt t s = false) : s = t := by
  unfold strLt at h1 h2
  have h3 := charListLt_false_antisym h1 h2
  cases s
  cases t
  exact congrArg String.mk h3

theorem strLt_asymm {s t : String} (h : strLt s t = true) : strLt t s = false :=
  charListLt_asymm h

theorem strLt_trans_false {s t u : String} (h1 : strLt s t = false)
    (h2 : strLt t u = false) : strLt s u = false :=
  charListLt_trans_false _ _ _ h1 h2

theorem updateBest_some (b : Option String) (s : String) :
    ∃ y, updateBest b s = some y ∧ (y = s ∨ b = some y) ∧
      strLt s y = false ∧ (∀ x, b = some x → strLt x y = false) := by
  rcases b with _ | x0
  · exact ⟨s, rfl, Or.inl rfl, strLt_irrefl s, fun x hx => Option.noConfusion hx⟩
  · by_cases hlt : strLt s x0 = true
    · refine ⟨s, ?_, Or.inl rfl, strLt_irrefl s, ?_⟩
      · show (if strLt s x0 then some s else some x0) = some s
        rw [if_pos hlt]
      · intro x hx
        cases hx
        exact strLt_asymm hlt
    · have hlt2 : strLt s x0 = false := by
        cases hv : strLt s x0
        · rfl
        · exact absurd hv hlt
      refine ⟨x0, ?_, Or.inr rfl, hlt2, ?_⟩
      · show (if strLt s x0 then some s else some x0) = some x0
        rw [hlt2, if_neg Bool.false_ne_true]
      · intro x hx
        cases hx
        exact strLt_irrefl x0

theorem foldl_updateBest_some : ∀ (l : List String) (b : Option String) (m : String),
    l.foldl updateBest b = some m →
    (m ∈ l ∨ b = some m) ∧ (∀ s ∈ l, strLt s m = false) ∧
      (∀ x, b = some x → strLt x m = false) := by
  intro l
  induction l with
  | nil =>
    intro b m h
    have hb : b = some m := h
    refine ⟨Or.inr hb, fun s hs => absurd hs (List.not_mem_nil _), ?_⟩
    intro x hx
    rw [hb] at hx
    cases hx
    exact strLt_irrefl m
  | cons s rest ih =>
    intro b m h
    rw [List.foldl_cons] at h
    obtain ⟨hm, hrest, hacc⟩ := ih (updateBest b s) m h
    obtain ⟨y, hy, hy2, hsy, hby⟩ := updateBest_some b s
    have hym : strLt y m = false := hacc y hy
    refine ⟨?_, ?_, ?_⟩
    · rcases hm with hm | hm
      · exact Or.inl (List.mem_cons_of_mem _ hm)
      · rw [hy] at hm
        cases hm
        rcases hy2 with rfl | hb
        · exact Or.inl (List.mem_cons_self _ _)
        · exact Or.inr hb
    · intro t ht
      rcases List.mem_cons.mp ht with rfl | ht2
      · exact strLt_trans_false hsy hym
      · exact hrest t ht2
    · intro x hx
      exact strLt_trans_false (hby x hx) hym

theorem foldl_updateBest_some_acc : ∀ (l : List String) (x : String),
    ∃ m, l.foldl updateBest (some x) = some m
  | [], x => ⟨x, rfl⟩
  | s :: rest, x => by
    rw [List.foldl_cons]
    obtain ⟨y, hy, -, -, -⟩ := updateBest_some (some x) s
    rw [hy]
    exact foldl_updateBest_some_acc rest y

theorem foldl_updateBest_none : ∀ (l : List String),
    l.foldl updateBest none = none → l = []
  | [] => fun _ => rfl
  | s :: rest => fun h => by
    rw [List.foldl_cons] at h
    have hub : updateBest none s = some s := rfl
    rw [hub] at h
    obtain ⟨m, hm⟩ := foldl_updateBest_some_acc rest s
    rw [hm] at h
    exact Option.noConfusion h

theorem minString_eq_of_mem_iff {l1 l2 : List String}
    (h : ∀ s, s ∈ l1 ↔ s ∈ l2) :
    l1.foldl updateBest none = l2.foldl updateBest none := by
  rcases h1 : l1.foldl updateBest none with _ | m1
  · rcases h2 : l2.foldl updateBest none with _ | m2
    · rfl
    · obtain ⟨hm2, -, -⟩ := foldl_updateBest_some l2 none m2 h2
      rcases hm2 with hm2 | hm2
      · have h3 := (h m2).mpr hm2
        rw [foldl_updateBest_none l1 h1] at h3
        exact absurd h3 (List.not_mem_nil _)
      · exact Option.noConfusion hm2
  · obtain ⟨hm1, hmin1, -⟩ := foldl_updateBest_some l1 none m1 h1
    rcases hm1 with hm1 | hm1
    · rcases h2 : l2.foldl updateBest none with _ | m2
      · have h3 := (h m1).mp hm1
        rw [foldl_updateBest_none l2 h2] at h3
        exact absurd h3 (List.not_mem_nil _)
      · obtain ⟨hm2, hmin2, -⟩ := foldl_updateBest_some l2 none m2 h2
        rcases hm2 with hm2 | hm2
        · rw [strLt_false_antisym (hmin2 m1 ((h m1).mp hm1))
            (hmin1 m2 ((h m2).mpr hm2))]
        · exact Option.noConfusion hm2
    · exact Option.noConfusion hm1

/-! ## Serialization and transform algebra (C2) -/

theorem sortBy_cell_perm_eq {u v : List Cell} (h : u.Perm v) :
    sortBy cellLe u = sortBy cellLe v :=
  sortBy_eq_of_perm cellLe cellLe_total cellLe_trans cellLe_antisym h

theorem ser_inner_factor (f : Transform) (p : Placement) :
    Placement.mk p.ti (sortBy cellLe (p.cells.map f)) =
      Placement.mk (normP p).1 (sortBy cellLe ((normP p).2.map f)) := by
  unfold normP
  simp only
  congr 1
  exact sortBy_cell_perm_eq ((sortBy_perm cellLe p.cells).map f).symm

theorem serializeLayout_sameLayout (f : Transform) {L L2 : List Placement}
    (h : SameLayout L L2) : serializeLayout f L = serializeLayout f L2 := by
  unfold serializeLayout
  have hmap : ∀ (M : List Placement), M.map (fun p =>
      Placement.mk p.ti (sortBy cellLe (p.cells.map f))) =
      (M.map normP).map (fun q => Placement.mk q.1 (sortBy cellLe (q.2.map f))) := by
    intro M
    rw [List.map_map]
    refine List.map_congr_left ?_
    intro p _
    exact ser_inner_factor f p
  have hperm : (L.map (fun p => Placement.mk p.ti (sortBy cellLe
      (p.cells.map f)))).Perm
      (L2.map (fun p => Placement.mk p.ti (sortBy cellLe (p.cells.map f)))) := by
    rw [hmap L, hmap L2]
    exact h.map _
  rw [sortBy_eq_of_perm placLe placLe_total placLe_trans placLe_antisym hperm]

theorem serializeLayout_applyT (f g : Transform) (L : List Placement) :
    serializeLayout f (applyT g L) = serializeLayout (fun c => f (g c)) L := by
  unfold serializeLayout applyT
  rw [List.map_map]
  have hfun : ((fun p : Placement =>
        Placement.mk p.ti (sortBy cellLe (List.map f p.cells))) ∘
      fun p : Placement => Placement.mk p.ti (List.map g p.cells)) =
      fun p : Placement => Placement.mk p.ti (sortBy cellLe
        (List.map (fun c => f (g c)) p.cells)) := by
    funext p
    simp only [Function.comp, List.map_map]
    rfl
  rw [hfun]

theorem serializeLayout_congr {f f2 : Transform} (h : ∀ p, f p = f2 p)
    (L : List Placement) : serializeLayout f L = serializeLayout f2 L := by
  rw [funext h]

theorem transformOk_image_eq {f : Transform} {bs : Finset Cell}
    (h : transformOk f bs = true) : bs.image f = bs := by
  unfold transformOk at h
  obtain ⟨h1, h2⟩ := Bool.and_eq_true_iff.mp h
  exact (Finset.eq_of_subset_of_card_le (of_decide_eq_true h2)
    (le_of_eq (of_decide_eq_true h1))).symm

theorem transformOk_of_image_eq {f : Transform} {bs : Finset Cell}
    (h : bs.image f = bs) : transformOk f bs = true := by
  unfold transformOk
  rw [Bool.and_eq_true_iff]
  constructor
  · refine decide_eq_true ?_
    rw [h]
  · refine decide_eq_true ?_
    rw [h]

theorem image_comp_eq {f g : Transform} {bs : Finset Cell}
    (hf : bs.image f = bs) (hg : bs.image g = bs) :
    bs.image (fun c => f (g c)) = bs := by
  have h2 : bs.image (fun c => f (g c)) = (bs.image g).image f :=
    (Finset.image_image).symm
  rw [h2, hg, hf]

theorem image_congr_fun {f f2 : Transform} (h : ∀ p, f p = f2 p)
    (bs : Finset Cell) : bs.image f = bs.image f2 := by
  rw [funext h]

theorem normP_applyT (f : Transform) (L : List Placement) :
    (applyT f L).map normP = (L.map normP).map
      (fun q => ((q.1 : Nat), sortBy cellLe (q.2.map f))) := by
  unfold applyT normP
  rw [List.map_map, List.map_map]
  refine List.map_congr_left ?_
  intro p _
  simp only [Function.comp]
  refine congrArg _ ?_
  exact sortBy_cell_perm_eq ((sortBy_perm cellLe p.cells).map f).symm

theorem SameLayout_applyT (f : Transform) {L L2 : List Placement}
    (h : SameLayout L L2) : SameLayout (applyT f L) (applyT f L2) := by
  unfold SameLayout
  rw [normP_applyT, normP_applyT]
  exact h.map _

theorem applyT_applyT (f g : Transform) (L : List Placement) :
    applyT f (applyT g L) = applyT (fun c => f (g c)) L := by
  unfold applyT
  rw [List.map_map]
  refine List.map_congr_left ?_
  intro p _
  simp only [Function.comp, List.map_map]
  rfl

theorem applyT_congr {f f2 : Transform} (h : ∀ p, f p = f2 p)
    (L : List Placement) : applyT f L = applyT f2 L := by
  rw [funext h]

theorem applyT_id (L : List Placement) : applyT (fun p => (p.1, p.2)) L = L := by
  unfold applyT
  refine (List.map_congr_left ?_).trans (List.map_id L)
  intro p _
  show Placement.mk p.ti (p.cells.map (fun q => (q.1, q.2))) = p
  have h2 : p.cells.map (fun q : Cell => (q.1, q.2)) = p.cells :=
    (List.map_congr_left (fun q _ => rfl)).trans (List.map_id p.cells)
  rw [h2]

theorem canonFold_eq_filterMap (L : List Placement) (bs : Finset Cell) :
    ∀ (ts : List Transform) (best : Option String),
      ts.foldl (canonStep L (some bs)) best =
        ((ts.filter (fun f => transformOk f bs)).map
          (fun f => serializeLayout f L)).foldl updateBest best := by
  intro ts
  induction ts with
  | nil =>
    intro best
    rfl
  | cons f rest ih =>
    intro best
    rw [List.foldl_cons]
    by_cases hok : transformOk f bs = true
    · have hfc : (f :: rest).filter (fun f2 => transformOk f2 bs) =
          f :: rest.filter (fun f2 => transformOk f2 bs) :=
        List.filter_cons_of_pos hok
      rw [hfc, List.map_cons, List.foldl_cons]
      have hstep : canonStep L (some bs) best f =
          updateBest best (serializeLayout f L) := by
        show (if transformOk f bs then updateBest best (serializeLayout f L)
          else best) = updateBest best (serializeLayout f L)
        rw [if_pos hok]
      rw [hstep]
      exact ih _
    · have hfc : (f :: rest).filter (fun f2 => transformOk f2 bs) =
          rest.filter (fun f2 => transformOk f2 bs) :=
        List.filter_cons_of_neg (by simpa using hok)
      rw [hfc]
      have hstep : canonStep L (some bs) best f = best := by
        show (if transformOk f bs then updateBest best (serializeLayout f L)
          else best) = best
        rw [if_neg hok]
      rw [hstep]
      exact ih best

theorem canonicalKey_eq_min (L : List Placement) (W H : Nat)
    (tiles : List TileType) (bs : Finset Cell) :
    canonicalKey L W H tiles true (some bs) =
      (((boardSymTransforms W H).filter (fun f => transformOk f bs)).map
        (fun f => serializeLayout f L)).foldl updateBest none := by
  unfold canonicalKey
  exact canonFold_eq_filterMap L bs _ none

/-! ## The square-board transform family is closed under composition (C2) -/

theorem boardSym_square (W : Nat) :
    boardSymTransforms W W =
      [fun p : Cell => (p.1, p.2),
       fun p : Cell => (p.2, (W : Int) - 1 - p.1),
       fun p : Cell => ((W : Int) - 1 - p.1, (W : Int) - 1 - p.2),
       fun p : Cell => ((W : Int) - 1 - p.2, p.1),
       fun p : Cell => ((W : Int) - 1 - p.1, p.2),
       fun p : Cell => (p.1, (W : Int) - 1 - p.2),
       fun p : Cell => (p.2, p.1),
       fun p : Cell => ((W : Int) - 1 - p.2, (W : Int) - 1 - p.1)] := by
  unfold boardSymTransforms
  rw [if_pos rfl]

theorem T8_comp_mem (W : Nat) :
    ∀ f ∈ boardSymTransforms W W, ∀ g ∈ boardSymTransforms W W,
      ∃ h ∈ boardSymTransforms W W, ∀ p : Cell, h p = f (g p) := by
  intro f hf g hg
  rw [boardSym_square] at hf hg ⊢
  simp only [List.mem_cons, List.not_mem_nil, or_false] at hf hg
  rcases hf with rfl | rfl | rfl | rfl | rfl | rfl | rfl | rfl <;>
    rcases hg with rfl | rfl | rfl | rfl | rfl | rfl | rfl | rfl <;>
    first
      | (refine ⟨_, List.mem_cons_self _ _, fun p => ?_⟩;
         obtain ⟨x, y⟩ := p;
         simp only [Prod.mk.injEq, and_true, true_and] <;> omega)
      | (refine ⟨_, List.mem_cons_of_mem _ (List.mem_cons_self _ _), fun p => ?_⟩;
         obtain ⟨x, y⟩ := p;
         simp only [Prod.mk.injEq, and_true, true_and] <;> omega)
      | (refine ⟨_, List.mem_cons_of_mem _ (List.mem_cons_of_mem _ (List.mem_cons_self _ _)), fun p => ?_⟩;
         obtain ⟨x, y⟩ := p;
         simp only [Prod.mk.injEq, and_true, true_and] <;> omega)
      | (refine ⟨_, List.mem_cons_of_mem _ (List.mem_cons_of_mem _ (List.mem_cons_of_mem _ (List.mem_cons_self _ _))), fun p => ?_⟩;
         obtain ⟨x, y⟩ := p;
         simp only [Prod.mk.injEq, and_true, true_and] <;> omega)
      | (refine ⟨_, List.mem_cons_of_mem _ (List.mem_cons_of_mem _ (List.mem_cons_of_mem _ (List.mem_cons_of_mem _ (List.mem_cons_self _ _)))), fun p => ?_⟩;
         obtain ⟨x, y⟩ := p;
         simp only [Prod.mk.injEq, and_true, true_and] <;> omega)
      | (refine ⟨_, List.mem_cons_of_mem _ (List.mem_cons_of_mem _ (List.mem_cons_of_mem _ (List.mem_cons_of_mem _ (List.mem_cons_of_mem _ (List.mem_cons_self _ _))))), fun p => ?_⟩;
         obtain ⟨x, y⟩ := p;
         simp only [Prod.mk.injEq, and_true, true_and] <;> omega)
      | (refine ⟨_, List.mem_cons_of_mem _ (List.mem_cons_of_mem _ (List.mem_cons_of_mem _ (List.mem_cons_of_mem _ (List.mem_cons_of_mem _ (List.mem_cons_of_mem _ (List.mem_cons_self _ _)))))), fun p => ?_⟩;
         obtain ⟨x, y⟩ := p;
         simp only [Prod.mk.injEq, and_true, true_and] <;> omega)
      | (refine ⟨_, List.mem_cons_of_mem _ (List.mem_cons_of_mem _ (List.mem_cons_of_mem _ (List.mem_cons_of_mem _ (List.mem_cons_of_mem _ (List.mem_cons_of_mem _ (List.mem_cons_of_mem _ (List.mem_cons_self _ _))))))), fun p => ?_⟩;
         obtain ⟨x, y⟩ := p;
         simp only [Prod.mk.injEq, and_true, true_and] <;> omega)

theorem T8_inv_mem (W : Nat) :
    ∀ f ∈ boardSymTransforms W W,
      ∃ g ∈ boardSymTransforms W W, ∀ p : Cell, g (f p) = p := by
  intro f hf
  rw [boardSym_square] at hf ⊢
  simp only [List.mem_cons, List.not_mem_nil, or_false] at hf
  rcases hf with rfl | rfl | rfl | rfl | rfl | rfl | rfl | rfl <;>
    first
      | (refine ⟨_, List.mem_cons_self _ _, fun p => ?_⟩;
         obtain ⟨x, y⟩ := p;
         simp only [Prod.mk.injEq, and_true, true_and] <;> omega)
      | (refine ⟨_, List.mem_cons_of_mem _ (List.mem_cons_self _ _), fun p => ?_⟩;
         obtain ⟨x, y⟩ := p;
         simp only [Prod.mk.injEq, and_true, true_and] <;> omega)
      | (refine ⟨_, List.mem_cons_of_mem _ (List.mem_cons_of_mem _ (List.mem_cons_self _ _)), fun p => ?_⟩;
         obtain ⟨x, y⟩ := p;
         simp only [Prod.mk.injEq, and_true, true_and] <;> omega)
      | (refine ⟨_, List.mem_cons_of_mem _ (List.mem_cons_of_mem _ (List.mem_cons_of_mem _ (List.mem_cons_self _ _))), fun p => ?_⟩;
         obtain ⟨x, y⟩ := p;
         simp only [Prod.mk.injEq, and_true, true_and] <;> omega)
      | (refine ⟨_, List.mem_cons_of_mem _ (List.mem_cons_of_mem _ (List.mem_cons_of_mem _ (List.mem_cons_of_mem _ (List.mem_cons_self _ _)))), fun p => ?_⟩;
         obtain ⟨x, y⟩ := p;
         simp only [Prod.mk.injEq, and_true, true_and] <;> omega)
      | (refine ⟨_, List.mem_cons_of_mem _ (List.mem_cons_of_mem _ (List.mem_cons_of_mem _ (List.mem_cons_of_mem _ (List.mem_cons_of_mem _ (List.mem_cons_self _ _))))), fun p => ?_⟩;
         obtain ⟨x, y⟩ := p;
         simp only [Prod.mk.injEq, and_true, true_and] <;> omega)
      | (refine ⟨_, List.mem_cons_of_mem _ (List.mem_cons_of_mem _ (List.mem_cons_of_mem _ (List.mem_cons_of_mem _ (List.mem_cons_of_mem _ (List.mem_cons_of_mem _ (List.mem_cons_self _ _)))))), fun p => ?_⟩;
         obtain ⟨x, y⟩ := p;
         simp only [Prod.mk.injEq, and_true, true_and] <;> omega)
      | (refine ⟨_, List.mem_cons_of_mem _ (List.mem_cons_of_mem _ (List.mem_cons_of_mem _ (List.mem_cons_of_mem _ (List.mem_cons_of_mem _ (List.mem_cons_of_mem _ (List.mem_cons_of_mem _ (List.mem_cons_self _ _))))))), fun p => ?_⟩;
         obtain ⟨x, y⟩ := p;
         simp only [Prod.mk.injEq, and_true, true_and] <;> omega)

theorem mem_keyList {L : List Placement} {bs : Finset Cell} {W H : Nat}
    {s : String} :
    s ∈ ((boardSymTransforms W H).filter (fun f => transformOk f bs)).map
        (fun f => serializeLayout f L) ↔
      ∃ f ∈ boardSymTransforms W H, transformOk f bs = true ∧
        s = serializeLayout f L := by
  rw [List.mem_map]
  constructor
  · rintro ⟨f, hf, rfl⟩
    have h2 := List.mem_filter.mp hf
    exact ⟨f, h2.1, h2.2, rfl⟩
  · rintro ⟨f, hf, hok, rfl⟩
    exact ⟨f, List.mem_filter.mpr ⟨hf, hok⟩, rfl⟩

/-- On a square board, a retained symmetry relating two layouts forces their
canonical keys (with the board set supplied) to coincide. -/
theorem canonicalKey_eq_of_sym (W : Nat) (tiles : List TileType) (bs : Finset Cell)
    {L1 L2 : List Placement} {T : Transform}
    (hT : T ∈ boardSymTransforms W W) (hTok : transformOk T bs = true)
    (hsame : SameLayout (applyT T L1) L2) :
    canonicalKey L1 W W tiles true (some bs) =
      canonicalKey L2 W W tiles true (some bs) := by
  rw [canonicalKey_eq_min, canonicalKey_eq_min]
  refine minString_eq_of_mem_iff ?_
  intro s
  rw [mem_keyList, mem_keyList]
  have hTimg : bs.image T = bs := transformOk_image_eq hTok
  obtain ⟨Ti, hTimem, hTipt⟩ := T8_inv_mem W T hT
  have hTiimg : bs.image Ti = bs := by
    have hcomp : (Ti ∘ T) = (id : Cell → Cell) := funext (fun p => hTipt p)
    calc bs.image Ti = (bs.image T).image Ti := by rw [hTimg]
      _ = bs.image (Ti ∘ T) := Finset.image_image
      _ = bs.image id := by rw [hcomp]
      _ = bs := Finset.image_id
  have h5h : ∀ p : Cell, Ti (T p) = ((p.1, p.2) : Cell) := fun p => by rw [hTipt p]
  have h4 := SameLayout_applyT Ti hsame
  rw [applyT_applyT] at h4
  rw [@applyT_congr (fun c => Ti (T c)) (fun p => (p.1, p.2)) h5h L1,
    applyT_id] at h4
  constructor
  · rintro ⟨f, hf, hok, rfl⟩
    obtain ⟨h2, hmem2, hpt2⟩ := T8_comp_mem W f hf Ti hTimem
    refine ⟨h2, hmem2, ?_, ?_⟩
    · refine transformOk_of_image_eq ?_
      rw [image_congr_fun hpt2]
      exact image_comp_eq (transformOk_image_eq hok) hTiimg
    · rw [serializeLayout_sameLayout f h4, serializeLayout_applyT]
      exact (serializeLayout_congr hpt2 L2).symm
  · rintro ⟨f, hf, hok, rfl⟩
    obtain ⟨h2, hmem2, hpt2⟩ := T8_comp_mem W f hf T hT
    refine ⟨h2, hmem2, ?_, ?_⟩
    · refine transformOk_of_image_eq ?_
      rw [image_congr_fun hpt2]
      exact image_comp_eq (transformOk_image_eq hok) hTimg
    · rw [serializeLayout_sameLayout f hsame.symm, serializeLayout_applyT]
      exact (serializeLayout_congr hpt2 L1).symm

/-- C2 (amended): with `uniqueByBoardSymmetry` true on a square board
(`W = H`, where the transform family is the full dihedral group and is closed
under composition), no retained board-symmetry transform maps one returned
layout onto another distinct one: the canonical-key dedup set removes such
symmetric duplicates.  (On rectangular boards the engine only guarantees
distinct canonical keys, and a retained flip can still relate two returned
layouts — see the counterexample.) -/
theorem C2_symmetry_dedup (W : Nat) (holes : Finset Cell) (tiles : List TileType)
    (cap : Nat) (cb : Option (Nat → Nat → List Msg)) (rng : Nat → Nat)
    (hnodup : ∀ t ∈ tiles, t.base.Nodup) :
    ∀ r, enumerateTilings W W holes tiles true cap cb rng = .ok r →
      ∀ L1 ∈ r.solutions, ∀ L2 ∈ r.solutions, L1 ≠ L2 →
        ∀ T ∈ boardSymTransforms W W,
          transformOk T (boardCells W W holes).toFinset = true →
          ¬ SameLayout (applyT T L1) L2 := by
  intro r hr L1 h1 L2 h2 hne T hT hTok hsame
  obtain ⟨-, hpw⟩ := enumerateTilings_ok W W holes tiles true cap cb rng hnodup r hr
  have hkey := canonicalKey_eq_of_sym W tiles (boardCells W W holes).toFinset
    hT hTok hsame
  have hsymR : Symmetric (fun La Lb : List Placement =>
      canonicalKey La W W tiles true (some (boardCells W W holes).toFinset) ≠
      canonicalKey Lb W W tiles true (some (boardCells W W holes).toFinset)) :=
    fun _ _ h => h.symm
  exact hpw.forall hsymR h1 h2 hne hkey

/-- C2 (counterexample): on the rectangular 4×3 board tiled by dominoes with
`uniqueByBoardSymmetry = true`, the engine returns two distinct layouts that a
retained board-symmetry transform (one that does map the free set onto
itself) carries exactly onto one another: the rectangular transform family is
not closed under composition, so the canonical-key dedup misses the pair. -/
theorem C2_counterexample :
    ∃ L1 ∈ (((enumerateTilings 4 3 ∅
        [⟨"d", [((0 : Int), (0 : Int)), ((1 : Int), (0 : Int))], true, false, none⟩]
        true 1000 none (fun _ => 1)).toOption.map (fun r => r.solutions)).getD []),
    ∃ L2 ∈ (((enumerateTilings 4 3 ∅
        [⟨"d", [((0 : Int), (0 : Int)), ((1 : Int), (0 : Int))], true, false, none⟩]
        true 1000 none (fun _ => 1)).toOption.map (fun r => r.solutions)).getD []),
    L1 ≠ L2 ∧
      ∃ T ∈ boardSymTransforms 4 3,
        transformOk T (boardCells 4 3 ∅).toFinset = true ∧
        SameLayout (applyT T L1) L2 := by
  set_option maxRecDepth 1000000 in
  decide

/-- Witness for `C2_symmetry_dedup` on the square 2×2 board with dominoes. -/
theorem C2_witness :
    (∀ t ∈ [(⟨"d", [((0 : Int), (0 : Int)), ((1 : Int), (0 : Int))], true, false,
        none⟩ : TileType)], t.base.Nodup) ∧
    (∀ r, enumerateTilings 2 2 ∅
        [⟨"d", [((0 : Int), (0 : Int)), ((1 : Int), (0 : Int))], true, false, none⟩]
        true 10 none (fun _ => 0) = .ok r →
      ∀ L1 ∈ r.solutions, ∀ L2 ∈ r.solutions, L1 ≠ L2 →
        ∀ T ∈ boardSymTransforms 2 2,
          transformOk T (boardCells 2 2 ∅).toFinset = true →
          ¬ SameLayout (applyT T L1) L2) :=
  ⟨by decide, C2_symmetry_dedup 2 ∅
    [⟨"d", [((0 : Int), (0 : Int)), ((1 : Int), (0 : Int))], true, false, none⟩]
    10 none (fun _ => 0) (by decide)⟩

end Patio
